import Mathlib

/-!
Verification of sylar-from-scratch: IOManager, timers, scheduler, coroutines,
fd registry and hooks, lock guards, command-line arguments, ByteArray,
configuration, loggers, addresses and string utilities.

A shallow embedding of the parts of `sylar/iomanager.cc`, `sylar/timer.cc`,
`sylar/scheduler.cc`, `sylar/fiber.cc`, `sylar/fd_manager.cc`, `sylar/hook.cc`,
`sylar/socket.cc`, `sylar/mutex.h`, `sylar/env.cc`, `sylar/bytearray.cc`,
`sylar/config.h`, `sylar/config.cc`, `sylar/log.cpp`, `sylar/address.cc` and
`sylar/util.cpp` that carry the bookkeeping contracts of the runtime, followed
by theorems about them.

Conventions.  Pointers are natural-number addresses with `Option` for a
nullable pointer.  Machine integers are naturals reduced modulo `2 ^ w`; a
signed `int` that is only used as a bit pattern is kept as that pattern.  A
function whose C++ body can fail an assertion (`SYLAR_ASSERT` logs and then
calls `assert`) or run into undefined behaviour returns `Option`, with `none`
for the aborted call.
-/

namespace sylar

/-! ## Machine words -/

/-- Number of values of a 32-bit word. -/
def W32 : Nat := 4294967296

/-- Number of values of a 64-bit word. -/
def W64 : Nat := 18446744073709551616

/-- Bitwise complement `~x` of a 32-bit pattern. -/
def bitNot32 (x : Nat) : Nat := 4294967295 ^^^ (x % W32)

/-- Conversion of an unsigned 64-bit value to `int`: the low 32 bits read as
two's complement. -/
def toInt32 (x : Nat) : Int :=
  if x % W32 < 2147483648 then ((x % W32 : Nat) : Int) else ((x % W32 : Nat) : Int) - 4294967296

/-- Conversion of an `int` to `uint64_t`. -/
def toUInt64 (i : Int) : Nat := (i % 18446744073709551616).toNat

/-! ## IOManager (iomanager.cc) -/

/-- Modelled from the spec: enumerator `NONE` of `IOManager::Event`
(iomanager.h is absent); the empty mask. -/
def NONE : Nat := 0

/-- Modelled from the spec: enumerator `READ` of `IOManager::Event`
(iomanager.h is absent).  The idle loop mixes it with `EPOLLIN`, so it has
that value. -/
def READ : Nat := 1

/-- Modelled from the spec: enumerator `WRITE` of `IOManager::Event`
(iomanager.h is absent).  The idle loop mixes it with `EPOLLOUT`, so it has
that value. -/
def WRITE : Nat := 4

/-- Linux `EPOLLIN`. -/
def EPOLLIN : Nat := 1
/-- Linux `EPOLLOUT`. -/
def EPOLLOUT : Nat := 4
/-- Linux `EPOLLERR`. -/
def EPOLLERR : Nat := 8
/-- Linux `EPOLLHUP`. -/
def EPOLLHUP : Nat := 16

/-- The record `FdContext::EventContext` with the members that iomanager.cc
uses (iomanager.h is not among the sources): owning scheduler, waiting
coroutine, callback; each a nullable handle. -/
structure EventContext where
  scheduler : Option Nat
  fiber : Option Nat
  cb : Option Nat
deriving DecidableEq, Repr

/-- An event context after `resetEventContext`. -/
def EventContext.empty : EventContext := ⟨none, none, none⟩

/-- The record `IOManager::FdContext` with the members that iomanager.cc uses
(iomanager.h is not among the sources); `events` is the mask of registered
events. -/
structure FdContext where
  read : EventContext
  write : EventContext
  fd : Int
  events : Nat
deriving DecidableEq, Repr

/-- One call `scheduler->schedule(x)`: the scheduler it was made on and the
callback or coroutine handed over. -/
structure ScheduleCall where
  scheduler : Nat
  cb : Option Nat
  fiber : Option Nat
deriving DecidableEq, Repr

/-- The state of an `IOManager` that the event operations read and write:
the table of `FdContext` slots, the pending-event counter (a `size_t`), and the
sequence of `schedule` calls made so far. -/
structure IOManager where
  m_fdContexts : List FdContext
  m_pendingEventCount : Nat
  scheduled : List ScheduleCall
deriving DecidableEq, Repr

/-- Source `IOManager::FdContext::getEventContext`: the `default:` branch fails its
assertion. -/
def FdContext.getEventContext (c : FdContext) (event : Nat) : Option EventContext :=
  if event = READ then some c.read
  else if event = WRITE then some c.write
  else none

/-- Store through the reference that `getEventContext` returned. -/
def FdContext.setEventContext (c : FdContext) (event : Nat) (ctx : EventContext) : FdContext :=
  if event = READ then { c with read := ctx }
  else if event = WRITE then { c with write := ctx }
  else c

/-- Source `IOManager::FdContext::resetEventContext`. -/
def resetEventContext (_ctx : EventContext) : EventContext :=
  { scheduler := none, fiber := none, cb := none }

/-- Source `IOManager::FdContext::triggerEvent`: returns the updated context and the
`schedule` call it made.  It aborts when the event is not registered, when the
event has no context, and when the handler's scheduler pointer is null. -/
def FdContext.triggerEvent (c : FdContext) (event : Nat) : Option (FdContext × ScheduleCall) :=
  if c.events &&& event = 0 then none
  else
    let c1 : FdContext := { c with events := c.events &&& bitNot32 event }
    match c1.getEventContext event with
    | none => none
    | some ctx =>
      match ctx.scheduler with
      | none => none
      | some sch =>
        let call : ScheduleCall :=
          if ctx.cb.isSome then ⟨sch, ctx.cb, none⟩ else ⟨sch, none, ctx.fiber⟩
        some (c1.setEventContext event (resetEventContext ctx), call)

/-- A slot as `contextResize` creates it: `new FdContext` with `fd = i`.
Modelled from the spec: the member initialisers of iomanager.h (absent) give
an empty mask and empty handler records, as `addEvent` asserts of a slot
without events. -/
def FdContext.fresh (i : Nat) : FdContext :=
  { read := EventContext.empty, write := EventContext.empty, fd := (i : Int), events := NONE }

/-- Source `IOManager::contextResize`: `resize` the vector and fill the new slots. -/
def contextResize (tbl : List FdContext) (size : Nat) : List FdContext :=
  tbl.take size ++ (List.range' tbl.length (size - tbl.length)).map FdContext.fresh

/-- Statement `++m_pendingEventCount` on a `size_t`. -/
def incCount (c : Nat) : Nat := (c + 1) % W64

/-- Statement `--m_pendingEventCount` on a `size_t`. -/
def decCount (c : Nat) : Nat := (c + (W64 - 1)) % W64

/-- Source `IOManager::addEvent(fd, event, cb)`.  `rt` is what `epoll_ctl` returns,
`curScheduler` is `Scheduler::GetThis()`, `curFiber` is `Fiber::GetThis()` and
`curRunning` tells whether that coroutine is in state `RUNNING`.  The result is
the return value and the new state. -/
def IOManager.addEvent (s : IOManager) (fd : Int) (event : Nat) (cb : Option Nat)
    (rt : Int) (curScheduler : Option Nat) (curFiber : Nat) (curRunning : Bool) :
    Option (Int × IOManager) :=
  let tbl : List FdContext :=
    if (s.m_fdContexts.length : Int) > fd then s.m_fdContexts
    else contextResize s.m_fdContexts (fd.toNat + fd.toNat / 2)
  if fd < 0 then none
  else
    match tbl.get? fd.toNat with
    | none => none
    | some fd_ctx =>
      if fd_ctx.events &&& event ≠ 0 then none
      else if rt ≠ 0 then some (-1, { s with m_fdContexts := tbl })
      else
        let c1 : FdContext := { fd_ctx with events := fd_ctx.events ||| event }
        match c1.getEventContext event with
        | none => none
        | some event_ctx =>
          if event_ctx.scheduler.isSome ∨ event_ctx.fiber.isSome ∨ event_ctx.cb.isSome then none
          else
            let ctx1 : EventContext := { event_ctx with scheduler := curScheduler }
            if cb.isSome then
              some (0, { m_fdContexts := tbl.set fd.toNat (c1.setEventContext event { ctx1 with cb := cb })
                         m_pendingEventCount := incCount s.m_pendingEventCount
                         scheduled := s.scheduled })
            else if curRunning then
              some (0, { m_fdContexts := tbl.set fd.toNat
                           (c1.setEventContext event { ctx1 with fiber := some curFiber })
                         m_pendingEventCount := incCount s.m_pendingEventCount
                         scheduled := s.scheduled })
            else none

/-- Source `IOManager::delEvent(fd, event)`; `rt` is what `epoll_ctl` returns. -/
def IOManager.delEvent (s : IOManager) (fd : Int) (event : Nat) (rt : Int) :
    Option (Bool × IOManager) :=
  if (s.m_fdContexts.length : Int) ≤ fd then some (false, s)
  else if fd < 0 then none
  else
    match s.m_fdContexts.get? fd.toNat with
    | none => none
    | some fd_ctx =>
      if fd_ctx.events &&& event = 0 then some (false, s)
      else
        let new_events := fd_ctx.events &&& bitNot32 event
        if rt ≠ 0 then some (false, s)
        else
          let c1 : FdContext := { fd_ctx with events := new_events }
          match c1.getEventContext event with
          | none => none
          | some event_ctx =>
            some (true, { m_fdContexts := s.m_fdContexts.set fd.toNat
                            (c1.setEventContext event (resetEventContext event_ctx))
                          m_pendingEventCount := decCount s.m_pendingEventCount
                          scheduled := s.scheduled })

/-- Source `IOManager::cancelEvent(fd, event)`; `rt` is what `epoll_ctl` returns. -/
def IOManager.cancelEvent (s : IOManager) (fd : Int) (event : Nat) (rt : Int) :
    Option (Bool × IOManager) :=
  if (s.m_fdContexts.length : Int) ≤ fd then some (false, s)
  else if fd < 0 then none
  else
    match s.m_fdContexts.get? fd.toNat with
    | none => none
    | some fd_ctx =>
      if fd_ctx.events &&& event = 0 then some (false, s)
      else if rt ≠ 0 then some (false, s)
      else
        match fd_ctx.triggerEvent event with
        | none => none
        | some (c1, call) =>
          some (true, { m_fdContexts := s.m_fdContexts.set fd.toNat c1
                        m_pendingEventCount := decCount s.m_pendingEventCount
                        scheduled := s.scheduled ++ [call] })

/-- The block `if (mask & ev) { fd_ctx->triggerEvent(ev); --m_pendingEventCount; }`
shared by `cancelAll` and the idle loop, on the slot `c`, the counter `n` and
the list of `schedule` calls `q`. -/
def fireIf (mask ev : Nat) (st : FdContext × Nat × List ScheduleCall) :
    Option (FdContext × Nat × List ScheduleCall) :=
  if mask &&& ev ≠ 0 then
    match st.1.triggerEvent ev with
    | none => none
    | some (c1, call) => some (c1, decCount st.2.1, st.2.2 ++ [call])
  else some st

/-- Source `IOManager::cancelAll(fd)`; `rt` is what `epoll_ctl` returns. -/
def IOManager.cancelAll (s : IOManager) (fd : Int) (rt : Int) : Option (Bool × IOManager) :=
  if (s.m_fdContexts.length : Int) ≤ fd then some (false, s)
  else if fd < 0 then none
  else
    match s.m_fdContexts.get? fd.toNat with
    | none => none
    | some fd_ctx =>
      if fd_ctx.events = 0 then some (false, s)
      else if rt ≠ 0 then some (false, s)
      else
        match fireIf fd_ctx.events READ (fd_ctx, s.m_pendingEventCount, s.scheduled) with
        | none => none
        | some st1 =>
          match fireIf st1.1.events WRITE st1 with
          | none => none
          | some st2 =>
            if st2.1.events ≠ 0 then none
            else some (true, { m_fdContexts := s.m_fdContexts.set fd.toNat st2.1
                               m_pendingEventCount := st2.2.1
                               scheduled := st2.2.2 })

/-- What `epoll_wait` delivered for one ready entry: the wake-up pipe, or the
`FdContext` pointer stored by `addEvent` (an index into the table). -/
inductive EpollData where
  | tickle : EpollData
  | ptr : Nat → EpollData
deriving DecidableEq, Repr

/-- The computation of `real_events` in the `for` loop of `IOManager::idle`:
`revents` is `event.events` as `epoll_wait` reported it and `events` is
`fd_ctx->events`.  Error and hang-up are turned into the registered read and
write interests. -/
def realEvents (revents events : Nat) : Nat :=
  let ev : Nat :=
    if revents &&& (EPOLLERR ||| EPOLLHUP) ≠ 0
    then revents ||| ((EPOLLIN ||| EPOLLOUT) &&& events) else revents
  let r1 : Nat := if ev &&& EPOLLIN ≠ 0 then NONE ||| READ else NONE
  if ev &&& EPOLLOUT ≠ 0 then r1 ||| WRITE else r1

/-- One pass of the body of the `for` loop of `IOManager::idle` over a ready
entry: `data` is `event.data`, `revents` is `event.events` as `epoll_wait`
reported it and `rt2` is what `epoll_ctl` returns. -/
def IOManager.idleEvent (s : IOManager) (data : EpollData) (revents : Nat) (rt2 : Int) :
    Option IOManager :=
  match data with
  | EpollData.tickle => some s
  | EpollData.ptr i =>
    match s.m_fdContexts.get? i with
    | none => none
    | some fd_ctx =>
      let real_events : Nat := realEvents revents fd_ctx.events
      if fd_ctx.events &&& real_events = NONE then some s
      else if rt2 ≠ 0 then some s
      else
        match fireIf real_events READ (fd_ctx, s.m_pendingEventCount, s.scheduled) with
        | none => none
        | some st1 =>
          match fireIf real_events WRITE st1 with
          | none => none
          | some st2 =>
            some { m_fdContexts := s.m_fdContexts.set i st2.1
                   m_pendingEventCount := st2.2.1
                   scheduled := st2.2.2 }

/-- Constant `static const int MAX_TIMEOUT = 5000;` of `IOManager::idle`. -/
def MAX_TIMEOUT : Int := 5000

/-- The timeout computation of `IOManager::idle`: from the value `next_timeout`
that `getNextTimer` stored (through `stopping`) to the `int` passed to
`epoll_wait`. -/
def idleTimeout (next_timeout : Nat) : Int :=
  let nt : Nat :=
    if next_timeout ≠ 18446744073709551615
    then toUInt64 (min (toInt32 next_timeout) MAX_TIMEOUT)
    else toUInt64 MAX_TIMEOUT
  toInt32 nt

/-- Number of `READ`/`WRITE` bits set in an event mask. -/
def eventCount (m : Nat) : Nat :=
  (if m &&& READ ≠ 0 then 1 else 0) + (if m &&& WRITE ≠ 0 then 1 else 0)

/-- Total number of `READ`/`WRITE` bits set over all `FdContext` masks. -/
def totalEvents (tbl : List FdContext) : Nat :=
  (tbl.map (fun c => eventCount c.events)).sum

/-- The pending-event count invariant. -/
def IOManager.countInv (s : IOManager) : Prop :=
  s.m_pendingEventCount = totalEvents s.m_fdContexts

instance (s : IOManager) : Decidable s.countInv := by
  unfold IOManager.countInv
  infer_instance

/-- The constructor `IOManager::IOManager`: `contextResize(32)` on the empty
table.  Modelled from the spec: the member initialiser of iomanager.h (absent)
gives the pending-event counter the value 0. -/
def IOManager.new : IOManager :=
  { m_fdContexts := contextResize [] 32, m_pendingEventCount := 0, scheduled := [] }

/-- What the event operations keep of one slot: the mask holds only `READ` and
`WRITE`; the record of a registered event has a callback or a coroutine; the
record of an event that is not registered is reset (the condition that
`addEvent` asserts before it fills the record). -/
def FdContext.inv (c : FdContext) : Prop :=
  c.events &&& (READ ||| WRITE) = c.events ∧
  (c.events &&& READ ≠ 0 → c.read.cb.isSome ∨ c.read.fiber.isSome) ∧
  (c.events &&& WRITE ≠ 0 → c.write.cb.isSome ∨ c.write.fiber.isSome) ∧
  (c.events &&& READ = 0 → c.read = EventContext.empty) ∧
  (c.events &&& WRITE = 0 → c.write = EventContext.empty)

instance (c : FdContext) : Decidable c.inv := by
  unfold FdContext.inv
  infer_instance

/-- The table invariant: every slot satisfies `FdContext.inv`. -/
def IOManager.slotsInv (s : IOManager) : Prop := ∀ c ∈ s.m_fdContexts, c.inv

instance (s : IOManager) : Decidable s.slotsInv := by
  unfold IOManager.slotsInv
  infer_instance

/-- The record of every registered event of the slot holds a scheduler:
`addEvent` stores `Scheduler::GetThis()` there, which is null on a thread that
runs no scheduler. -/
def FdContext.hasSchedulers (c : FdContext) : Prop :=
  (c.events &&& READ ≠ 0 → c.read.scheduler.isSome) ∧
  (c.events &&& WRITE ≠ 0 → c.write.scheduler.isSome)

instance (c : FdContext) : Decidable c.hasSchedulers := by
  unfold FdContext.hasSchedulers
  infer_instance

/-- The `schedule` call that firing the handler `ctx` makes: the callback when
there is one, the waiting coroutine otherwise. -/
def handlerCall (ctx : EventContext) : List ScheduleCall :=
  match ctx.scheduler with
  | none => []
  | some sch => [if ctx.cb.isSome then ⟨sch, ctx.cb, none⟩ else ⟨sch, none, ctx.fiber⟩]

/-- The `schedule` calls for the registered events of a slot, `READ` first. -/
def firedCalls (c : FdContext) : List ScheduleCall :=
  (if c.events &&& READ ≠ 0 then handlerCall c.read else []) ++
  (if c.events &&& WRITE ≠ 0 then handlerCall c.write else [])

/-! ## Timer and TimerManager (timer.cc) -/

/-- The fields of a `Timer` object that timer.cc uses (timer.h is not among
the sources): recurring flag, period in milliseconds, absolute deadline in
milliseconds, callback (`none` is the empty `std::function`). -/
structure Timer where
  m_recurring : Bool
  m_ms : Nat
  m_next : Nat
  m_cb : Option Nat
deriving DecidableEq, Repr

/-- Memory that holds no timer. -/
def Timer.blank : Timer := ⟨false, 0, 0, none⟩

/-- The state of a `TimerManager` together with the `Timer` objects its
handles point to.  `heap` maps an address to the object stored there,
`m_timers` is the `std::set<Timer::ptr, Timer::Comparator>` in iteration
order, `live` lists the addresses of the timers created so far, and
`frontCalls` counts the calls of `onTimerInsertedAtFront`. -/
structure TimerManager where
  heap : Nat → Timer
  m_timers : List Nat
  m_tickled : Bool
  m_previouseTime : Nat
  live : List Nat
  frontCalls : Nat

/-- Assignment to the object at address `t`. -/
def store (heap : Nat → Timer) (t : Nat) (v : Timer) : Nat → Timer :=
  fun a => if a = t then v else heap a

/-- Source `Timer::Comparator::operator()` on two (nullable) `Timer::ptr`. -/
def Comparator (heap : Nat → Timer) (lhs rhs : Option Nat) : Bool :=
  match lhs, rhs with
  | none, none => false
  | none, some _ => true
  | some _, none => false
  | some l, some r =>
    if (heap l).m_next < (heap r).m_next then true
    else if (heap l).m_next > (heap r).m_next then false
    else decide (l < r)

/-- Library `std::set::lower_bound(v)`: the position of the first element that is not
ordered before `v`. -/
def lowerBound (heap : Nat → Timer) (v : Nat) : List Nat → Nat
  | [] => 0
  | x :: xs => if Comparator heap (some x) (some v) then lowerBound heap v xs + 1 else 0

/-- Library `std::set::find(v)`: the position of the element equivalent to `v`, or
`none` for `end()`. -/
def setFind (heap : Nat → Timer) (v : Nat) (l : List Nat) : Option Nat :=
  match l.get? (lowerBound heap v l) with
  | none => none
  | some x => if Comparator heap (some v) (some x) then none else some (lowerBound heap v l)

/-- Library `std::set::insert(v)`: the set afterwards; nothing is inserted when an
equivalent element is present.  The iterator it returns is
`lowerBound heap v l`. -/
def setInsert (heap : Nat → Timer) (v : Nat) : List Nat → List Nat
  | [] => [v]
  | x :: xs =>
    if Comparator heap (some x) (some v) then x :: setInsert heap v xs
    else if Comparator heap (some v) (some x) then v :: x :: xs
    else x :: xs

/-- Unsigned 64-bit addition. -/
def add64 (a b : Nat) : Nat := (a + b) % W64

/-- Unsigned 64-bit subtraction. -/
def sub64 (a b : Nat) : Nat := (a % W64 + (W64 - b % W64)) % W64

/-- The private `TimerManager::addTimer(val, lock)`. -/
def TimerManager.addTimerPtr (tm : TimerManager) (val : Nat) : TimerManager :=
  let at_front : Bool := (lowerBound tm.heap val tm.m_timers == 0) && !tm.m_tickled
  { tm with
    m_timers := setInsert tm.heap val tm.m_timers
    m_tickled := if at_front then true else tm.m_tickled
    frontCalls := if at_front then tm.frontCalls + 1 else tm.frontCalls }

/-- The public `TimerManager::addTimer(ms, cb, recurring)`: `now` is the
reading of `GetElapsedMS()` in the `Timer` constructor and `addr` is the
address of the new object, which the allocator takes outside the live
objects.  Returns the handle. -/
def TimerManager.addTimer (tm : TimerManager) (now addr ms : Nat) (cb : Option Nat)
    (recurring : Bool) : Option (Nat × TimerManager) :=
  if addr ∈ tm.live then none
  else
    let tm1 : TimerManager :=
      { tm with
        heap := store tm.heap addr
          { m_recurring := recurring, m_ms := ms, m_cb := cb, m_next := add64 now ms }
        live := addr :: tm.live }
    some (addr, tm1.addTimerPtr addr)

/-- Source `TimerManager::addConditionTimer`: the callback handed to `addTimer` is
the bound `OnTimer` closure `bound`, which is never empty. -/
def TimerManager.addConditionTimer (tm : TimerManager) (now addr ms bound : Nat)
    (recurring : Bool) : Option (Nat × TimerManager) :=
  tm.addTimer now addr ms (some bound) recurring

/-- Source `Timer::cancel()` on the timer at address `t`.  `erase(end())` is
undefined. -/
def TimerManager.cancel (tm : TimerManager) (t : Nat) : Option (Bool × TimerManager) :=
  if (tm.heap t).m_cb.isSome then
    let heap1 := store tm.heap t { tm.heap t with m_cb := none }
    match setFind heap1 t tm.m_timers with
    | none => none
    | some it => some (true, { tm with heap := heap1, m_timers := tm.m_timers.eraseIdx it })
  else some (false, tm)

/-- Source `Timer::refresh()` on the timer at address `t`; `now` is the reading of
`GetElapsedMS()`. -/
def TimerManager.refresh (tm : TimerManager) (t now : Nat) : Bool × TimerManager :=
  if ¬ (tm.heap t).m_cb.isSome then (false, tm)
  else
    match setFind tm.heap t tm.m_timers with
    | none => (false, tm)
    | some it =>
      let heap1 := store tm.heap t { tm.heap t with m_next := add64 now (tm.heap t).m_ms }
      (true, { tm with heap := heap1, m_timers := setInsert heap1 t (tm.m_timers.eraseIdx it) })

/-- Source `Timer::reset(ms, from_now)` on the timer at address `t`; `now` is the
reading of `GetElapsedMS()`. -/
def TimerManager.reset (tm : TimerManager) (t ms : Nat) (from_now : Bool) (now : Nat) :
    Bool × TimerManager :=
  if ms = (tm.heap t).m_ms ∧ from_now = false then (true, tm)
  else if ¬ (tm.heap t).m_cb.isSome then (false, tm)
  else
    match setFind tm.heap t tm.m_timers with
    | none => (false, tm)
    | some it =>
      let start : Nat := if from_now then now else sub64 (tm.heap t).m_next (tm.heap t).m_ms
      let heap1 := store tm.heap t { tm.heap t with m_ms := ms, m_next := add64 start ms }
      (true, TimerManager.addTimerPtr
        { tm with heap := heap1, m_timers := tm.m_timers.eraseIdx it } t)

/-- The test of `TimerManager::detectClockRollover`. -/
def rolloverTest (previous now_ms : Nat) : Bool :=
  decide (now_ms < previous) && decide (now_ms < sub64 previous (60 * 60 * 1000))

/-- Source `TimerManager::detectClockRollover`: the answer and the manager with
`m_previouseTime` updated. -/
def TimerManager.detectClockRollover (tm : TimerManager) (now_ms : Nat) : Bool × TimerManager :=
  (rolloverTest tm.m_previouseTime now_ms, { tm with m_previouseTime := now_ms })

/-- The loop `while(it != end && (*it)->m_next == now_ms) ++it;` started at
position `it`. -/
def skipEqual (heap : Nat → Timer) (now_ms : Nat) (l : List Nat) (it : Nat) : Nat :=
  it + ((l.drop it).takeWhile (fun t => (heap t).m_next == now_ms)).length

/-- The end of the range of expired timers in `listExpiredCb`: `nowAddr` is
the address of the temporary `now_timer`. -/
def expiredEnd (heap : Nat → Timer) (rollover : Bool) (now_ms nowAddr : Nat) (l : List Nat) : Nat :=
  let it : Nat :=
    if rollover then l.length
    else lowerBound (store heap nowAddr { Timer.blank with m_next := now_ms }) nowAddr l
  skipEqual heap now_ms l it

/-- The body of the loop `for(auto& timer : expired)` of `listExpiredCb`. -/
def expireOne (now_ms : Nat) (st : (Nat → Timer) × List Nat × List (Option Nat)) (timer : Nat) :
    (Nat → Timer) × List Nat × List (Option Nat) :=
  let cbs := st.2.2 ++ [(st.1 timer).m_cb]
  if (st.1 timer).m_recurring then
    let heap1 := store st.1 timer { st.1 timer with m_next := add64 now_ms (st.1 timer).m_ms }
    (heap1, setInsert heap1 timer st.2.1, cbs)
  else
    (store st.1 timer { st.1 timer with m_cb := none }, st.2.1, cbs)

/-- Source `TimerManager::listExpiredCb(cbs)`: `now_ms` is the reading of
`GetElapsedMS()` and `nowAddr` the address of the temporary `now_timer`.
Returns the vector `expired`, the vector `cbs` afterwards and the new state. -/
def TimerManager.listExpiredCb (tm : TimerManager) (now_ms nowAddr : Nat)
    (cbs : List (Option Nat)) : List Nat × List (Option Nat) × TimerManager :=
  match tm.m_timers with
  | [] => ([], cbs, tm)
  | first :: _ =>
    let r := tm.detectClockRollover now_ms
    let rollover := r.1
    let tm1 := r.2
    if !rollover && decide ((tm1.heap first).m_next > now_ms) then ([], cbs, tm1)
    else
      let it := expiredEnd tm1.heap rollover now_ms nowAddr tm1.m_timers
      let expired := tm1.m_timers.take it
      let st := expired.foldl (expireOne now_ms) (tm1.heap, tm1.m_timers.drop it, cbs)
      (expired, st.2.2, { tm1 with heap := st.1, m_timers := st.2.1 })

/-- Source `TimerManager::getNextTimer`. -/
def TimerManager.getNextTimer (tm : TimerManager) (now_ms : Nat) : Nat × TimerManager :=
  match tm.m_timers with
  | [] => (18446744073709551615, { tm with m_tickled := false })
  | next :: _ =>
    if now_ms ≥ (tm.heap next).m_next then (0, { tm with m_tickled := false })
    else ((tm.heap next).m_next - now_ms, { tm with m_tickled := false })

/-- The part of `IOManager::idle` that collects the expired callbacks and
hands them to `schedule`: returns the arguments of the `schedule` calls in the
order they are made, and the timer state. -/
def idleTimers (tm : TimerManager) (now_ms nowAddr : Nat) : List (Option Nat) × TimerManager :=
  let r := tm.listExpiredCb now_ms nowAddr []
  let cbs := r.2.1
  (if !cbs.isEmpty then cbs.foldl (fun calls cb => calls ++ [cb]) [] else [], r.2.2)

/-- A manager right after construction at clock reading `now`. -/
def TimerManager.init (now : Nat) : TimerManager :=
  { heap := fun _ => Timer.blank, m_timers := [], m_tickled := false,
    m_previouseTime := now, live := [], frontCalls := 0 }

/-- The strict order of `Timer::Comparator` on two timers: by deadline, then
by address. -/
def timerLt (heap : Nat → Timer) (a b : Nat) : Prop :=
  (heap a).m_next < (heap b).m_next ∨ ((heap a).m_next = (heap b).m_next ∧ a < b)

instance (heap : Nat → Timer) (a b : Nat) : Decidable (timerLt heap a b) := by
  unfold timerLt
  infer_instance

/-- The set invariant of `std::set`: strictly increasing in iteration order. -/
def SetSorted (h : Nat → Timer) (l : List Nat) : Prop := l.Pairwise (timerLt h)

instance (heap : Nat → Timer) (l : List Nat) : Decidable (SetSorted heap l) := by
  unfold SetSorted
  infer_instance

/-- What the loop of `listExpiredCb` leaves of an expired timer `x`: a
recurring one gets the deadline `now + period`, another one loses its
callback. -/
def firedTimer (now : Nat) (x : Timer) : Timer :=
  if x.m_recurring then { x with m_next := add64 now x.m_ms } else { x with m_cb := none }

/-- The timers that a call of `listExpiredCb` at clock reading `now` treats as
expired: all of them when the rollover test fires, else those whose deadline
is not after `now`. -/
def expiredNow (tm : TimerManager) (now : Nat) (t : Nat) : Bool :=
  rolloverTest tm.m_previouseTime now || decide ((tm.heap t).m_next ≤ now)

/-- The calls a client can make on a timer manager and its handles, each with
the environment's answers it consumes (clock readings, addresses of new
objects). -/
inductive TimerOp where
  | addTimer (now addr ms : Nat) (cb : Option Nat) (recurring : Bool) : TimerOp
  | addConditionTimer (now addr ms bound : Nat) (recurring : Bool) : TimerOp
  | cancel (t : Nat) : TimerOp
  | refresh (t now : Nat) : TimerOp
  | reset (t ms : Nat) (from_now : Bool) (now : Nat) : TimerOp
  | listExpiredCb (now nowAddr : Nat) : TimerOp
deriving DecidableEq, Repr

/-- One call: the state afterwards, or `none` when the call is undefined or
the allocator would have to hand out the address of a live object. -/
def TimerManager.step (tm : TimerManager) : TimerOp → Option TimerManager
  | TimerOp.addTimer now addr ms cb recurring =>
    (tm.addTimer now addr ms cb recurring).map (fun r => r.2)
  | TimerOp.addConditionTimer now addr ms bound recurring =>
    (tm.addConditionTimer now addr ms bound recurring).map (fun r => r.2)
  | TimerOp.cancel t => (tm.cancel t).map (fun r => r.2)
  | TimerOp.refresh t now => some (tm.refresh t now).2
  | TimerOp.reset t ms from_now now => some (tm.reset t ms from_now now).2
  | TimerOp.listExpiredCb now nowAddr =>
    if nowAddr ∈ tm.live then none else some (tm.listExpiredCb now nowAddr []).2.2

/-- A sequence of calls, left to right. -/
def TimerManager.run (tm : TimerManager) : List TimerOp → Option TimerManager
  | [] => some tm
  | op :: ops =>
    match tm.step op with
    | none => none
    | some tm1 => tm1.run ops

/-- Whether the call `op` made in state `tm` ends the life of the timer at `t`:
a `cancel` of `t` that returns `true`, or a `listExpiredCb` that fires `t` as a
non-recurring timer. -/
def TimerManager.kills (tm : TimerManager) (op : TimerOp) (t : Nat) : Bool :=
  match op with
  | TimerOp.cancel u => decide (u = t) && (tm.heap t).m_cb.isSome
  | TimerOp.listExpiredCb now nowAddr =>
    decide (t ∈ (tm.listExpiredCb now nowAddr []).1) && !(tm.heap t).m_recurring
  | _ => false

/-- Whether some call of the sequence `ops`, run from `tm`, ends the life of
the timer at `t`. -/
def TimerManager.killedIn (tm : TimerManager) : List TimerOp → Nat → Bool
  | [], _ => false
  | op :: ops, t =>
    tm.kills op t ||
      (match tm.step op with
       | none => false
       | some tm1 => tm1.killedIn ops t)

/-- The invariant of the manager as a whole: the set is ordered by the
comparator, holds only timers that were created, and holds every timer whose
callback is not empty. -/
def TimerManager.wf (tm : TimerManager) : Prop :=
  SetSorted tm.heap tm.m_timers ∧ (∀ x ∈ tm.m_timers, x ∈ tm.live) ∧
    (∀ x, (tm.heap x).m_cb.isSome = true → x ∈ tm.m_timers)

/-! ## Scheduler (scheduler.cc) -/

/-- Enumeration `Fiber::State` with the three states that fiber.cc and
scheduler.cc use (fiber.h is not among the sources). -/
inductive FiberState where
  | READY : FiberState
  | RUNNING : FiberState
  | TERM : FiberState
deriving DecidableEq, Repr

/-- Modelled from the spec: the record `ScheduleTask` of scheduler.h (absent):
a coroutine handle or a callable, plus the thread affinity (`-1` for any
worker). -/
structure ScheduleTask where
  fiber : Option Nat
  cb : Option Nat
  thread : Int
deriving DecidableEq, Repr

/-- What the selection block of `Scheduler::run` leaves behind: the local
`task` (`none` after `task.reset()` when nothing was taken), the queue
`m_tasks`, the flag `tickle_me`, and the number of times
`m_activeThreadCount` was incremented. -/
structure Selection where
  task : Option ScheduleTask
  m_tasks : List ScheduleTask
  tickle_me : Bool
  activeInc : Nat
deriving DecidableEq, Repr

/-- The guard `it->fiber && it->fiber->getState() == Fiber::RUNNING`. -/
def fiberRunning (getState : Nat → FiberState) (t : ScheduleTask) : Bool :=
  match t.fiber with
  | some f => decide (getState f = FiberState.RUNNING)
  | none => false

/-- The block of `Scheduler::run` that holds `m_mutex`: the `while` loop over
`m_tasks` followed by `tickle_me |= (it != m_tasks.end())`.  `getState` reads
`Fiber::getState()` of the coroutine at an address, `threadId` is
`sylar::GetThreadId()`.  The result is `none` when
`SYLAR_ASSERT(it->fiber || it->cb)` fails. -/
def selectTask (getState : Nat → FiberState) (threadId : Int) :
    List ScheduleTask → Option Selection
  | [] => some { task := none, m_tasks := [], tickle_me := false, activeInc := 0 }
  | it :: rest =>
    if it.thread ≠ -1 ∧ it.thread ≠ threadId then
      (selectTask getState threadId rest).map
        (fun r => { r with m_tasks := it :: r.m_tasks, tickle_me := true })
    else if it.fiber.isNone ∧ it.cb.isNone then none
    else if fiberRunning getState it then
      (selectTask getState threadId rest).map (fun r => { r with m_tasks := it :: r.m_tasks })
    else
      some { task := some it, m_tasks := rest, tickle_me := !rest.isEmpty, activeInc := 1 }

/-- The tasks the thread `threadId` may run: affinity `-1` or `threadId`. -/
def affinityOk (threadId : Int) (t : ScheduleTask) : Bool :=
  decide (t.thread = -1) || decide (t.thread = threadId)

/-- The tasks the selection loop accepts: the affinity fits and the task does
not carry a coroutine that is in state `RUNNING`. -/
def selectable (getState : Nat → FiberState) (threadId : Int) (t : ScheduleTask) : Bool :=
  affinityOk threadId t && !fiberRunning getState t

/-! ## File descriptor contexts and the fcntl/ioctl hooks (fd_manager.cc, hook.cc) -/

/-- Linux `O_NONBLOCK`. -/
def O_NONBLOCK : Nat := 2048

/-- The status flags that Linux lets `F_SETFL` change:
`O_APPEND | O_NONBLOCK | O_ASYNC | O_DIRECT | O_NOATIME`. -/
def SETFL_MASK : Nat := 1024 ||| 2048 ||| 8192 ||| 16384 ||| 262144

/-- The fields of `FdCtx` as its constructor in fd_manager.cc lists them
(fd_manager.h is not among the sources). -/
structure FdCtx where
  m_isInit : Bool
  m_isSocket : Bool
  m_sysNonblock : Bool
  m_userNonblock : Bool
  m_isClosed : Bool
  m_fd : Int
  m_recvTimeout : Nat
  m_sendTimeout : Nat
deriving DecidableEq, Repr

/-- What the kernel holds for one open descriptor: whether `fstat` succeeds,
whether it reports a socket, and the file status flags. -/
structure KernelFd where
  statOk : Bool
  isSock : Bool
  flags : Nat
deriving DecidableEq, Repr

/-- The kernel's `O_NONBLOCK` flag of a descriptor. -/
def KernelFd.nonblock (k : KernelFd) : Bool := k.flags &&& O_NONBLOCK != 0

/-- The original `fcntl(fd, F_GETFL)`. -/
def fcntl_f_GETFL (k : KernelFd) : Nat := k.flags

/-- The original `fcntl(fd, F_SETFL, arg)`: the changeable status flags are
taken from `arg`. -/
def fcntl_f_SETFL (k : KernelFd) (arg : Nat) : KernelFd :=
  { k with flags := (k.flags &&& bitNot32 SETFL_MASK) ||| (arg &&& SETFL_MASK) }

/-- The original `ioctl(fd, FIONBIO, &v)`: sets `O_NONBLOCK` when `v` is not
zero and clears it when `v` is zero. -/
def ioctl_f (k : KernelFd) (v : Nat) : KernelFd :=
  { k with flags := if v ≠ 0 then k.flags ||| O_NONBLOCK else k.flags &&& bitNot32 O_NONBLOCK }

/-- Source `FdCtx::init()`. -/
def FdCtx.init (c : FdCtx) (k : KernelFd) : Bool × FdCtx × KernelFd :=
  if c.m_isInit then (true, c, k)
  else
    let c1 : FdCtx := { c with m_recvTimeout := 18446744073709551615,
                               m_sendTimeout := 18446744073709551615 }
    let c2 : FdCtx :=
      if !k.statOk then { c1 with m_isInit := false, m_isSocket := false }
      else { c1 with m_isInit := true, m_isSocket := k.isSock }
    let r : FdCtx × KernelFd :=
      if c2.m_isSocket then
        let flags := fcntl_f_GETFL k
        let k1 := if flags &&& O_NONBLOCK = 0 then fcntl_f_SETFL k (flags ||| O_NONBLOCK) else k
        ({ c2 with m_sysNonblock := true }, k1)
      else ({ c2 with m_sysNonblock := false }, k)
    let c3 : FdCtx := { r.1 with m_userNonblock := false, m_isClosed := false }
    (c3.m_isInit, c3, r.2)

/-- The constructor `FdCtx::FdCtx(fd)`. -/
def FdCtx.new (fd : Int) (k : KernelFd) : FdCtx × KernelFd :=
  let c0 : FdCtx :=
    { m_isInit := false, m_isSocket := false, m_sysNonblock := false, m_userNonblock := false,
      m_isClosed := false, m_fd := fd, m_recvTimeout := 18446744073709551615,
      m_sendTimeout := 18446744073709551615 }
  ((c0.init k).2.1, (c0.init k).2.2)

/-- The result of a hooked call on one descriptor: the value returned, the
argument handed to the original function, the registry entry and the kernel
state afterwards. -/
structure HookResult where
  ret : Nat
  passed : Nat
  ctx : Option FdCtx
  kernel : KernelFd
deriving DecidableEq, Repr

/-- The hooked `fcntl(fd, F_SETFL, arg)`; `ctx` is what
`FdMgr::GetInstance()->get(fd)` returns.  The original call succeeds and
returns `0`. -/
def hook_fcntl_SETFL (ctx : Option FdCtx) (k : KernelFd) (arg : Nat) : HookResult :=
  match ctx with
  | none => { ret := 0, passed := arg, ctx := none, kernel := fcntl_f_SETFL k arg }
  | some c =>
    if c.m_isClosed || !c.m_isSocket then
      { ret := 0, passed := arg, ctx := some c, kernel := fcntl_f_SETFL k arg }
    else
      let c1 : FdCtx := { c with m_userNonblock := arg &&& O_NONBLOCK != 0 }
      let arg1 : Nat :=
        if c1.m_sysNonblock then arg ||| O_NONBLOCK else arg &&& bitNot32 O_NONBLOCK
      { ret := 0, passed := arg1, ctx := some c1, kernel := fcntl_f_SETFL k arg1 }

/-- The hooked `fcntl(fd, F_GETFL)`: the value returned to the caller. -/
def hook_fcntl_GETFL (ctx : Option FdCtx) (k : KernelFd) : Nat :=
  let arg := fcntl_f_GETFL k
  match ctx with
  | none => arg
  | some c =>
    if c.m_isClosed || !c.m_isSocket then arg
    else if c.m_userNonblock then arg ||| O_NONBLOCK
    else arg &&& bitNot32 O_NONBLOCK

/-- The hooked `ioctl(d, FIONBIO, &v)`.  The original call succeeds and
returns `0`. -/
def hook_ioctl (ctx : Option FdCtx) (k : KernelFd) (v : Nat) : HookResult :=
  let user_nonblock : Bool := v != 0
  match ctx with
  | none => { ret := 0, passed := v, ctx := none, kernel := ioctl_f k v }
  | some c =>
    if c.m_isClosed || !c.m_isSocket then
      { ret := 0, passed := v, ctx := some c, kernel := ioctl_f k v }
    else
      { ret := 0, passed := v, ctx := some { c with m_userNonblock := user_nonblock },
        kernel := ioctl_f k v }

/-! ## Coroutines (fiber.cc) -/

/-- The members of a non-root `Fiber` that `resume`, `yield` and `MainFunc`
read or write: the state, the entry callable (`none` for an empty
`std::function`) and the flag `m_runInScheduler`. -/
structure Fiber where
  m_state : FiberState
  m_cb : Option Nat
  m_runInScheduler : Bool
deriving DecidableEq, Repr

/-- Source `Fiber::resume()`, the effect on the members: `none` when
`SYLAR_ASSERT(m_state != TERM && m_state != RUNNING)` fails. -/
def Fiber.resume (f : Fiber) : Option Fiber :=
  if f.m_state ≠ FiberState.TERM ∧ f.m_state ≠ FiberState.RUNNING then
    some { f with m_state := FiberState.RUNNING }
  else none

/-- Source `Fiber::yield()`, the effect on the members: `none` when
`SYLAR_ASSERT(m_state == RUNNING || m_state == TERM)` fails. -/
def Fiber.yield (f : Fiber) : Option Fiber :=
  if f.m_state = FiberState.RUNNING ∨ f.m_state = FiberState.TERM then
    some (if f.m_state ≠ FiberState.TERM then { f with m_state := FiberState.READY } else f)
  else none

/-- Source `Fiber::MainFunc()` from the return of `cur->m_cb()` on:
`cur->m_cb = nullptr; cur->m_state = TERM; raw_ptr->yield()`. -/
def Fiber.MainFunc (f : Fiber) : Option Fiber :=
  Fiber.yield { f with m_cb := none, m_state := FiberState.TERM }

/-- One thread as fiber.cc sees it: the non-root coroutines by address, the
thread-local `t_fiber` (`none` stands for the thread's root coroutine
`t_thread_fiber`), the coroutine `Scheduler::GetMainFiber()` (`none` when it is
the root coroutine) and the number of `swapcontext` calls made so far. -/
structure FiberThread where
  fibers : Nat → Fiber
  t_fiber : Option Nat
  mainFiber : Option Nat
  swaps : Nat

/-- The events of a thread that touch `m_state`: a call of `resume` or of
`yield` on the coroutine at an address, and the return of the entry function
inside `MainFunc`. -/
inductive FiberOp where
  | resume : Nat → FiberOp
  | yield : Nat → FiberOp
  | entryReturn : FiberOp
deriving DecidableEq, Repr

/-- The coroutine whose context `resume` saves and to which `yield` returns:
`Scheduler::GetMainFiber()` when `m_runInScheduler`, else `t_thread_fiber`. -/
def FiberThread.peer (th : FiberThread) (f : Nat) : Option Nat :=
  if (th.fibers f).m_runInScheduler then th.mainFiber else none

/-- One event on the thread.  `resume` does `SetThis(this)` and one
`swapcontext`; `yield` does `SetThis` of the peer and one `swapcontext`; the
entry function returns in the coroutine `cur = GetThis()` of `MainFunc`, which
then yields.  The result is `none` when an assertion fails, and for
`entryReturn` also when the root coroutine, which has no entry function, is
the current one. -/
def FiberThread.step (th : FiberThread) : FiberOp → Option FiberThread
  | FiberOp.resume f =>
    match (th.fibers f).resume with
    | none => none
    | some g => some { th with fibers := Function.update th.fibers f g, t_fiber := some f,
                               swaps := th.swaps + 1 }
  | FiberOp.yield f =>
    match (th.fibers f).yield with
    | none => none
    | some g => some { th with fibers := Function.update th.fibers f g, t_fiber := th.peer f,
                               swaps := th.swaps + 1 }
  | FiberOp.entryReturn =>
    match th.t_fiber with
    | none => none
    | some f =>
      match (th.fibers f).MainFunc with
      | none => none
      | some g => some { th with fibers := Function.update th.fibers f g, t_fiber := th.peer f,
                                 swaps := th.swaps + 1 }

/-- A sequence of events, stopping at the first failed assertion. -/
def FiberThread.run (th : FiberThread) : List FiberOp → Option FiberThread
  | [] => some th
  | op :: ops =>
    match th.step op with
    | none => none
    | some th1 => th1.run ops

/-- The calling convention that the comment above `Fiber::resume` states and
every call site in scheduler.cc, iomanager.cc and hook.cc follows: `resume` is
called from the peer coroutine, `yield` is called by the running coroutine on
itself (`Fiber::GetThis()->yield()`), and an entry function returns in a
non-root coroutine. -/
def FiberThread.disciplined (th : FiberThread) : FiberOp → Bool
  | FiberOp.resume f => decide (th.t_fiber = th.peer f)
  | FiberOp.yield f => decide (th.t_fiber = some f)
  | FiberOp.entryReturn => th.t_fiber.isSome

/-- The current non-root coroutine is RUNNING; the scheduler's main coroutine
does not take part in scheduling (scheduler.cc creates it with
`run_in_scheduler = false`) and is RUNNING while a scheduled coroutine is the
current one. -/
def FiberThread.inv (th : FiberThread) : Prop :=
  (∀ f, th.t_fiber = some f → (th.fibers f).m_state = FiberState.RUNNING) ∧
  (∀ s, th.mainFiber = some s → (th.fibers s).m_runInScheduler = false) ∧
  (∀ f s, th.t_fiber = some f → (th.fibers f).m_runInScheduler = true →
    th.mainFiber = some s → (th.fibers s).m_state = FiberState.RUNNING)

/-- A thread right after its coroutines were constructed: all of them READY
(the state the constructor leaves, as the comments of fiber.cc say), the root
coroutine current. -/
def FiberThread.init (runInScheduler : Nat → Bool) (mainFiber : Option Nat) : FiberThread :=
  { fibers := fun f => { m_state := FiberState.READY, m_cb := some f,
                         m_runInScheduler := runInScheduler f },
    t_fiber := none, mainFiber := mainFiber, swaps := 0 }

/-! ## The descriptor registry and the socket timeouts (fd_manager.cc, hook.cc, socket.cc) -/

/-- Linux `SOL_SOCKET`. -/
def SOL_SOCKET : Int := 1

/-- Linux `SO_RCVTIMEO`. -/
def SO_RCVTIMEO : Int := 20

/-- Linux `SO_SNDTIMEO`. -/
def SO_SNDTIMEO : Int := 21

/-- Conversion of an unsigned 64-bit value to `int64_t`. -/
def toInt64 (x : Nat) : Int :=
  if x % W64 < 9223372036854775808 then ((x % W64 : Nat) : Int)
  else ((x % W64 : Nat) : Int) - 18446744073709551616

/-- The cast `int(e)` of an `int64_t` expression: the low 32 bits read as
two's complement. -/
def int64ToInt (i : Int) : Int := toInt32 (toUInt64 i)

/-- Source `FdCtx::setTimeout(type, v)`. -/
def FdCtx.setTimeout (c : FdCtx) (type : Int) (v : Nat) : FdCtx :=
  if type = SO_RCVTIMEO then { c with m_recvTimeout := v } else { c with m_sendTimeout := v }

/-- Source `FdCtx::getTimeout(type)`. -/
def FdCtx.getTimeout (c : FdCtx) (type : Int) : Nat :=
  if type = SO_RCVTIMEO then c.m_recvTimeout else c.m_sendTimeout

/-- The registry `FdManager`: the vector `m_datas` of shared pointers, `none`
for a null pointer.  An `FdCtx` is reached only through its slot, so the
object is kept in the slot itself. -/
structure FdManager where
  m_datas : List (Option FdCtx)
deriving DecidableEq, Repr

/-- The constructor `FdManager::FdManager()`: `m_datas.resize(64)`. -/
def FdManager.new : FdManager := { m_datas := List.replicate 64 none }

/-- Library `std::vector::resize(n)` on a vector of shared pointers. -/
def vectorResize (l : List (Option FdCtx)) (n : Nat) : List (Option FdCtx) :=
  l.take n ++ List.replicate (n - l.length) none

/-- The tail of `FdManager::get` after `lock.unlock()`: a new `FdCtx(fd)` is
built, the vector is resized to `fd * 1.5` when `fd >= size`, and the slot is
assigned.  The result is `none` when `m_datas[fd]` lies outside the vector. -/
def FdManager.create (m : FdManager) (fd : Int) (k : KernelFd) :
    Option (Option FdCtx × FdManager × KernelFd) :=
  let ctx := FdCtx.new fd k
  let datas1 : List (Option FdCtx) :=
    if fd ≥ (m.m_datas.length : Int) then vectorResize m.m_datas (fd * 3 / 2).toNat
    else m.m_datas
  if 0 ≤ fd ∧ fd.toNat < datas1.length then
    some (some ctx.1, { m_datas := datas1.set fd.toNat (some ctx.1) }, ctx.2)
  else none

/-- Source `FdManager::get(fd, auto_create)`: the pointer returned, the
registry and the kernel's record of `fd` afterwards.  The result is `none`
when `m_datas[fd]` is evaluated outside the vector. -/
def FdManager.get (m : FdManager) (fd : Int) (auto_create : Bool) (k : KernelFd) :
    Option (Option FdCtx × FdManager × KernelFd) :=
  if fd = -1 then some (none, m, k)
  else if (m.m_datas.length : Int) ≤ fd then
    if auto_create = false then some (none, m, k) else m.create fd k
  else if fd < 0 then none
  else
    match m.m_datas.get? fd.toNat with
    | none => none
    | some e => if e.isSome || !auto_create then some (e, m, k) else m.create fd k

/-- Library `struct timeval`. -/
structure Timeval where
  tv_sec : Int
  tv_usec : Int
deriving DecidableEq, Repr

/-- The hooked `setsockopt(sockfd, level, optname, optval, optlen)` with a
`timeval` behind `optval`: the registry afterwards (`setTimeout` writes through
the pointer that `get` returned).  `auto_create` is the default argument of
`FdManager::get`, declared in fd_manager.h, which is not among the sources.
The sum `tv_sec * 1000 + tv_usec / 1000` is converted to the `uint64_t`
parameter of `setTimeout`. -/
def hook_setsockopt (t_hook_enable : Bool) (auto_create : Bool) (m : FdManager) (k : KernelFd)
    (sockfd level optname : Int) (optval : Timeval) : Option FdManager :=
  if !t_hook_enable then some m
  else if level = SOL_SOCKET ∧ (optname = SO_RCVTIMEO ∨ optname = SO_SNDTIMEO) then
    match m.get sockfd auto_create k with
    | none => none
    | some (none, m1, _) => some m1
    | some (some c, m1, _) =>
      some { m_datas := m1.m_datas.set sockfd.toNat
               (some (c.setTimeout optname
                 (toUInt64 (optval.tv_sec * 1000 + Int.tdiv optval.tv_usec 1000)))) }
  else some m

/-- Source `Socket::setRecvTimeout(v)` on a socket whose descriptor is
`m_sock`: `setOption` hands the `timeval` to the hooked `setsockopt`. -/
def Socket.setRecvTimeout (t_hook_enable auto_create : Bool) (m : FdManager) (k : KernelFd)
    (m_sock : Int) (v : Int) : Option FdManager :=
  hook_setsockopt t_hook_enable auto_create m k m_sock SOL_SOCKET SO_RCVTIMEO
    { tv_sec := int64ToInt (Int.tdiv v 1000), tv_usec := int64ToInt (Int.tmod v 1000 * 1000) }

/-- Source `Socket::setSendTimeout(v)`. -/
def Socket.setSendTimeout (t_hook_enable auto_create : Bool) (m : FdManager) (k : KernelFd)
    (m_sock : Int) (v : Int) : Option FdManager :=
  hook_setsockopt t_hook_enable auto_create m k m_sock SOL_SOCKET SO_SNDTIMEO
    { tv_sec := int64ToInt (Int.tdiv v 1000), tv_usec := int64ToInt (Int.tmod v 1000 * 1000) }

/-- Source `Socket::getRecvTimeout()`: the `int64_t` returned. -/
def Socket.getRecvTimeout (auto_create : Bool) (m : FdManager) (k : KernelFd) (m_sock : Int) :
    Option Int :=
  match m.get m_sock auto_create k with
  | none => none
  | some (none, _, _) => some (-1)
  | some (some c, _, _) => some (toInt64 (c.getTimeout SO_RCVTIMEO))

/-- Source `Socket::getSendTimeout()`: the `int64_t` returned. -/
def Socket.getSendTimeout (auto_create : Bool) (m : FdManager) (k : KernelFd) (m_sock : Int) :
    Option Int :=
  match m.get m_sock auto_create k with
  | none => none
  | some (none, _, _) => some (-1)
  | some (some c, _, _) => some (toInt64 (c.getTimeout SO_SNDTIMEO))

/-! ## Scoped lock guards (mutex.h) -/

/-- The calls that a guard makes on the mutex it refers to. -/
inductive MutexCall where
  | lock : MutexCall
  | rdlock : MutexCall
  | wrlock : MutexCall
  | unlock : MutexCall
deriving DecidableEq, Repr

/-- The state of a guard (`ScopedLockImpl`, `ReadScopedLockImpl` or
`WriteScopedLockImpl`): the member `m_locked` and the calls made on `m_mutex`
so far, oldest first. -/
structure ScopedLockImpl where
  m_locked : Bool
  calls : List MutexCall
deriving DecidableEq, Repr

/-- Source `lock()` of the three guards; `acquire` is `m_mutex.lock()`,
`m_mutex.rdlock()` or `m_mutex.wrlock()`. -/
def ScopedLockImpl.lock (acquire : MutexCall) (g : ScopedLockImpl) : ScopedLockImpl :=
  if !g.m_locked then { m_locked := true, calls := g.calls ++ [acquire] } else g

/-- Source `unlock()` of the three guards. -/
def ScopedLockImpl.unlock (g : ScopedLockImpl) : ScopedLockImpl :=
  if g.m_locked then { m_locked := false, calls := g.calls ++ [MutexCall.unlock] } else g

/-- The constructor of the three guards: `lock(); m_locked = true;`.  The
member `m_locked` has no initialiser, so `lock()` reads whatever the storage
holds, here `entry`. -/
def ScopedLockImpl.new (acquire : MutexCall) (entry : Bool) : ScopedLockImpl :=
  { ScopedLockImpl.lock acquire { m_locked := entry, calls := [] } with m_locked := true }

/-- The destructor of the three guards: `unlock()`. -/
def ScopedLockImpl.destroy (g : ScopedLockImpl) : ScopedLockImpl := g.unlock

/-- The explicit calls a user can make on a guard. -/
inductive GuardOp where
  | lock : GuardOp
  | unlock : GuardOp
deriving DecidableEq, Repr

/-- A sequence of explicit `lock()` / `unlock()` calls on a guard. -/
def ScopedLockImpl.run (acquire : MutexCall) (g : ScopedLockImpl) : List GuardOp → ScopedLockImpl
  | [] => g
  | GuardOp.lock :: ops => ScopedLockImpl.run acquire (ScopedLockImpl.lock acquire g) ops
  | GuardOp.unlock :: ops => ScopedLockImpl.run acquire g.unlock ops

/-- The calls made on the mutex over the life of one guard: construction, the
explicit calls `ops`, destruction. -/
def ScopedLockImpl.lifetime (acquire : MutexCall) (entry : Bool) (ops : List GuardOp) :
    List MutexCall :=
  (ScopedLockImpl.run acquire (ScopedLockImpl.new acquire entry) ops).destroy.calls

/-! ## Command-line arguments (env.cc) -/

/-- The members of `Env` that `init`, `add`, `has` and `get` use: the map
`m_args`, as its lookup function, and `m_program`.  A C string is the list of
its characters before the terminating NUL. -/
structure Env where
  m_args : List Char → Option (List Char)
  m_program : List Char

/-- Source `Env::add(key, val)`: `m_args[key] = val`. -/
def Env.add (e : Env) (key val : List Char) : Env :=
  { e with m_args := fun k => if k = key then some val else e.m_args k }

/-- Source `Env::has(key)`. -/
def Env.has (e : Env) (key : List Char) : Bool := (e.m_args key).isSome

/-- Source `Env::get(key, default_value)`. -/
def Env.get (e : Env) (key default_value : List Char) : List Char :=
  match e.m_args key with
  | some v => v
  | none => default_value

/-- The `for` loop of `Env::init` over `argv[i], ..., argv[argc - 1]` together
with the statements after it: the value returned and the object afterwards.
`now_key` is `none` for the null pointer. -/
def Env.initLoop (e : Env) (now_key : Option (List Char)) : List (List Char) → Bool × Env
  | [] =>
    match now_key with
    | some k => (true, e.add k [])
    | none => (true, e)
  | arg :: rest =>
    if arg.head? = some '-' then
      if arg.length > 1 then
        let e1 : Env :=
          match now_key with
          | some k => e.add k []
          | none => e
        Env.initLoop e1 (some arg.tail) rest
      else (false, e)
    else
      match now_key with
      | some k => Env.initLoop (e.add k arg) none rest
      | none => (false, e)

/-- Source `Env::init(argc, argv)`, without the lines that read the path of
the executable.  The result is `none` when `argv[0]` is a null pointer
(`argc = 0`). -/
def Env.init (e : Env) : List (List Char) → Option (Bool × Env)
  | [] => none
  | program :: args => some (Env.initLoop { e with m_program := program } none args)

/-- The argument is a key: it starts with `'-'` and has further characters. -/
def isKey (arg : List Char) : Bool := decide (arg.head? = some '-') && decide (arg.length > 1)

/-- A key is pending when the argument at position `i` is read: the argument
before it is a key (`first` tells it for position 0). -/
def pendingBefore (first : Bool) (args : List (List Char)) : Nat → Bool
  | 0 => first
  | i + 1 =>
    match args.get? i with
    | some a => isKey a
    | none => false

/-- The value that belongs to the key at position `i`: the next argument if
there is one and it does not start with `'-'`, the empty string otherwise. -/
def valueAfter (args : List (List Char)) (i : Nat) : List Char :=
  match args.get? (i + 1) with
  | some a => if a.head? = some '-' then [] else a
  | none => []

/-! ## ByteArray (bytearray.cc) -/

/-- Modelled from the spec: the constant `SYLAR_LITTLE_ENDIAN` of endian.h, which
is not among the sources; the code only compares it with `m_endian`. -/
def SYLAR_LITTLE_ENDIAN : Nat := 1

/-- Modelled from the spec: the constant `SYLAR_BIG_ENDIAN` of endian.h, which is
not among the sources. -/
def SYLAR_BIG_ENDIAN : Nat := 2

/-- Modelled from the spec: the macro `SYLAR_BYTE_ORDER` of endian.h, the byte
order of the machine; `hostLittle` tells whether the machine is
little-endian. -/
def SYLAR_BYTE_ORDER (hostLittle : Bool) : Nat :=
  if hostLittle then SYLAR_LITTLE_ENDIAN else SYLAR_BIG_ENDIAN

/-- The members of `ByteArray`.  The list that starts at `m_root` has `nodes`
nodes, each with a buffer of `m_baseSize` bytes (`Node(m_baseSize)` is the
only constructor call); `m_cur` is the index of the node it points to, and an
index from `nodes` on stands for the null pointer.  Byte `o` of the buffer of
node `i` is `mem (i * m_baseSize + o)`. -/
structure ByteArray where
  m_baseSize : Nat
  m_position : Nat
  m_capacity : Nat
  m_size : Nat
  m_endian : Nat
  nodes : Nat
  m_cur : Nat
  mem : Nat → Nat

/-- The constructor `ByteArray::ByteArray(base_size)`; `mem` is what the
buffers hold when they are allocated. -/
def ByteArray.new (base_size : Nat) (mem : Nat → Nat) : ByteArray :=
  { m_baseSize := base_size, m_position := 0, m_capacity := base_size, m_size := 0,
    m_endian := SYLAR_BIG_ENDIAN, nodes := 1, m_cur := 0, mem := mem }

/-- Modelled from the spec: the inline `getCapacity()` of bytearray.h, which is
not among the sources: the room left from the current position,
`m_capacity - m_position`. -/
def ByteArray.getCapacity (b : ByteArray) : Nat := b.m_capacity - b.m_position

/-- Modelled from the spec: the inline `getReadSize()` of bytearray.h, which is
not among the sources: `m_size - m_position`, as the comment in `writeToFile`
says. -/
def ByteArray.getReadSize (b : ByteArray) : Nat := b.m_size - b.m_position

/-- Library `memcpy(dst, src, n)` into the byte memory, `src` being the `n`
bytes copied. -/
def memcpy (mem : Nat → Nat) (dst : Nat) (src : List Nat) : Nat → Nat :=
  fun a => if dst ≤ a ∧ a < dst + src.length then src.getD (a - dst) 0 else mem a

/-- The bytes `memcpy` reads: `n` bytes from address `src` on. -/
def memread (mem : Nat → Nat) (src n : Nat) : List Nat :=
  (List.range n).map (fun k => mem (src + k))

/-- Source `ByteArray::addCapacity(size)`, for a base size that is not zero:
`ceil(1.0 * size / m_baseSize)` is the rounded-up quotient (exact in `double`
for sizes below 2^53). -/
def ByteArray.addCapacity (b : ByteArray) (size : Nat) : ByteArray :=
  if size = 0 then b
  else
    let old_cap := b.getCapacity
    if old_cap ≥ size then b
    else
      let count := (size - old_cap + b.m_baseSize - 1) / b.m_baseSize
      { b with nodes := b.nodes + count,
               m_capacity := b.m_capacity + count * b.m_baseSize,
               m_cur := if old_cap = 0 then b.nodes else b.m_cur }

/-- The `while(size > 0)` loop of `ByteArray::write`; `buf` is what is left of
the caller's buffer (`buf + bpos`, `size` bytes).  The result is `none` when a
null `m_cur` is dereferenced. -/
def ByteArray.writeLoop : Nat → ByteArray → Nat → Nat → List Nat → Option ByteArray
  | 0, _, _, _, _ => none
  | fuel + 1, b, npos, ncap, buf =>
    if buf.length = 0 then some b
    else if b.m_cur ≥ b.nodes then none
    else if ncap ≥ buf.length then
      some { b with mem := memcpy b.mem (b.m_cur * b.m_baseSize + npos) buf,
                    m_cur := if b.m_baseSize = npos + buf.length then b.m_cur + 1 else b.m_cur,
                    m_position := b.m_position + buf.length }
    else if b.m_cur + 1 ≥ b.nodes then none
    else
      ByteArray.writeLoop fuel
        { b with mem := memcpy b.mem (b.m_cur * b.m_baseSize + npos) (buf.take ncap),
                 m_position := b.m_position + ncap,
                 m_cur := b.m_cur + 1 }
        0 b.m_baseSize (buf.drop ncap)

/-- Source `ByteArray::write(buf, size)`.  The result is `none` when the base
size is zero (`m_position % m_baseSize`) or a null `m_cur` is dereferenced. -/
def ByteArray.write (b : ByteArray) (buf : List Nat) : Option ByteArray :=
  if buf.length = 0 then some b
  else if b.m_baseSize = 0 then none
  else
    let b1 := b.addCapacity buf.length
    if b1.m_cur ≥ b1.nodes then none
    else
      let npos := b1.m_position % b1.m_baseSize
      let ncap := b1.m_baseSize - npos
      match ByteArray.writeLoop (buf.length + 1) b1 npos ncap buf with
      | none => none
      | some b2 => some (if b2.m_position > b2.m_size then { b2 with m_size := b2.m_position } else b2)

/-- The `while(size > 0)` loop of `ByteArray::read(buf, size)`; `out` is what
has been copied to the caller's buffer so far.  The result is `none` when a
null `m_cur` is dereferenced. -/
def ByteArray.readLoop : Nat → ByteArray → Nat → Nat → Nat → List Nat →
    Option (List Nat × ByteArray)
  | 0, _, _, _, _, _ => none
  | fuel + 1, b, npos, ncap, size, out =>
    if size = 0 then some (out, b)
    else if b.m_cur ≥ b.nodes then none
    else if ncap ≥ size then
      some (out ++ memread b.mem (b.m_cur * b.m_baseSize + npos) size,
            { b with m_cur := if b.m_baseSize = npos + size then b.m_cur + 1 else b.m_cur,
                     m_position := b.m_position + size })
    else if b.m_cur + 1 ≥ b.nodes then none
    else
      ByteArray.readLoop fuel
        { b with m_position := b.m_position + ncap, m_cur := b.m_cur + 1 }
        0 b.m_baseSize (size - ncap)
        (out ++ memread b.mem (b.m_cur * b.m_baseSize + npos) ncap)

/-- Source `ByteArray::read(buf, size)`: the bytes copied to `buf` and the
object afterwards.  The result is `none` when `std::out_of_range` is thrown,
when the base size is zero, or when a null `m_cur` is dereferenced; the
statement `ncap = m_cur->size - npos` dereferences `m_cur` also when `size` is
zero. -/
def ByteArray.read (b : ByteArray) (size : Nat) : Option (List Nat × ByteArray) :=
  if size > b.getReadSize then none
  else if b.m_baseSize = 0 then none
  else if b.m_cur ≥ b.nodes then none
  else
    let npos := b.m_position % b.m_baseSize
    let ncap := b.m_baseSize - npos
    ByteArray.readLoop (size + 1) b npos ncap size []

/-- The `while(v > m_cur->size)` loop of `ByteArray::setPosition` and the `if`
after it: the node index for `m_cur`.  The result is `none` when a null
`m_cur` is dereferenced. -/
def ByteArray.seekLoop (nodes baseSize : Nat) : Nat → Nat → Nat → Option Nat
  | 0, _, _ => none
  | fuel + 1, v, cur =>
    if cur ≥ nodes then none
    else if v > baseSize then ByteArray.seekLoop nodes baseSize fuel (v - baseSize) (cur + 1)
    else if v = baseSize then some (cur + 1)
    else some cur

/-- Source `ByteArray::setPosition(v)`.  The result is `none` when
`std::out_of_range` is thrown or a null `m_cur` is dereferenced. -/
def ByteArray.setPosition (b : ByteArray) (v : Nat) : Option ByteArray :=
  if v > b.m_capacity then none
  else
    match ByteArray.seekLoop b.nodes b.m_baseSize (b.nodes + 1) v 0 with
    | none => none
    | some cur =>
      some { b with m_position := v,
                    m_size := if v > b.m_size then v else b.m_size,
                    m_cur := cur }

/-- The invariant of a `ByteArray`: a base size that is not zero, at least the
root node, the capacity is that of the nodes, `m_position <= m_size <= m_capacity`, and `m_cur` is the
node that holds the position (the null pointer when the position is at the
end of the last node). -/
def ByteArray.wf (b : ByteArray) : Prop :=
  0 < b.m_baseSize ∧ 0 < b.nodes ∧ b.m_capacity = b.nodes * b.m_baseSize ∧
    b.m_position ≤ b.m_size ∧ b.m_size ≤ b.m_capacity ∧ b.m_cur = b.m_position / b.m_baseSize

instance (b : ByteArray) : Decidable b.wf := by
  unfold ByteArray.wf
  infer_instance

/-- The bytes of a `w`-byte unsigned value, least significant first. -/
def leBytes : Nat → Nat → List Nat
  | 0, _ => []
  | w + 1, v => v % 256 :: leBytes w (v / 256)

/-- The value of a sequence of bytes, least significant first. -/
def ofLeBytes : List Nat → Nat
  | [] => 0
  | x :: xs => x + 256 * ofLeBytes xs

/-- Modelled from the spec: the function `byteswap` of endian.h, which is not
among the sources: the endian flip of a `w`-byte value, which reverses its
bytes. -/
def byteswap (w v : Nat) : Nat := ofLeBytes (leBytes w v).reverse

/-- The bytes of a `w`-byte unsigned object in the memory of the machine,
lowest address first. -/
def objectBytes (hostLittle : Bool) (w v : Nat) : List Nat :=
  if hostLittle then leBytes w v else (leBytes w v).reverse

/-- The unsigned value of an object whose bytes in memory are given. -/
def ofObjectBytes (hostLittle : Bool) (l : List Nat) : Nat :=
  if hostLittle then ofLeBytes l else ofLeBytes l.reverse

/-- Source `ByteArray::writeFuint16`, `writeFuint32` and `writeFuint64`, which
differ in the width `w` of `value` only. -/
def ByteArray.writeFuint (hostLittle : Bool) (w : Nat) (b : ByteArray) (value : Nat) :
    Option ByteArray :=
  b.write (objectBytes hostLittle w
    (if b.m_endian ≠ SYLAR_BYTE_ORDER hostLittle then byteswap w value else value))

/-- Source `ByteArray::writeFuint16(value)`; the argument is converted to
`uint16_t`. -/
def ByteArray.writeFuint16 (hostLittle : Bool) (b : ByteArray) (value : Nat) : Option ByteArray :=
  ByteArray.writeFuint hostLittle 2 b (value % 65536)

/-- Source `ByteArray::writeFuint32(value)`; the argument is converted to
`uint32_t`. -/
def ByteArray.writeFuint32 (hostLittle : Bool) (b : ByteArray) (value : Nat) : Option ByteArray :=
  ByteArray.writeFuint hostLittle 4 b (value % W32)

/-- Source `ByteArray::writeFuint64(value)`; the argument is converted to
`uint64_t`. -/
def ByteArray.writeFuint64 (hostLittle : Bool) (b : ByteArray) (value : Nat) : Option ByteArray :=
  ByteArray.writeFuint hostLittle 8 b (value % W64)

/-- The body `XX(type)` of `readFuint16`, `readFuint32` and `readFuint64` for a
type of `w` bytes. -/
def ByteArray.readFuint (hostLittle : Bool) (w : Nat) (b : ByteArray) :
    Option (Nat × ByteArray) :=
  match b.read w with
  | none => none
  | some (bytes, b1) =>
    let v := ofObjectBytes hostLittle bytes
    some (if b.m_endian = SYLAR_BYTE_ORDER hostLittle then v else byteswap w v, b1)

/-- Source `ByteArray::readFuint16()`. -/
def ByteArray.readFuint16 (hostLittle : Bool) (b : ByteArray) : Option (Nat × ByteArray) :=
  ByteArray.readFuint hostLittle 2 b

/-- Source `ByteArray::readFuint32()`. -/
def ByteArray.readFuint32 (hostLittle : Bool) (b : ByteArray) : Option (Nat × ByteArray) :=
  ByteArray.readFuint hostLittle 4 b

/-- Source `ByteArray::readFuint64()`. -/
def ByteArray.readFuint64 (hostLittle : Bool) (b : ByteArray) : Option (Nat × ByteArray) :=
  ByteArray.readFuint hostLittle 8 b

/-- Source `ByteArray::readFuint8()`. -/
def ByteArray.readFuint8 (b : ByteArray) : Option (Nat × ByteArray) :=
  match b.read 1 with
  | none => none
  | some (bytes, b1) => some (bytes.headD 0, b1)

/-- The loop and the last store of `writeUint32` / `writeUint64`: the bytes put
into `tmp`.  `room` is what is left of `tmp`; the result is `none` when a byte
would be stored behind the end of `tmp`. -/
def varintLoop : Nat → Nat → Option (List Nat)
  | 0, _ => none
  | room + 1, value =>
    if value ≥ 0x80 then
      (varintLoop room (value >>> 7)).map (fun t => ((value &&& 0x7F) ||| 0x80) % 256 :: t)
    else some [value % 256]

/-- Source `ByteArray::writeUint32(value)`, with `uint8_t tmp[5]`. -/
def ByteArray.writeUint32 (b : ByteArray) (value : Nat) : Option ByteArray :=
  match varintLoop 5 (value % W32) with
  | none => none
  | some tmp => b.write tmp

/-- Source `ByteArray::writeUint64(value)`, with `uint8_t tmp[10]`. -/
def ByteArray.writeUint64 (b : ByteArray) (value : Nat) : Option ByteArray :=
  match varintLoop 10 (value % W64) with
  | none => none
  | some tmp => b.write tmp

/-- The `for(int i = 0; i < bits; i += 7)` loop of `readUint32` / `readUint64`
with `n` iterations left; `W` is the number of values of the result type, in
which the shifts are computed. -/
def ByteArray.readVarintLoop (W : Nat) : Nat → Nat → Nat → ByteArray → Option (Nat × ByteArray)
  | 0, _, result, b => some (result, b)
  | n + 1, i, result, b =>
    match b.readFuint8 with
    | none => none
    | some (byte, b1) =>
      if byte < 0x80 then some (result ||| (byte <<< i) % W, b1)
      else ByteArray.readVarintLoop W n (i + 7) (result ||| ((byte &&& 0x7f) <<< i) % W) b1

/-- Source `ByteArray::readUint32()`: `i` takes the values 0, 7, 14, 21, 28. -/
def ByteArray.readUint32 (b : ByteArray) : Option (Nat × ByteArray) :=
  ByteArray.readVarintLoop W32 5 0 0 b

/-- Source `ByteArray::readUint64()`: `i` takes the values 0, 7, ..., 63. -/
def ByteArray.readUint64 (b : ByteArray) : Option (Nat × ByteArray) :=
  ByteArray.readVarintLoop W64 10 0 0 b

/-- Source `EncodeZigzag32(v)` for an `int32_t` value `v`, the arithmetic taken
modulo 2^32. -/
def EncodeZigzag32 (v : Int) : Nat :=
  if v < 0 then (((-v) % 4294967296).toNat * 2 % W32 + (W32 - 1)) % W32
  else ((v * 2) % 4294967296).toNat

/-- Source `EncodeZigzag64(v)` for an `int64_t` value `v`, the arithmetic taken
modulo 2^64. -/
def EncodeZigzag64 (v : Int) : Nat :=
  if v < 0 then (toUInt64 (-v) * 2 % W64 + (W64 - 1)) % W64
  else toUInt64 (v * 2)

/-- Source `DecodeZigzag32(v)`: `(v >> 1) ^ -(v & 1)` in `uint32_t`, returned
as `int32_t`. -/
def DecodeZigzag32 (v : Nat) : Int :=
  toInt32 ((v >>> 1) ^^^ ((W32 - (v &&& 1)) % W32))

/-- Source `DecodeZigzag64(v)`: `(v >> 1) ^ -(v & 1)` in `uint64_t`, returned
as `int64_t`. -/
def DecodeZigzag64 (v : Nat) : Int :=
  toInt64 ((v >>> 1) ^^^ ((W64 - (v &&& 1)) % W64))

/-- Source `ByteArray::writeInt32(value)`. -/
def ByteArray.writeInt32 (b : ByteArray) (value : Int) : Option ByteArray :=
  b.writeUint32 (EncodeZigzag32 value)

/-- Source `ByteArray::writeInt64(value)`. -/
def ByteArray.writeInt64 (b : ByteArray) (value : Int) : Option ByteArray :=
  b.writeUint64 (EncodeZigzag64 value)

/-- Source `ByteArray::readInt32()`. -/
def ByteArray.readInt32 (b : ByteArray) : Option (Int × ByteArray) :=
  match b.readUint32 with
  | none => none
  | some (v, b1) => some (DecodeZigzag32 v, b1)

/-- Source `ByteArray::readInt64()`. -/
def ByteArray.readInt64 (b : ByteArray) : Option (Int × ByteArray) :=
  match b.readUint64 with
  | none => none
  | some (v, b1) => some (DecodeZigzag64 v, b1)

/-- Source `ByteArray::writeStringF16(value)`; a string is the list of its
bytes. -/
def ByteArray.writeStringF16 (hostLittle : Bool) (b : ByteArray) (value : List Nat) :
    Option ByteArray :=
  match b.writeFuint16 hostLittle value.length with
  | none => none
  | some b1 => b1.write value

/-- Source `ByteArray::writeStringF32(value)`. -/
def ByteArray.writeStringF32 (hostLittle : Bool) (b : ByteArray) (value : List Nat) :
    Option ByteArray :=
  match b.writeFuint32 hostLittle value.length with
  | none => none
  | some b1 => b1.write value

/-- Source `ByteArray::writeStringF64(value)`. -/
def ByteArray.writeStringF64 (hostLittle : Bool) (b : ByteArray) (value : List Nat) :
    Option ByteArray :=
  match b.writeFuint64 hostLittle value.length with
  | none => none
  | some b1 => b1.write value

/-- Source `ByteArray::writeStringVint(value)`. -/
def ByteArray.writeStringVint (b : ByteArray) (value : List Nat) : Option ByteArray :=
  match b.writeUint64 value.length with
  | none => none
  | some b1 => b1.write value

/-- Source `ByteArray::readStringF16()`. -/
def ByteArray.readStringF16 (hostLittle : Bool) (b : ByteArray) : Option (List Nat × ByteArray) :=
  match b.readFuint16 hostLittle with
  | none => none
  | some (len, b1) => b1.read len

/-- Source `ByteArray::readStringF32()`. -/
def ByteArray.readStringF32 (hostLittle : Bool) (b : ByteArray) : Option (List Nat × ByteArray) :=
  match b.readFuint32 hostLittle with
  | none => none
  | some (len, b1) => b1.read len

/-- Source `ByteArray::readStringF64()`. -/
def ByteArray.readStringF64 (hostLittle : Bool) (b : ByteArray) : Option (List Nat × ByteArray) :=
  match b.readFuint64 hostLittle with
  | none => none
  | some (len, b1) => b1.read len

/-- Source `ByteArray::readStringVint()`. -/
def ByteArray.readStringVint (b : ByteArray) : Option (List Nat × ByteArray) :=
  match b.readUint64 with
  | none => none
  | some (len, b1) => b1.read len

/-- The `while(read_size > 0)` loop of `ByteArray::writeToFile`: the bytes
handed to `ofs.write` so far are `file`.  A call of `ofs.write` with a count
that is not positive adds nothing.  The result is `none` when the base size
is zero (`pos % m_baseSize`) or a null `cur` is dereferenced. -/
def ByteArray.writeToFileLoop (b : ByteArray) : Nat → Int → Int → Nat → List Nat →
    Option (List Nat)
  | 0, _, _, _, _ => none
  | fuel + 1, read_size, pos, cur, file =>
    if read_size > 0 then
      let diff : Int := pos % (b.m_baseSize : Int)
      let len : Int :=
        (if read_size > (b.m_baseSize : Int) then (b.m_baseSize : Int) else read_size) - diff
      if b.m_baseSize = 0 ∨ cur ≥ b.nodes then none
      else
        ByteArray.writeToFileLoop b fuel (read_size - len) (pos + len) (cur + 1)
          (file ++ memread b.mem (cur * b.m_baseSize + diff.toNat) len.toNat)
    else some file

/-- Source `ByteArray::writeToFile(name)` for a file that can be opened: the
content of the file afterwards.  The result is `none` when a null `cur` is
dereferenced or the base size is zero. -/
def ByteArray.writeToFile (b : ByteArray) : Option (List Nat) :=
  ByteArray.writeToFileLoop b (b.nodes + 1) (b.getReadSize : Int) (b.m_position : Int)
    b.m_cur []

/-- The readable bytes of a `ByteArray`: those at the offsets from
`m_position` up to `m_size`. -/
def ByteArray.readable (b : ByteArray) : List Nat :=
  memread b.mem b.m_position (b.m_size - b.m_position)

/-- The array holds the bytes `xs` at its position, within `m_size`. -/
def ByteArray.holds (b : ByteArray) (xs : List Nat) : Prop :=
  b.wf ∧ b.m_position + xs.length ≤ b.m_size ∧ memread b.mem b.m_position xs.length = xs

/-! ## The descriptor registry, continued (fd_manager.cc) -/

/-- Source `FdManager::del(fd)`.  The result is `none` when `m_datas[fd]` is
evaluated outside the vector. -/
def FdManager.del (m : FdManager) (fd : Int) : Option FdManager :=
  if (m.m_datas.length : Int) ≤ fd then some m
  else if fd < 0 then none
  else some { m_datas := m.m_datas.set fd.toNat none }

/-! ## ByteArray, continued: the positional read (bytearray.cc) -/

/-- The `while(size > 0)` loop of `ByteArray::read(buf, size, position) const`
on the local pointer `cur`; `out` is what has been copied so far.  The result
is `none` when a null `cur` is dereferenced. -/
def ByteArray.readAtLoop (b : ByteArray) : Nat → Nat → Nat → Nat → Nat → List Nat →
    Option (List Nat)
  | 0, _, _, _, _, _ => none
  | fuel + 1, cur, npos, ncap, size, out =>
    if size = 0 then some out
    else if cur ≥ b.nodes then none
    else if ncap ≥ size then some (out ++ memread b.mem (cur * b.m_baseSize + npos) size)
    else if cur + 1 ≥ b.nodes then none
    else
      ByteArray.readAtLoop b fuel (cur + 1) 0 b.m_baseSize (size - ncap)
        (out ++ memread b.mem (cur * b.m_baseSize + npos) ncap)

/-- Source `ByteArray::read(buf, size, position) const`, the overload that
reads at an offset: the bytes copied to `buf`.  The function is `const`, so
the object is as before.  The difference `m_size - position` is computed in
`size_t`.  The result is `none` when `std::out_of_range` is thrown, when the
base size is zero, or when a null pointer is dereferenced. -/
def ByteArray.readAt (b : ByteArray) (size position : Nat) : Option (List Nat) :=
  if size > sub64 b.m_size position then none
  else if b.m_baseSize = 0 then none
  else if b.m_cur ≥ b.nodes then none
  else
    let npos := position % b.m_baseSize
    let ncap := b.m_baseSize - npos
    ByteArray.readAtLoop b (size + 1) b.m_cur npos ncap size []

/-! ## Configuration variables (config.h, config.cc) -/

/-- The literal that `Config::Lookup` and `ListAllMember` hand to
`find_first_not_of`. -/
def configNameChars : List Char := "abcdefghikjlmnopqrstuvwxyz._012345678".toList

/-- The set `[0-9a-z_.]` that the comments of `ConfigVarBase` and
`Config::Lookup` give for the characters of a name. -/
def documentedNameChars : List Char := "0123456789abcdefghijklmnopqrstuvwxyz_.".toList

/-- Library `std::string::find_first_not_of(chars)`: the position found, `none`
for `npos`. -/
def find_first_not_of (s chars : List Char) : Option Nat :=
  s.findIdx? (fun c => !chars.contains c)

/-- A `ConfigVar<T>` as far as `Lookup` is concerned: the name, lowered by the
constructor of `ConfigVarBase`, the description, the type `T` (as a number) and
the value. -/
structure ConfigVar where
  m_name : List Char
  m_description : List Char
  typeName : Nat
  m_val : Nat
deriving DecidableEq, Repr

/-- What a call of `Config::Lookup(name, default_value, description)` does:
it returns an existing variable, returns a null pointer because the existing
variable has another type, throws `std::invalid_argument`, or creates a
variable. -/
inductive LookupResult where
  | existing : ConfigVar → LookupResult
  | wrongType : LookupResult
  | invalidArgument : LookupResult
  | created : ConfigVar → LookupResult
deriving DecidableEq, Repr

/-- Source `Config::Lookup<T>(name, default_value, description)` on the map
`GetDatas()`: the outcome and the map afterwards. -/
def Config.Lookup (datas : List Char → Option ConfigVar) (name : List Char) (T : Nat)
    (default_value : Nat) (description : List Char) :
    LookupResult × (List Char → Option ConfigVar) :=
  match datas name with
  | some v =>
    if v.typeName = T then (LookupResult.existing v, datas)
    else (LookupResult.wrongType, datas)
  | none =>
    if (find_first_not_of name configNameChars).isSome then (LookupResult.invalidArgument, datas)
    else
      let v : ConfigVar :=
        { m_name := name.map Char.toLower, m_description := description, typeName := T,
          m_val := default_value }
      (LookupResult.created v, fun k => if k = name then some v else datas k)

mutual
/-- A `YAML::Node`: null, scalar, sequence or map; the key of a map entry is
the string that `it->first.Scalar()` returns. -/
inductive YamlNode where
  | null : YamlNode
  | scalar : List Char → YamlNode
  | sequence : YamlItems → YamlNode
  | map : YamlEntries → YamlNode
/-- The items of a YAML sequence. -/
inductive YamlItems where
  | nil : YamlItems
  | cons : YamlNode → YamlItems → YamlItems
/-- The entries of a YAML map, in iteration order. -/
inductive YamlEntries where
  | nil : YamlEntries
  | cons : List Char → YamlNode → YamlEntries → YamlEntries
end

mutual
/-- Source `ListAllMember(pfx, node, output)` of config.cc (the first parameter
is the one the source calls by the word for a leading part): the list
`output` afterwards. -/
def ListAllMember : List Char → YamlNode → List (List Char × YamlNode) →
    List (List Char × YamlNode)
  | pfx, YamlNode.map entries, output =>
    if (find_first_not_of pfx configNameChars).isSome then output
    else ListAllMember.entries pfx entries (output ++ [(pfx, YamlNode.map entries)])
  | pfx, YamlNode.null, output =>
    if (find_first_not_of pfx configNameChars).isSome then output
    else output ++ [(pfx, YamlNode.null)]
  | pfx, YamlNode.scalar s, output =>
    if (find_first_not_of pfx configNameChars).isSome then output
    else output ++ [(pfx, YamlNode.scalar s)]
  | pfx, YamlNode.sequence s, output =>
    if (find_first_not_of pfx configNameChars).isSome then output
    else output ++ [(pfx, YamlNode.sequence s)]
/-- The `for` loop of `ListAllMember` over the entries of a map. -/
def ListAllMember.entries : List Char → YamlEntries → List (List Char × YamlNode) →
    List (List Char × YamlNode)
  | _, YamlEntries.nil, out => out
  | pfx, YamlEntries.cons k v rest, out =>
    ListAllMember.entries pfx rest
      (ListAllMember (if pfx.isEmpty then k else pfx ++ ['.'] ++ k) v out)
end

/-- Source `Config::LoadFromYaml(root)`: the calls of `fromString` it makes, in
order, each with the key under which `LookupBase` found the variable and the
node whose text is handed over.  `registered` tells whether `LookupBase`
finds a variable. -/
def Config.LoadFromYaml (registered : List Char → Bool) (root : YamlNode) :
    List (List Char × YamlNode) :=
  (ListAllMember [] root []).filterMap (fun i =>
    if i.1.isEmpty then none
    else if registered (i.1.map Char.toLower) then some (i.1.map Char.toLower, i.2)
    else none)

/-! ## Loggers (log.cpp) -/

/-- Modelled from the spec: the enumerator `LogLevel::FATAL` of log.h, which is
not among the sources, with the value that the comment above `Logger::log`
gives. -/
def LogLevel.FATAL : Nat := 0

/-- Modelled from the spec: enumerator `LogLevel::ALERT`. -/
def LogLevel.ALERT : Nat := 100

/-- Modelled from the spec: enumerator `LogLevel::CRIT`. -/
def LogLevel.CRIT : Nat := 200

/-- Modelled from the spec: enumerator `LogLevel::ERROR`. -/
def LogLevel.ERROR : Nat := 300

/-- Modelled from the spec: enumerator `LogLevel::WARN`. -/
def LogLevel.WARN : Nat := 400

/-- Modelled from the spec: enumerator `LogLevel::NOTICE`. -/
def LogLevel.NOTICE : Nat := 500

/-- Modelled from the spec: enumerator `LogLevel::INFO`. -/
def LogLevel.INFO : Nat := 600

/-- Modelled from the spec: enumerator `LogLevel::DEBUG`. -/
def LogLevel.DEBUG : Nat := 700

/-- The members of a `Logger` that `log` uses: the level and the appenders, by
address, in list order. -/
structure Logger where
  m_level : Nat
  m_appenders : List Nat
deriving DecidableEq, Repr

/-- The constructor `Logger::Logger(name)`. -/
def Logger.new : Logger := { m_level := LogLevel.INFO, m_appenders := [] }

/-- Source `Logger::addAppender(appender)`. -/
def Logger.addAppender (l : Logger) (appender : Nat) : Logger :=
  { l with m_appenders := l.m_appenders ++ [appender] }

/-- Modelled from the spec: the inline setter `Logger::setLevel(level)` of
log.h, which is not among the sources. -/
def Logger.setLevel (l : Logger) (level : Nat) : Logger := { l with m_level := level }

/-- Source `Logger::log(event)` for an event of level `level`: the appenders
whose `log` is called, in call order. -/
def Logger.log (l : Logger) (level : Nat) : List Nat :=
  if level ≤ l.m_level then l.m_appenders.foldl (fun calls i => calls ++ [i]) [] else []

/-! ## IPv6 addresses (address.cc) -/

/-- Source `CreateMask<uint8_t>(bits)`: `(1 << (8 - bits)) - 1` converted to
`uint8_t`. -/
def CreateMask8 (bits : Nat) : Nat := ((1 <<< (8 - bits)) - 1) % 256

/-- The `for` loop of `IPv6Address::networkAddress` from index `i` on, for at
most `n` more indices: `s6_addr[i] = 0x00` while `i < 16`. -/
def clearFrom : Nat → Nat → List Nat → List Nat
  | 0, _, a => a
  | n + 1, i, a => if i < 16 then clearFrom n (i + 1) (a.set i 0) else a

/-- Source `IPv6Address::networkAddress(plen)` on the 16 bytes `s6_addr` (the
parameter is the length of the leading part that names the network): the
bytes of the address returned.  The result is `none` when `s6_addr[plen / 8]`
lies outside the array. -/
def IPv6Address.networkAddress (s6_addr : List Nat) (plen : Nat) : Option (List Nat) :=
  match s6_addr.get? (plen / 8) with
  | none => none
  | some byte =>
    some (clearFrom 16 (plen / 8 + 1)
      (s6_addr.set (plen / 8) (byte &&& CreateMask8 (plen % 8))))

/-- The address that agrees with `s6_addr` on its first `plen` bits and has
the other bits cleared: bit `j` of byte `i` counts from the most significant
one. -/
def networkOf (s6_addr : List Nat) (plen : Nat) : List Nat :=
  (List.range 16).map (fun i =>
    if 8 * (i + 1) ≤ plen then s6_addr.getD i 0
    else if plen ≤ 8 * i then 0
    else s6_addr.getD i 0 &&& (255 - CreateMask8 (plen % 8)))

/-! ## String utilities (util.cpp) -/

/-- Library `std::string::find_last_not_of(chars)`: the position found, `none`
for `npos`. -/
def find_last_not_of (s chars : List Char) : Option Nat :=
  match find_first_not_of s.reverse chars with
  | none => none
  | some i => some (s.length - 1 - i)

/-- Source `StringUtil::Trim(str, delimit)`. -/
def StringUtil.Trim (str delimit : List Char) : List Char :=
  match find_first_not_of str delimit with
  | none => []
  | some b =>
    match find_last_not_of str delimit with
    | none => str.drop b
    | some e => (str.drop b).take (e - b + 1)

/-- Source `StringUtil::TrimLeft(str, delimit)`. -/
def StringUtil.TrimLeft (str delimit : List Char) : List Char :=
  match find_first_not_of str delimit with
  | none => []
  | some b => str.drop b

/-- Source `StringUtil::TrimRight(str, delimit)`. -/
def StringUtil.TrimRight (str delimit : List Char) : List Char :=
  match find_last_not_of str delimit with
  | none => []
  | some e => str.take e

/-! ## Sample states -/

/-- A table of four slots in which descriptor 1 waits for `READ` with a
callback and descriptor 3 waits for `READ` and `WRITE` with two coroutines. -/
def sampleIOManager : IOManager :=
  { m_fdContexts :=
      [FdContext.fresh 0,
       { read := ⟨some 1, none, some 7⟩, write := EventContext.empty, fd := 1, events := 1 },
       FdContext.fresh 2,
       { read := ⟨some 1, some 21, none⟩, write := ⟨some 1, some 22, none⟩, fd := 3, events := 5 }]
    m_pendingEventCount := 3
    scheduled := [] }

/-- A task queue: a coroutine that is still running, then a callback, both
for any thread. -/
def sampleTasks : List ScheduleTask :=
  [{ fiber := some 1, cb := none, thread := -1 }, { fiber := none, cb := some 7, thread := -1 }]

/-- A coroutine table in which coroutine 1 is `RUNNING` and the others are
`READY`. -/
def sampleStates (f : Nat) : FiberState :=
  if f = 1 then FiberState.RUNNING else FiberState.READY

/-- An open blocking socket as the kernel sees it (`O_RDWR`). -/
def sampleSocket : KernelFd := { statOk := true, isSock := true, flags := 2 }

/-- The three timers of `tests/test_timer.cc` right after creation at clock
reading 0: a recurring timer of 1000 ms at address 10, a timer of 500 ms at
address 5 and a timer of 5000 ms at address 7. -/
def sampleTimers : TimerManager :=
  { heap := fun a =>
      if a = 10 then ⟨true, 1000, 1000, some 1⟩
      else if a = 5 then ⟨false, 500, 500, some 2⟩
      else if a = 7 then ⟨false, 5000, 5000, some 3⟩
      else Timer.blank
    m_timers := [5, 10, 7]
    m_tickled := true
    m_previouseTime := 0
    live := [7, 5, 10]
    frontCalls := 1 }

/-- A thread whose coroutine 0 is the scheduler's main coroutine and whose other
coroutines take part in scheduling, right after construction. -/
def sampleThread : FiberThread :=
  FiberThread.init (fun f => decide (f ≠ 0)) (some 0)

/-- The thread `sampleThread` after coroutine 1 ran to the end of its entry
function: coroutine 0 is current again, coroutine 1 is TERM. -/
def finishedThread : FiberThread :=
  { fibers := fun f =>
      if f = 0 then { m_state := FiberState.RUNNING, m_cb := some 0, m_runInScheduler := false }
      else if f = 1 then { m_state := FiberState.TERM, m_cb := none, m_runInScheduler := true }
      else { m_state := FiberState.READY, m_cb := some f, m_runInScheduler := true },
    t_fiber := some 0, mainFiber := some 0, swaps := 3 }

/-- The kernel's record of a socket descriptor that is already non-blocking. -/
def sampleKernelSocket : KernelFd := { statOk := true, isSock := true, flags := 2050 }

/-- The context that `FdCtx(3)` builds for that socket. -/
def sampleCtx : FdCtx := (FdCtx.new 3 sampleKernelSocket).1

/-- A registry in which descriptor 3 has its context. -/
def sampleRegistry : FdManager :=
  { m_datas := FdManager.new.m_datas.set 3 (some sampleCtx) }

/-- A new ByteArray with the default block size of 4096 bytes, its buffer
zeroed. -/
def sampleBytes : ByteArray := ByteArray.new 4096 (fun _ => 0)

/-- A new manager (clock reading 0) to which `addTimer(1000, cb)` with an empty
`std::function` as `cb` was applied; the timer has the address 10. -/
def emptyCallbackTimers : TimerManager :=
  match (TimerManager.init 0).addTimer 0 10 1000 none false with
  | some r => r.2
  | none => TimerManager.init 0

/-! # Theorems -/

theorem and_READ_ne_zero (m : Nat) : m &&& READ ≠ 0 ↔ m.testBit 0 = true := by
  unfold READ
  rw [show (1:Nat) = 2^0 from rfl, Nat.and_two_pow]
  cases m.testBit 0 <;> simp

theorem and_WRITE_ne_zero (m : Nat) : m &&& WRITE ≠ 0 ↔ m.testBit 2 = true := by
  unfold WRITE
  rw [show (4:Nat) = 2^2 from rfl, Nat.and_two_pow]
  cases m.testBit 2 <;> simp

theorem eventCount_eq (m : Nat) : eventCount m = (m.testBit 0).toNat + (m.testBit 2).toNat := by
  unfold eventCount
  have h1 := and_READ_ne_zero m
  have h2 := and_WRITE_ne_zero m
  by_cases a : m &&& READ ≠ 0 <;> by_cases b : m &&& WRITE ≠ 0
  · rw [if_pos a, if_pos b, h1.1 a, h2.1 b]; rfl
  · rw [if_pos a, if_neg b, h1.1 a, Bool.eq_false_iff.2 (fun h => b (h2.2 h))]; rfl
  · rw [if_neg a, if_pos b, h2.1 b, Bool.eq_false_iff.2 (fun h => a (h1.2 h))]; rfl
  · rw [if_neg a, if_neg b, Bool.eq_false_iff.2 (fun h => a (h1.2 h)),
      Bool.eq_false_iff.2 (fun h => b (h2.2 h))]; rfl

theorem bitNot32_READ : bitNot32 READ = 4294967294 := by decide
theorem bitNot32_WRITE : bitNot32 WRITE = 4294967291 := by decide

theorem eventCount_set_READ (m : Nat) (h : m &&& READ = 0) :
    eventCount (m ||| READ) = eventCount m + 1 := by
  have h0 : m.testBit 0 = false := Bool.eq_false_iff.2 (fun hc => (and_READ_ne_zero m).2 hc h)
  have c0 : Nat.testBit READ 0 = true := by decide
  have c2 : Nat.testBit READ 2 = false := by decide
  rw [eventCount_eq, eventCount_eq, Nat.testBit_or, Nat.testBit_or, h0, c0, c2]
  cases m.testBit 2 <;> rfl

theorem eventCount_set_WRITE (m : Nat) (h : m &&& WRITE = 0) :
    eventCount (m ||| WRITE) = eventCount m + 1 := by
  have h0 : m.testBit 2 = false := Bool.eq_false_iff.2 (fun hc => (and_WRITE_ne_zero m).2 hc h)
  have c0 : Nat.testBit WRITE 0 = false := by decide
  have c2 : Nat.testBit WRITE 2 = true := by decide
  rw [eventCount_eq, eventCount_eq, Nat.testBit_or, Nat.testBit_or, h0, c0, c2]
  cases m.testBit 0 <;> rfl
  
theorem eventCount_clear_READ (m : Nat) (h : m &&& READ ≠ 0) :
    eventCount (m &&& bitNot32 READ) + 1 = eventCount m := by
  have h0 := (and_READ_ne_zero m).1 h
  have c0 : Nat.testBit 4294967294 0 = false := by decide
  have c2 : Nat.testBit 4294967294 2 = true := by decide
  rw [eventCount_eq, eventCount_eq, Nat.testBit_and, Nat.testBit_and, h0, bitNot32_READ, c0, c2]
  cases m.testBit 2 <;> rfl

theorem eventCount_clear_WRITE (m : Nat) (h : m &&& WRITE ≠ 0) :
    eventCount (m &&& bitNot32 WRITE) + 1 = eventCount m := by
  have h0 := (and_WRITE_ne_zero m).1 h
  have c0 : Nat.testBit 4294967291 0 = true := by decide
  have c2 : Nat.testBit 4294967291 2 = false := by decide
  rw [eventCount_eq, eventCount_eq, Nat.testBit_and, Nat.testBit_and, h0, bitNot32_WRITE, c0, c2]
  cases m.testBit 0 <;> rfl

theorem eventCount_le_two (m : Nat) : eventCount m ≤ 2 := by
  unfold eventCount; split <;> split <;> omega

theorem totalEvents_le (l : List FdContext) : totalEvents l ≤ 2 * l.length := by
  induction l with
  | nil => simp [totalEvents]
  | cons c t ih =>
    have := eventCount_le_two c.events
    simp only [totalEvents, List.map_cons, List.sum_cons, List.length_cons] at ih ⊢
    omega

theorem totalEvents_set (l : List FdContext) (i : Nat) (c c1 : FdContext)
    (h : l.get? i = some c) :
    totalEvents (l.set i c1) + eventCount c.events = totalEvents l + eventCount c1.events := by
  induction l generalizing i with
  | nil => simp at h
  | cons x t ih =>
    cases i with
    | zero =>
      simp only [List.get?_cons_zero, Option.some.injEq] at h
      subst h
      simp only [totalEvents, List.set_cons_zero, List.map_cons, List.sum_cons]
      omega
    | succ j =>
      simp only [List.get?_cons_succ] at h
      have := ih j h
      simp only [totalEvents, List.set_cons_succ, List.map_cons, List.sum_cons] at this ⊢
      omega

theorem totalEvents_contextResize (l : List FdContext) (size : Nat) (h : l.length ≤ size) :
    totalEvents (contextResize l size) = totalEvents l := by
  unfold contextResize totalEvents
  rw [List.take_of_length_le h, List.map_append, List.sum_append, List.map_map]
  have : ∀ (k n : Nat), ((List.range' k n).map ((fun c => eventCount c.events) ∘ FdContext.fresh)).sum = 0 := by
    intro k n
    induction n generalizing k with
    | zero => simp
    | succ n ih =>
      simp only [List.range'_succ, List.map_cons, List.sum_cons, ih, Function.comp]
      show eventCount 0 + 0 = 0
      decide
  rw [this]; rfl

theorem setEventContext_events (c : FdContext) (ev : Nat) (x : EventContext) :
    (c.setEventContext ev x).events = c.events := by
  unfold FdContext.setEventContext
  split
  · rfl
  · split <;> rfl

theorem getEventContext_isSome (c : FdContext) (ev : Nat) (x : EventContext)
    (h : c.getEventContext ev = some x) : ev = READ ∨ ev = WRITE := by
  unfold FdContext.getEventContext at h
  by_cases h1 : ev = READ
  · exact Or.inl h1
  · by_cases h2 : ev = WRITE
    · exact Or.inr h2
    · simp [h1, h2] at h

theorem eventCount_clear (m ev : Nat) (hev : ev = READ ∨ ev = WRITE) (h : m &&& ev ≠ 0) :
    eventCount (m &&& bitNot32 ev) + 1 = eventCount m := by
  rcases hev with rfl | rfl
  · exact eventCount_clear_READ m h
  · exact eventCount_clear_WRITE m h

theorem eventCount_set (m ev : Nat) (hev : ev = READ ∨ ev = WRITE) (h : m &&& ev = 0) :
    eventCount (m ||| ev) = eventCount m + 1 := by
  rcases hev with rfl | rfl
  · exact eventCount_set_READ m h
  · exact eventCount_set_WRITE m h

theorem triggerEvent_spec (c c1 : FdContext) (ev : Nat) (call : ScheduleCall)
    (h : c.triggerEvent ev = some (c1, call)) :
    (ev = READ ∨ ev = WRITE) ∧ c.events &&& ev ≠ 0 ∧
      c1.events = c.events &&& bitNot32 ev ∧ eventCount c1.events + 1 = eventCount c.events := by
  unfold FdContext.triggerEvent at h
  by_cases h0 : c.events &&& ev = 0
  · simp [h0] at h
  · simp only [h0, if_false] at h
    split at h
    · exact absurd h (by simp)
    · rename_i ctx hctx
      have hev := getEventContext_isSome _ _ _ hctx
      split at h
      · exact absurd h (by simp)
      · simp only [Option.some.injEq, Prod.mk.injEq] at h
        have he : c1.events = c.events &&& bitNot32 ev := by
          rw [← h.1, setEventContext_events]
        exact ⟨hev, h0, he, by rw [he]; exact eventCount_clear _ _ hev h0⟩

theorem decCount_pos (n : Nat) (h1 : 0 < n) (h2 : n < W64) : decCount n = n - 1 := by
  unfold decCount W64 at *
  omega

theorem incCount_lt (n : Nat) (h2 : n + 1 < W64) : incCount n = n + 1 := by
  unfold incCount W64 at *
  omega

theorem fireIf_count (mask ev R : Nat) (c c1 : FdContext) (n n1 : Nat) (q q1 : List ScheduleCall)
    (h : fireIf mask ev (c, n, q) = some (c1, n1, q1))
    (hn : n = R + eventCount c.events) (hlt : n < W64) :
    n1 = R + eventCount c1.events ∧ n1 < W64 := by
  unfold fireIf at h
  by_cases hm : mask &&& ev ≠ 0
  · rw [if_pos hm] at h
    cases htr : c.triggerEvent ev with
    | none => rw [htr] at h; exact absurd h (by simp)
    | some p =>
      obtain ⟨c2, call⟩ := p
      rw [htr] at h
      simp only [Option.some.injEq, Prod.mk.injEq] at h
      obtain ⟨rfl, rfl, -⟩ := h
      have := triggerEvent_spec _ _ _ _ htr
      have hpos : 0 < n := by omega
      rw [decCount_pos n hpos hlt]
      omega
  · rw [if_neg hm] at h
    simp only [Option.some.injEq, Prod.mk.injEq] at h
    obtain ⟨rfl, rfl, -⟩ := h
    exact ⟨hn, hlt⟩

theorem countInv_set (s : IOManager) (i : Nat) (c c1 : FdContext) (n1 : Nat) (q : List ScheduleCall)
    (hinv : s.countInv) (hget : s.m_fdContexts.get? i = some c)
    (h : n1 + eventCount c.events = s.m_pendingEventCount + eventCount c1.events) :
    IOManager.countInv { m_fdContexts := s.m_fdContexts.set i c1,
                         m_pendingEventCount := n1, scheduled := q } := by
  unfold IOManager.countInv at *
  have := totalEvents_set s.m_fdContexts i c c1 hget
  simp only
  omega

theorem eventCount_le_total (l : List FdContext) (i : Nat) (c : FdContext)
    (h : l.get? i = some c) : eventCount c.events ≤ totalEvents l := by
  have := totalEvents_set l i c c h
  induction l generalizing i with
  | nil => simp at h
  | cons x t ih =>
    cases i with
    | zero =>
      simp only [List.get?_cons_zero, Option.some.injEq] at h
      subst h
      simp only [totalEvents, List.map_cons, List.sum_cons]
      omega
    | succ j =>
      simp only [List.get?_cons_succ] at h
      have := ih j h (totalEvents_set t j c c h)
      simp only [totalEvents, List.map_cons, List.sum_cons] at this ⊢
      omega

theorem addEvent_table_total (s : IOManager) (fd : Int) (h0 : ¬ fd < 0) :
    totalEvents (if (s.m_fdContexts.length : Int) > fd then s.m_fdContexts
      else contextResize s.m_fdContexts (fd.toNat + fd.toNat / 2)) = totalEvents s.m_fdContexts := by
  split
  · rfl
  · apply totalEvents_contextResize
    omega

theorem addEvent_countInv (s : IOManager) (hlen : s.m_fdContexts.length < 2 ^ 63)
    (hinv : s.countInv) (fd : Int) (event : Nat) (cb : Option Nat) (rt : Int)
    (curScheduler : Option Nat) (curFiber : Nat) (curRunning : Bool) (r : Int) (s1 : IOManager)
    (h : s.addEvent fd event cb rt curScheduler curFiber curRunning = some (r, s1)) :
    s1.countInv := by
  unfold IOManager.addEvent at h
  by_cases hfd : fd < 0
  · simp [hfd] at h
  · have htot := addEvent_table_total s fd hfd
    simp only [hfd, if_false] at h
    generalize htbl : (if (s.m_fdContexts.length : Int) > fd then s.m_fdContexts
      else contextResize s.m_fdContexts (fd.toNat + fd.toNat / 2)) = tbl at h htot
    cases hget : tbl.get? fd.toNat with
    | none => rw [hget] at h; exact absurd h (by simp)
    | some fd_ctx =>
      rw [hget] at h
      simp only at h
      by_cases hreg : fd_ctx.events &&& event ≠ 0
      · rw [if_pos hreg] at h; exact absurd h (by simp)
      · rw [if_neg hreg] at h
        by_cases hrt : rt ≠ 0
        · rw [if_pos hrt] at h
          simp only [Option.some.injEq, Prod.mk.injEq] at h
          rw [← h.2]
          unfold IOManager.countInv at *
          simp only
          rw [htot]; exact hinv
        · rw [if_neg hrt] at h
          cases hctx : FdContext.getEventContext
              { fd_ctx with events := fd_ctx.events ||| event } event with
          | none => rw [hctx] at h; exact absurd h (by simp)
          | some event_ctx =>
            rw [hctx] at h
            simp only at h
            have hev := getEventContext_isSome _ _ _ hctx
            have hec := eventCount_set fd_ctx.events event hev (by simpa using hreg)
            have hle := totalEvents_le s.m_fdContexts
            have hn : s.m_pendingEventCount + 1 < W64 := by
              unfold IOManager.countInv at hinv
              unfold W64
              omega
            have key : ∀ (x : EventContext),
                IOManager.countInv
                  { m_fdContexts := tbl.set fd.toNat
                      (FdContext.setEventContext { fd_ctx with events := fd_ctx.events ||| event } event x)
                    m_pendingEventCount := incCount s.m_pendingEventCount
                    scheduled := s.scheduled } := by
              intro x
              unfold IOManager.countInv at *
              have hs := totalEvents_set tbl fd.toNat fd_ctx
                (FdContext.setEventContext { fd_ctx with events := fd_ctx.events ||| event } event x) hget
              rw [setEventContext_events] at hs
              simp only at hs ⊢
              rw [incCount_lt _ hn]
              omega
            split at h
            · exact absurd h (by simp)
            · split at h
              · simp only [Option.some.injEq, Prod.mk.injEq] at h
                rw [← h.2]; exact key _
              · split at h
                · simp only [Option.some.injEq, Prod.mk.injEq] at h
                  rw [← h.2]; exact key _
                · exact absurd h (by simp)

theorem pending_lt (s : IOManager) (hlen : s.m_fdContexts.length < 2 ^ 63) (hinv : s.countInv) :
    s.m_pendingEventCount < W64 := by
  have hle := totalEvents_le s.m_fdContexts
  unfold IOManager.countInv at hinv
  unfold W64
  omega

theorem delEvent_countInv (s : IOManager) (hlen : s.m_fdContexts.length < 2 ^ 63)
    (hinv : s.countInv) (fd : Int) (event : Nat) (rt : Int) (r : Bool) (s1 : IOManager)
    (h : s.delEvent fd event rt = some (r, s1)) : s1.countInv := by
  unfold IOManager.delEvent at h
  split at h
  · simp only [Option.some.injEq, Prod.mk.injEq] at h; rw [← h.2]; exact hinv
  · split at h
    · exact absurd h (by simp)
    · cases hget : s.m_fdContexts.get? fd.toNat with
      | none => rw [hget] at h; exact absurd h (by simp)
      | some fd_ctx =>
        rw [hget] at h
        simp only at h
        by_cases hreg : fd_ctx.events &&& event = 0
        · rw [if_pos hreg] at h
          simp only [Option.some.injEq, Prod.mk.injEq] at h; rw [← h.2]; exact hinv
        · rw [if_neg hreg] at h
          by_cases hrt : rt ≠ 0
          · rw [if_pos hrt] at h
            simp only [Option.some.injEq, Prod.mk.injEq] at h; rw [← h.2]; exact hinv
          · rw [if_neg hrt] at h
            cases hctx : FdContext.getEventContext
                { fd_ctx with events := fd_ctx.events &&& bitNot32 event } event with
            | none => rw [hctx] at h; exact absurd h (by simp)
            | some event_ctx =>
              rw [hctx] at h
              simp only [Option.some.injEq, Prod.mk.injEq] at h
              rw [← h.2]
              have hev := getEventContext_isSome _ _ _ hctx
              have hec := eventCount_clear fd_ctx.events event hev hreg
              have hlt := pending_lt s hlen hinv
              have hle := eventCount_le_total _ _ _ hget
              apply countInv_set s _ fd_ctx _ _ _ hinv hget
              rw [setEventContext_events]
              simp only
              have hpos : 0 < s.m_pendingEventCount := by
                unfold IOManager.countInv at hinv; omega
              rw [decCount_pos _ hpos hlt]
              omega

theorem cancelEvent_countInv (s : IOManager) (hlen : s.m_fdContexts.length < 2 ^ 63)
    (hinv : s.countInv) (fd : Int) (event : Nat) (rt : Int) (r : Bool) (s1 : IOManager)
    (h : s.cancelEvent fd event rt = some (r, s1)) : s1.countInv := by
  unfold IOManager.cancelEvent at h
  split at h
  · simp only [Option.some.injEq, Prod.mk.injEq] at h; rw [← h.2]; exact hinv
  · split at h
    · exact absurd h (by simp)
    · cases hget : s.m_fdContexts.get? fd.toNat with
      | none => rw [hget] at h; exact absurd h (by simp)
      | some fd_ctx =>
        rw [hget] at h
        simp only at h
        by_cases hreg : fd_ctx.events &&& event = 0
        · rw [if_pos hreg] at h
          simp only [Option.some.injEq, Prod.mk.injEq] at h; rw [← h.2]; exact hinv
        · rw [if_neg hreg] at h
          by_cases hrt : rt ≠ 0
          · rw [if_pos hrt] at h
            simp only [Option.some.injEq, Prod.mk.injEq] at h; rw [← h.2]; exact hinv
          · rw [if_neg hrt] at h
            cases htr : fd_ctx.triggerEvent event with
            | none => rw [htr] at h; exact absurd h (by simp)
            | some p =>
              obtain ⟨c1, call⟩ := p
              rw [htr] at h
              simp only [Option.some.injEq, Prod.mk.injEq] at h
              rw [← h.2]
              have hsp := triggerEvent_spec _ _ _ _ htr
              have hlt := pending_lt s hlen hinv
              have hle := eventCount_le_total _ _ _ hget
              apply countInv_set s _ fd_ctx _ _ _ hinv hget
              have hpos : 0 < s.m_pendingEventCount := by
                unfold IOManager.countInv at hinv; omega
              rw [decCount_pos _ hpos hlt]
              omega

theorem fire_twice_countInv (s : IOManager) (hlen : s.m_fdContexts.length < 2 ^ 63)
    (hinv : s.countInv) (i : Nat) (fd_ctx : FdContext)
    (hget : s.m_fdContexts.get? i = some fd_ctx) (m1 m2 : Nat)
    (st1 st2 : FdContext × Nat × List ScheduleCall)
    (h1 : fireIf m1 READ (fd_ctx, s.m_pendingEventCount, s.scheduled) = some st1)
    (h2 : fireIf m2 WRITE st1 = some st2) :
    IOManager.countInv { m_fdContexts := s.m_fdContexts.set i st2.1,
                         m_pendingEventCount := st2.2.1, scheduled := st2.2.2 } := by
  obtain ⟨c1, n1, q1⟩ := st1
  obtain ⟨c2, n2, q2⟩ := st2
  have hlt := pending_lt s hlen hinv
  have hle := eventCount_le_total _ _ _ hget
  have hR : s.m_pendingEventCount =
      (s.m_pendingEventCount - eventCount fd_ctx.events) + eventCount fd_ctx.events := by
    unfold IOManager.countInv at hinv; omega
  have a1 := fireIf_count m1 READ _ fd_ctx c1 _ n1 _ q1 h1 hR hlt
  have a2 := fireIf_count m2 WRITE _ c1 c2 n1 n2 q1 q2 h2 a1.1 a1.2
  apply countInv_set s _ fd_ctx _ _ _ hinv hget
  simp only
  omega

theorem cancelAll_countInv (s : IOManager) (hlen : s.m_fdContexts.length < 2 ^ 63)
    (hinv : s.countInv) (fd : Int) (rt : Int) (r : Bool) (s1 : IOManager)
    (h : s.cancelAll fd rt = some (r, s1)) : s1.countInv := by
  unfold IOManager.cancelAll at h
  split at h
  · simp only [Option.some.injEq, Prod.mk.injEq] at h; rw [← h.2]; exact hinv
  · split at h
    · exact absurd h (by simp)
    · cases hget : s.m_fdContexts.get? fd.toNat with
      | none => rw [hget] at h; exact absurd h (by simp)
      | some fd_ctx =>
        rw [hget] at h
        simp only at h
        split at h
        · simp only [Option.some.injEq, Prod.mk.injEq] at h; rw [← h.2]; exact hinv
        · split at h
          · simp only [Option.some.injEq, Prod.mk.injEq] at h; rw [← h.2]; exact hinv
          · cases h1 : fireIf fd_ctx.events READ (fd_ctx, s.m_pendingEventCount, s.scheduled) with
            | none => rw [h1] at h; exact absurd h (by simp)
            | some st1 =>
              rw [h1] at h
              simp only at h
              cases h2 : fireIf st1.1.events WRITE st1 with
              | none => rw [h2] at h; exact absurd h (by simp)
              | some st2 =>
                rw [h2] at h
                simp only at h
                split at h
                · exact absurd h (by simp)
                · simp only [Option.some.injEq, Prod.mk.injEq] at h
                  rw [← h.2]
                  exact fire_twice_countInv s hlen hinv _ _ hget _ _ _ _ h1 h2

theorem idleEvent_countInv (s : IOManager) (hlen : s.m_fdContexts.length < 2 ^ 63)
    (hinv : s.countInv) (data : EpollData) (revents : Nat) (rt2 : Int) (s1 : IOManager)
    (h : s.idleEvent data revents rt2 = some s1) : s1.countInv := by
  unfold IOManager.idleEvent at h
  cases data with
  | tickle => simp only [Option.some.injEq] at h; rw [← h]; exact hinv
  | ptr i =>
    simp only at h
    cases hget : s.m_fdContexts.get? i with
    | none => rw [hget] at h; exact absurd h (by simp)
    | some fd_ctx =>
      rw [hget] at h
      simp only at h
      generalize realEvents revents fd_ctx.events = re at h
      split at h
      · simp only [Option.some.injEq] at h; rw [← h]; exact hinv
      · split at h
        · simp only [Option.some.injEq] at h; rw [← h]; exact hinv
        · cases h1 : fireIf re READ (fd_ctx, s.m_pendingEventCount, s.scheduled) with
          | none => rw [h1] at h; exact absurd h (by simp)
          | some st1 =>
            rw [h1] at h
            simp only at h
            cases h2 : fireIf re WRITE st1 with
            | none => rw [h2] at h; exact absurd h (by simp)
            | some st2 =>
              rw [h2] at h
              simp only [Option.some.injEq] at h
              rw [← h]
              exact fire_twice_countInv s hlen hinv _ _ hget _ _ _ _ h1 h2

theorem mask_cases (m : Nat) (h : m &&& (READ ||| WRITE) = m) :
    m = 0 ∨ m = 1 ∨ m = 4 ∨ m = 5 := by
  have hle : m ≤ 5 := by
    have : m &&& (READ ||| WRITE) ≤ READ ||| WRITE := Nat.and_le_right
    rw [h] at this
    exact this
  interval_cases m
  · exact Or.inl rfl
  · exact Or.inr (Or.inl rfl)
  · exact absurd h (by decide)
  · exact absurd h (by decide)
  · exact Or.inr (Or.inr (Or.inl rfl))
  · exact Or.inr (Or.inr (Or.inr rfl))

theorem and_lit_4_clearW : (4 : Nat) &&& 4294967291 = 0 := by decide
theorem and_lit_1_clearR : (1 : Nat) &&& 4294967294 = 0 := by decide
theorem and_lit_5_clearR : (5 : Nat) &&& 4294967294 = 4 := by decide
theorem and_lit_5_R : (5 : Nat) &&& 1 = 1 := by decide
theorem and_lit_5_W : (5 : Nat) &&& 4 = 4 := by decide
theorem and_lit_4_W : (4 : Nat) &&& 4 = 4 := by decide
theorem and_lit_4_R : (4 : Nat) &&& 1 = 0 := by decide
theorem and_lit_1_W : (1 : Nat) &&& 4 = 0 := by decide
theorem and_lit_1_R : (1 : Nat) &&& 1 = 1 := by decide

theorem cancelAll_fires (s : IOManager) (fd : Int) (c : FdContext) (hfd : 0 ≤ fd)
    (hget : s.m_fdContexts.get? fd.toNat = some c) (hne : c.events ≠ 0) (hinv : c.inv)
    (hsch : c.hasSchedulers) :
    s.cancelAll fd 0 = some (true,
      { m_fdContexts := s.m_fdContexts.set fd.toNat
          { c with events := NONE, read := EventContext.empty, write := EventContext.empty }
        m_pendingEventCount := (s.m_pendingEventCount + (W64 - eventCount c.events)) % W64
        scheduled := s.scheduled ++ firedCalls c }) ∧
    (firedCalls c).length = eventCount c.events ∧
    (∀ call ∈ firedCalls c, call.cb.isSome ∨ call.fiber.isSome) := by
  have hlen : ¬ ((s.m_fdContexts.length : Int) ≤ fd) := by
    intro hc
    have : s.m_fdContexts.length ≤ fd.toNat := by omega
    rw [List.get?_eq_none.2 this] at hget
    exact absurd hget (by simp)
  have hneg : ¬ fd < 0 := by omega
  obtain ⟨rd, wr, cfd, m⟩ := c
  obtain ⟨hm, hcr, hcw, hr0, hw0⟩ := hinv
  obtain ⟨hr, hw⟩ := hsch
  simp only at hm hr hw hcr hcw hr0 hw0 hne
  unfold IOManager.cancelAll
  rw [if_neg hlen, if_neg hneg, hget]
  rcases mask_cases m hm with rfl | rfl | rfl | rfl
  · exact absurd rfl hne
  · obtain ⟨rs, rf, rc⟩ := rd
    have h1 := hr (by decide)
    have h2 := hw0 (by decide)
    have h3 := hcr (by decide)
    simp only at h1 h2 h3
    subst h2
    cases rs with
    | none => simp at h1
    | some sch =>
      refine ⟨?_, ?_, ?_⟩
      · simp [fireIf, FdContext.triggerEvent, FdContext.getEventContext,
          FdContext.setEventContext,
          resetEventContext, firedCalls, handlerCall, READ, WRITE, NONE, bitNot32, W32, decCount,
          EventContext.empty, eventCount, W64, and_lit_4_clearW, and_lit_1_clearR,
          and_lit_5_clearR,
          and_lit_5_R, and_lit_5_W, and_lit_4_W, and_lit_4_R, and_lit_1_W, and_lit_1_R]
      · simp [firedCalls, handlerCall, READ, WRITE, eventCount, and_lit_1_W, and_lit_1_R]
      · cases rc <;> cases rf <;>
          simp_all [firedCalls, handlerCall, READ, WRITE, and_lit_1_W, and_lit_1_R]
  · obtain ⟨ws, wf, wc⟩ := wr
    have h1 := hw (by decide)
    have h2 := hr0 (by decide)
    have h3 := hcw (by decide)
    simp only at h1 h2 h3
    subst h2
    cases ws with
    | none => simp at h1
    | some sch =>
      refine ⟨?_, ?_, ?_⟩
      · simp [fireIf, FdContext.triggerEvent, FdContext.getEventContext,
          FdContext.setEventContext,
          resetEventContext, firedCalls, handlerCall, READ, WRITE, NONE, bitNot32, W32, decCount,
          EventContext.empty, eventCount, W64, and_lit_4_clearW, and_lit_1_clearR,
          and_lit_5_clearR,
          and_lit_5_R, and_lit_5_W, and_lit_4_W, and_lit_4_R, and_lit_1_W, and_lit_1_R]
      · simp [firedCalls, handlerCall, READ, WRITE, eventCount, and_lit_4_W, and_lit_4_R]
      · cases wc <;> cases wf <;>
          simp_all [firedCalls, handlerCall, READ, WRITE, and_lit_4_W, and_lit_4_R]
  · obtain ⟨rs, rf, rc⟩ := rd
    obtain ⟨ws, wf, wc⟩ := wr
    have h1 := hr (by decide)
    have h2 := hw (by decide)
    have h3 := hcr (by decide)
    have h4 := hcw (by decide)
    simp only at h1 h2 h3 h4
    cases rs with
    | none => simp at h1
    | some sch =>
      cases ws with
      | none => simp at h2
      | some sch2 =>
        refine ⟨?_, ?_, ?_⟩
        · simp [fireIf, FdContext.triggerEvent, FdContext.getEventContext,
            FdContext.setEventContext,
            resetEventContext, firedCalls, handlerCall, READ, WRITE, NONE, bitNot32, W32,
            decCount,
            EventContext.empty, eventCount, W64, and_lit_4_clearW, and_lit_1_clearR,
            and_lit_5_clearR,
            and_lit_5_R, and_lit_5_W, and_lit_4_W, and_lit_4_R, and_lit_1_W, and_lit_1_R]
          omega
        · simp [firedCalls, handlerCall, READ, WRITE, eventCount, and_lit_5_W, and_lit_5_R]
        · cases rc <;> cases rf <;> cases wc <;> cases wf <;>
            simp_all [firedCalls, handlerCall, READ, WRITE, and_lit_5_W, and_lit_5_R]

theorem cancelAll_null_deref (s : IOManager) (fd : Int) (c : FdContext) (hfd : 0 ≤ fd)
    (hget : s.m_fdContexts.get? fd.toNat = some c) (hne : c.events ≠ 0) (hinv : c.inv)
    (hsch : ¬ c.hasSchedulers) :
    s.cancelAll fd 0 = none := by
  have hlen : ¬ ((s.m_fdContexts.length : Int) ≤ fd) := by
    intro hc
    have : s.m_fdContexts.length ≤ fd.toNat := by omega
    rw [List.get?_eq_none.2 this] at hget
    exact absurd hget (by simp)
  have hneg : ¬ fd < 0 := by omega
  obtain ⟨rd, wr, cfd, m⟩ := c
  obtain ⟨hm, hcr, hcw, hr0, hw0⟩ := hinv
  obtain ⟨rs, rf, rc⟩ := rd
  obtain ⟨ws, wf, wc⟩ := wr
  unfold FdContext.hasSchedulers at hsch
  simp only at hm hsch hne
  unfold IOManager.cancelAll
  rw [if_neg hlen, if_neg hneg, hget]
  rcases mask_cases m hm with rfl | rfl | rfl | rfl
  · exact absurd rfl hne
  · cases rs with
    | some sch => exact absurd ⟨fun _ => rfl, fun h => absurd rfl h⟩ hsch
    | none =>
      simp [fireIf, FdContext.triggerEvent, FdContext.getEventContext, READ, WRITE, bitNot32,
        W32, and_lit_1_R, and_lit_1_clearR]
  · cases ws with
    | some sch => exact absurd ⟨fun h => absurd rfl h, fun _ => rfl⟩ hsch
    | none =>
      simp [fireIf, FdContext.triggerEvent, FdContext.getEventContext, READ, WRITE, bitNot32,
        W32, and_lit_4_R, and_lit_4_W, and_lit_4_clearW]
  · cases rs with
    | none =>
      simp [fireIf, FdContext.triggerEvent, FdContext.getEventContext, READ, WRITE, bitNot32,
        W32, and_lit_5_R, and_lit_5_clearR]
    | some sch =>
      cases ws with
      | some sch2 => exact absurd ⟨fun _ => rfl, fun _ => rfl⟩ hsch
      | none =>
        simp [fireIf, FdContext.triggerEvent, FdContext.getEventContext,
          FdContext.setEventContext, resetEventContext, READ, WRITE, bitNot32,
          W32, and_lit_5_R, and_lit_5_clearR, and_lit_4_W, and_lit_4_clearW]

theorem cancelAll_noop (s : IOManager) (fd : Int) (rt : Int)
    (h : (s.m_fdContexts.length : Int) ≤ fd ∨
      ∃ c, 0 ≤ fd ∧ s.m_fdContexts.get? fd.toNat = some c ∧ c.events = NONE) :
    s.cancelAll fd rt = some (false, s) := by
  unfold IOManager.cancelAll
  rcases h with h | ⟨c, hfd, hget, hc⟩
  · rw [if_pos h]
  · have hlen : ¬ ((s.m_fdContexts.length : Int) ≤ fd) := by
      intro hc
      have : s.m_fdContexts.length ≤ fd.toNat := by omega
      rw [List.get?_eq_none.2 this] at hget
      exact absurd hget (by simp)
    have hneg : ¬ fd < 0 := by omega
    rw [if_neg hlen, if_neg hneg, hget]
    simp only
    rw [if_pos (show c.events = 0 from hc)]

/-! ## The slot invariant is kept by every event operation -/

theorem inv_fresh (i : Nat) : (FdContext.fresh i).inv := by
  have h1 : NONE &&& (READ ||| WRITE) = NONE := by decide
  have h2 : NONE &&& READ = 0 := by decide
  have h3 : NONE &&& WRITE = 0 := by decide
  exact ⟨h1, fun h => (h h2).elim, fun h => (h h3).elim, fun _ => rfl, fun _ => rfl⟩

theorem slotsInv_contextResize (tbl : List FdContext) (size : Nat)
    (h : ∀ c ∈ tbl, c.inv) : ∀ c ∈ contextResize tbl size, c.inv := by
  intro c hc
  unfold contextResize at hc
  rcases List.mem_append.1 hc with h1 | h1
  · exact h c (List.mem_of_mem_take h1)
  · obtain ⟨i, _, rfl⟩ := List.mem_map.1 h1
    exact inv_fresh i

theorem slotsInv_new : IOManager.new.slotsInv := by
  unfold IOManager.slotsInv IOManager.new
  exact slotsInv_contextResize [] 32 (fun c hc => absurd hc (List.not_mem_nil c))

theorem inv_of_get (tbl : List FdContext) (i : Nat) (c : FdContext)
    (h : ∀ c ∈ tbl, c.inv) (hget : tbl.get? i = some c) : c.inv :=
  h c (List.get?_mem hget)

theorem slotsInv_set (tbl : List FdContext) (i : Nat) (c1 : FdContext)
    (h : ∀ c ∈ tbl, c.inv) (h1 : c1.inv) : ∀ c ∈ tbl.set i c1, c.inv := by
  intro c hc
  rcases List.mem_or_eq_of_mem_set hc with h2 | h2
  · exact h c h2
  · rw [h2]; exact h1

theorem inv_clear (c : FdContext) (ev : Nat) (hev : ev = READ ∨ ev = WRITE) (hinv : c.inv)
    (x : EventContext) :
    (FdContext.setEventContext { c with events := c.events &&& bitNot32 ev } ev
      (resetEventContext x)).inv := by
  obtain ⟨rd, wr, cfd, m⟩ := c
  obtain ⟨hm, hcr, hcw, hr0, hw0⟩ := hinv
  simp only at hm hcr hcw hr0 hw0
  rcases hev with rfl | rfl <;> rcases mask_cases m hm with rfl | rfl | rfl | rfl <;>
    simp_all [FdContext.inv, FdContext.setEventContext, resetEventContext, EventContext.empty,
      READ, WRITE, bitNot32, W32, and_lit_4_clearW, and_lit_1_clearR, and_lit_5_clearR,
      and_lit_5_R, and_lit_5_W, and_lit_4_W, and_lit_4_R, and_lit_1_W, and_lit_1_R] <;>
    decide

theorem inv_add (c : FdContext) (ev : Nat) (hev : ev = READ ∨ ev = WRITE) (hinv : c.inv)
    (hreg : c.events &&& ev = 0) (x : EventContext) (hx : x.cb.isSome ∨ x.fiber.isSome) :
    (FdContext.setEventContext { c with events := c.events ||| ev } ev x).inv := by
  obtain ⟨rd, wr, cfd, m⟩ := c
  obtain ⟨hm, hcr, hcw, hr0, hw0⟩ := hinv
  simp only at hm hcr hcw hr0 hw0 hreg
  rcases hev with rfl | rfl <;> rcases mask_cases m hm with rfl | rfl | rfl | rfl <;>
    simp_all [FdContext.inv, FdContext.setEventContext, EventContext.empty,
      READ, WRITE, and_lit_5_R, and_lit_5_W, and_lit_4_W, and_lit_4_R, and_lit_1_W,
      and_lit_1_R]
  decide

theorem triggerEvent_inv (c c1 : FdContext) (ev : Nat) (call : ScheduleCall) (hinv : c.inv)
    (h : c.triggerEvent ev = some (c1, call)) : c1.inv := by
  unfold FdContext.triggerEvent at h
  by_cases h0 : c.events &&& ev = 0
  · simp [h0] at h
  · simp only [h0, if_false] at h
    split at h
    · exact absurd h (by simp)
    · rename_i ctx hctx
      have hev := getEventContext_isSome _ _ _ hctx
      split at h
      · exact absurd h (by simp)
      · simp only [Option.some.injEq, Prod.mk.injEq] at h
        rw [← h.1]
        exact inv_clear c ev hev hinv ctx

theorem fireIf_inv (mask ev : Nat) (st st1 : FdContext × Nat × List ScheduleCall)
    (hinv : st.1.inv) (h : fireIf mask ev st = some st1) : st1.1.inv := by
  unfold fireIf at h
  split at h
  · cases ht : st.1.triggerEvent ev with
    | none => rw [ht] at h; exact absurd h (by simp)
    | some r =>
      obtain ⟨c1, call⟩ := r
      rw [ht] at h
      simp only [Option.some.injEq] at h
      rw [← h]
      exact triggerEvent_inv _ _ _ _ hinv ht
  · simp only [Option.some.injEq] at h
    rw [← h]; exact hinv

theorem addEvent_slotsInv (s : IOManager) (hinv : s.slotsInv) (fd : Int) (event : Nat)
    (cb : Option Nat) (rt : Int) (curScheduler : Option Nat) (curFiber : Nat)
    (curRunning : Bool) (r : Int) (s1 : IOManager)
    (h : s.addEvent fd event cb rt curScheduler curFiber curRunning = some (r, s1)) :
    s1.slotsInv := by
  unfold IOManager.addEvent at h
  by_cases hfd : fd < 0
  · simp [hfd] at h
  · simp only [hfd, if_false] at h
    have htbl : ∀ c ∈ (if (s.m_fdContexts.length : Int) > fd then s.m_fdContexts
        else contextResize s.m_fdContexts (fd.toNat + fd.toNat / 2)), c.inv := by
      split
      · exact hinv
      · exact slotsInv_contextResize _ _ hinv
    generalize (if (s.m_fdContexts.length : Int) > fd then s.m_fdContexts
      else contextResize s.m_fdContexts (fd.toNat + fd.toNat / 2)) = tbl at h htbl
    cases hget : tbl.get? fd.toNat with
    | none => rw [hget] at h; exact absurd h (by simp)
    | some fd_ctx =>
      rw [hget] at h
      simp only at h
      have hc := inv_of_get tbl _ _ htbl hget
      by_cases hreg : fd_ctx.events &&& event ≠ 0
      · rw [if_pos hreg] at h; exact absurd h (by simp)
      · rw [if_neg hreg] at h
        by_cases hrt : rt ≠ 0
        · rw [if_pos hrt] at h
          simp only [Option.some.injEq, Prod.mk.injEq] at h
          rw [← h.2]
          exact htbl
        · rw [if_neg hrt] at h
          cases hctx : FdContext.getEventContext
              { fd_ctx with events := fd_ctx.events ||| event } event with
          | none => rw [hctx] at h; exact absurd h (by simp)
          | some event_ctx =>
            rw [hctx] at h
            simp only at h
            have hev := getEventContext_isSome _ _ _ hctx
            have key : ∀ (x : EventContext), (x.cb.isSome ∨ x.fiber.isSome) →
                IOManager.slotsInv
                  { m_fdContexts := tbl.set fd.toNat
                      (FdContext.setEventContext { fd_ctx with events := fd_ctx.events ||| event }
                        event x)
                    m_pendingEventCount := incCount s.m_pendingEventCount
                    scheduled := s.scheduled } := by
              intro x hx
              exact slotsInv_set tbl _ _ htbl
                (inv_add fd_ctx event hev hc (by simpa using hreg) x hx)
            split at h
            · exact absurd h (by simp)
            · split at h
              · rename_i hcb
                simp only [Option.some.injEq, Prod.mk.injEq] at h
                rw [← h.2]; exact key _ (Or.inl hcb)
              · split at h
                · simp only [Option.some.injEq, Prod.mk.injEq] at h
                  rw [← h.2]; exact key _ (Or.inr rfl)
                · exact absurd h (by simp)

theorem delEvent_slotsInv (s : IOManager) (hinv : s.slotsInv) (fd : Int) (event : Nat)
    (rt : Int) (r : Bool) (s1 : IOManager)
    (h : s.delEvent fd event rt = some (r, s1)) : s1.slotsInv := by
  unfold IOManager.delEvent at h
  split at h
  · simp only [Option.some.injEq, Prod.mk.injEq] at h; rw [← h.2]; exact hinv
  · split at h
    · exact absurd h (by simp)
    · cases hget : s.m_fdContexts.get? fd.toNat with
      | none => rw [hget] at h; exact absurd h (by simp)
      | some fd_ctx =>
        rw [hget] at h
        simp only at h
        by_cases hreg : fd_ctx.events &&& event = 0
        · rw [if_pos hreg] at h
          simp only [Option.some.injEq, Prod.mk.injEq] at h; rw [← h.2]; exact hinv
        · rw [if_neg hreg] at h
          by_cases hrt : rt ≠ 0
          · rw [if_pos hrt] at h
            simp only [Option.some.injEq, Prod.mk.injEq] at h; rw [← h.2]; exact hinv
          · rw [if_neg hrt] at h
            cases hctx : FdContext.getEventContext
                { fd_ctx with events := fd_ctx.events &&& bitNot32 event } event with
            | none => rw [hctx] at h; exact absurd h (by simp)
            | some event_ctx =>
              rw [hctx] at h
              simp only [Option.some.injEq, Prod.mk.injEq] at h
              rw [← h.2]
              have hev := getEventContext_isSome _ _ _ hctx
              exact slotsInv_set _ _ _ hinv
                (inv_clear fd_ctx event hev (inv_of_get _ _ _ hinv hget) event_ctx)

theorem cancelEvent_slotsInv (s : IOManager) (hinv : s.slotsInv) (fd : Int) (event : Nat)
    (rt : Int) (r : Bool) (s1 : IOManager)
    (h : s.cancelEvent fd event rt = some (r, s1)) : s1.slotsInv := by
  unfold IOManager.cancelEvent at h
  split at h
  · simp only [Option.some.injEq, Prod.mk.injEq] at h; rw [← h.2]; exact hinv
  · split at h
    · exact absurd h (by simp)
    · cases hget : s.m_fdContexts.get? fd.toNat with
      | none => rw [hget] at h; exact absurd h (by simp)
      | some fd_ctx =>
        rw [hget] at h
        simp only at h
        split at h
        · simp only [Option.some.injEq, Prod.mk.injEq] at h; rw [← h.2]; exact hinv
        · split at h
          · simp only [Option.some.injEq, Prod.mk.injEq] at h; rw [← h.2]; exact hinv
          · cases ht : fd_ctx.triggerEvent event with
            | none => rw [ht] at h; exact absurd h (by simp)
            | some p =>
              obtain ⟨c1, call⟩ := p
              rw [ht] at h
              simp only [Option.some.injEq, Prod.mk.injEq] at h
              rw [← h.2]
              exact slotsInv_set _ _ _ hinv
                (triggerEvent_inv _ _ _ _ (inv_of_get _ _ _ hinv hget) ht)

theorem cancelAll_slotsInv (s : IOManager) (hinv : s.slotsInv) (fd : Int) (rt : Int)
    (r : Bool) (s1 : IOManager) (h : s.cancelAll fd rt = some (r, s1)) : s1.slotsInv := by
  unfold IOManager.cancelAll at h
  split at h
  · simp only [Option.some.injEq, Prod.mk.injEq] at h; rw [← h.2]; exact hinv
  · split at h
    · exact absurd h (by simp)
    · cases hget : s.m_fdContexts.get? fd.toNat with
      | none => rw [hget] at h; exact absurd h (by simp)
      | some fd_ctx =>
        rw [hget] at h
        simp only at h
        split at h
        · simp only [Option.some.injEq, Prod.mk.injEq] at h; rw [← h.2]; exact hinv
        · split at h
          · simp only [Option.some.injEq, Prod.mk.injEq] at h; rw [← h.2]; exact hinv
          · cases h1 : fireIf fd_ctx.events READ (fd_ctx, s.m_pendingEventCount, s.scheduled) with
            | none => rw [h1] at h; exact absurd h (by simp)
            | some st1 =>
              rw [h1] at h
              simp only at h
              cases h2 : fireIf st1.1.events WRITE st1 with
              | none => rw [h2] at h; exact absurd h (by simp)
              | some st2 =>
                rw [h2] at h
                simp only at h
                split at h
                · exact absurd h (by simp)
                · simp only [Option.some.injEq, Prod.mk.injEq] at h
                  rw [← h.2]
                  exact slotsInv_set _ _ _ hinv
                    (fireIf_inv _ _ _ _
                      (fireIf_inv _ _ _ _ (inv_of_get _ _ _ hinv hget) h1) h2)

theorem idleEvent_slotsInv (s : IOManager) (hinv : s.slotsInv) (data : EpollData)
    (revents : Nat) (rt2 : Int) (s1 : IOManager)
    (h : s.idleEvent data revents rt2 = some s1) : s1.slotsInv := by
  unfold IOManager.idleEvent at h
  cases data with
  | tickle => simp only [Option.some.injEq] at h; rw [← h]; exact hinv
  | ptr i =>
    simp only at h
    cases hget : s.m_fdContexts.get? i with
    | none => rw [hget] at h; exact absurd h (by simp)
    | some fd_ctx =>
      rw [hget] at h
      simp only at h
      generalize realEvents revents fd_ctx.events = re at h
      split at h
      · simp only [Option.some.injEq] at h; rw [← h]; exact hinv
      · split at h
        · simp only [Option.some.injEq] at h; rw [← h]; exact hinv
        · cases h1 : fireIf re READ (fd_ctx, s.m_pendingEventCount, s.scheduled) with
          | none => rw [h1] at h; exact absurd h (by simp)
          | some st1 =>
            rw [h1] at h
            simp only at h
            cases h2 : fireIf re WRITE st1 with
            | none => rw [h2] at h; exact absurd h (by simp)
            | some st2 =>
              rw [h2] at h
              simp only [Option.some.injEq] at h
              rw [← h]
              exact slotsInv_set _ _ _ hinv
                (fireIf_inv _ _ _ _
                  (fireIf_inv _ _ _ _ (inv_of_get _ _ _ hinv hget) h1) h2)

/-! ### The comparator is a strict total order -/

theorem Comparator_iff (h : Nat → Timer) (a b : Nat) :
    Comparator h (some a) (some b) = true ↔ timerLt h a b := by
  unfold Comparator timerLt
  simp only
  by_cases h1 : (h a).m_next < (h b).m_next
  · rw [if_pos h1]
    exact ⟨fun _ => Or.inl h1, fun _ => rfl⟩
  · rw [if_neg h1]
    by_cases h2 : (h a).m_next > (h b).m_next
    · rw [if_pos h2]
      constructor
      · intro hc; exact absurd hc (by simp)
      · rintro (hc | ⟨hc, -⟩) <;> omega
    · rw [if_neg h2, decide_eq_true_eq]
      constructor
      · intro hc; exact Or.inr ⟨by omega, hc⟩
      · rintro (hc | ⟨-, hc⟩)
        · exact absurd hc h1
        · exact hc

theorem timerLt_irrefl (h : Nat → Timer) (a : Nat) : ¬ timerLt h a a := by
  unfold timerLt; omega

theorem timerLt_trans (h : Nat → Timer) (a b c : Nat) (h1 : timerLt h a b) (h2 : timerLt h b c) :
    timerLt h a c := by
  unfold timerLt at *; omega

theorem timerLt_asymm (h : Nat → Timer) (a b : Nat) (h1 : timerLt h a b) : ¬ timerLt h b a := by
  unfold timerLt at *; omega

theorem timerLt_total (h : Nat → Timer) (a b : Nat) (h1 : ¬ timerLt h a b) (h2 : ¬ timerLt h b a) :
    a = b := by
  unfold timerLt at *; omega

theorem timerLt_congr (h1 h2 : Nat → Timer) (a b : Nat) (ha : (h2 a).m_next = (h1 a).m_next)
    (hb : (h2 b).m_next = (h1 b).m_next) : timerLt h2 a b ↔ timerLt h1 a b := by
  unfold timerLt; rw [ha, hb]

theorem store_same (h : Nat → Timer) (t : Nat) (v : Timer) : store h t v t = v := by
  unfold store; simp

theorem store_other (h : Nat → Timer) (t a : Nat) (v : Timer) (hne : a ≠ t) :
    store h t v a = h a := by
  unfold store; simp [hne]

theorem SetSorted.nodup {h : Nat → Timer} {l : List Nat} (hs : SetSorted h l) : l.Nodup := by
  unfold SetSorted at hs
  exact List.Pairwise.imp
    (fun {a b} (hab : timerLt h a b) (heq : a = b) => timerLt_irrefl h b (heq ▸ hab)) hs

theorem SetSorted.congr {h1 h2 : Nat → Timer} {l : List Nat} (hs : SetSorted h1 l)
    (heq : ∀ x ∈ l, (h2 x).m_next = (h1 x).m_next) : SetSorted h2 l := by
  unfold SetSorted at *
  induction l with
  | nil => exact List.Pairwise.nil
  | cons x xs ih =>
    rw [List.pairwise_cons] at hs ⊢
    refine ⟨fun b hb => ?_, ih hs.2 (fun y hy => heq y (List.mem_cons_of_mem _ hy))⟩
    exact (timerLt_congr h1 h2 x b (heq x (List.mem_cons_self _ _))
      (heq b (List.mem_cons_of_mem _ hb))).2 (hs.1 b hb)

theorem SetSorted.store {h : Nat → Timer} {l : List Nat} (hs : SetSorted h l) (t : Nat) (v : Timer)
    (ht : t ∉ l) : SetSorted (store h t v) l := by
  apply hs.congr
  intro x hx
  rw [store_other]
  rintro rfl
  exact ht hx

theorem SetSorted.sublist {h : Nat → Timer} {l1 l2 : List Nat} (hs : SetSorted h l2)
    (hsub : l1.Sublist l2) : SetSorted h l1 :=
  List.Pairwise.sublist hsub hs

/-! ### `std::set` operations on a sorted list -/

theorem mem_setInsert (h : Nat → Timer) (v x : Nat) (l : List Nat) :
    x ∈ setInsert h v l ↔ x = v ∨ x ∈ l := by
  induction l with
  | nil => simp [setInsert]
  | cons y ys ih =>
    unfold setInsert
    by_cases h1 : Comparator h (some y) (some v) = true
    · rw [if_pos h1, List.mem_cons, ih, List.mem_cons]
      tauto
    · rw [if_neg h1]
      by_cases h2 : Comparator h (some v) (some y) = true
      · rw [if_pos h2]; simp only [List.mem_cons]
      · rw [if_neg h2]
        have : y = v := timerLt_total h y v (fun hc => h1 ((Comparator_iff h y v).2 hc))
          (fun hc => h2 ((Comparator_iff h v y).2 hc))
        subst this
        simp only [List.mem_cons]
        tauto

theorem sorted_setInsert (h : Nat → Timer) (v : Nat) (l : List Nat) (hs : SetSorted h l) :
    SetSorted h (setInsert h v l) := by
  induction l with
  | nil => simp [setInsert, SetSorted]
  | cons y ys ih =>
    unfold SetSorted at hs
    rw [List.pairwise_cons] at hs
    unfold setInsert
    by_cases h1 : Comparator h (some y) (some v) = true
    · rw [if_pos h1]
      unfold SetSorted
      rw [List.pairwise_cons]
      refine ⟨fun b hb => ?_, ih hs.2⟩
      rcases (mem_setInsert h v b ys).1 hb with rfl | hb
      · exact (Comparator_iff h y b).1 h1
      · exact hs.1 b hb
    · rw [if_neg h1]
      by_cases h2 : Comparator h (some v) (some y) = true
      · rw [if_pos h2]
        have hvy := (Comparator_iff h v y).1 h2
        unfold SetSorted
        rw [List.pairwise_cons, List.pairwise_cons]
        refine ⟨fun b hb => ?_, hs⟩
        rcases List.mem_cons.1 hb with rfl | hb
        · exact hvy
        · exact timerLt_trans h v y b hvy (hs.1 b hb)
      · rw [if_neg h2]
        unfold SetSorted
        rw [List.pairwise_cons]
        exact hs

theorem lowerBound_of_mem (h : Nat → Timer) (v : Nat) (l : List Nat) (hs : SetSorted h l)
    (hv : v ∈ l) :
    l.get? (lowerBound h v l) = some v ∧ l.eraseIdx (lowerBound h v l) = l.erase v := by
  induction l with
  | nil => simp at hv
  | cons y ys ih =>
    unfold SetSorted at hs
    rw [List.pairwise_cons] at hs
    unfold lowerBound
    by_cases hy : y = v
    · subst hy
      have : ¬ (Comparator h (some y) (some y) = true) :=
        fun hc => timerLt_irrefl h y ((Comparator_iff h y y).1 hc)
      rw [if_neg this]
      simp
    · have hv2 : v ∈ ys := by
        rcases List.mem_cons.1 hv with rfl | hv2
        · exact absurd rfl hy
        · exact hv2
      have : Comparator h (some y) (some v) = true := (Comparator_iff h y v).2 (hs.1 v hv2)
      rw [if_pos this]
      have ih2 := ih hs.2 hv2
      refine ⟨by simpa using ih2.1, ?_⟩
      rw [List.eraseIdx_cons_succ, ih2.2, List.erase_cons_tail]
      simpa using hy

theorem setFind_of_mem (h : Nat → Timer) (v : Nat) (l : List Nat) (hs : SetSorted h l)
    (hv : v ∈ l) :
    ∃ it, setFind h v l = some it ∧ l.eraseIdx it = l.erase v := by
  have hl := lowerBound_of_mem h v l hs hv
  refine ⟨lowerBound h v l, ?_, hl.2⟩
  unfold setFind
  rw [hl.1]
  have : ¬ (Comparator h (some v) (some v) = true) :=
    fun hc => timerLt_irrefl h v ((Comparator_iff h v v).1 hc)
  simp only
  rw [if_neg this]

theorem setFind_of_not_mem (h : Nat → Timer) (v : Nat) (l : List Nat) (hv : v ∉ l) :
    setFind h v l = none := by
  unfold setFind
  have key : ∀ x, l.get? (lowerBound h v l) = some x → Comparator h (some v) (some x) = true := by
    induction l with
    | nil => intro x hx; simp [lowerBound] at hx
    | cons y ys ih =>
      intro x hx
      unfold lowerBound at hx
      by_cases h1 : Comparator h (some y) (some v) = true
      · rw [if_pos h1] at hx
        simp only [List.get?_cons_succ] at hx
        exact ih (fun hc => hv (List.mem_cons_of_mem _ hc)) x hx
      · rw [if_neg h1] at hx
        simp only [List.get?_cons_zero, Option.some.injEq] at hx
        subst hx
        by_contra h2
        have : y = v := timerLt_total h y v (fun hc => h1 ((Comparator_iff h y v).2 hc))
          (fun hc => h2 ((Comparator_iff h v y).2 hc))
        exact hv (this ▸ List.mem_cons_self _ _)
  cases hg : l.get? (lowerBound h v l) with
  | none => rfl
  | some x => simp only; rw [if_pos (key x hg)]

/-! ### The range of expired timers -/

theorem lowerBound_take (h : Nat → Timer) (v : Nat) (l : List Nat) :
    ∀ x ∈ l.take (lowerBound h v l), timerLt h x v := by
  induction l with
  | nil => intro x hx; simp at hx
  | cons y ys ih =>
    intro x hx
    unfold lowerBound at hx
    by_cases h1 : Comparator h (some y) (some v) = true
    · rw [if_pos h1, List.take_succ_cons] at hx
      rcases List.mem_cons.1 hx with rfl | hx
      · exact (Comparator_iff h x v).1 h1
      · exact ih x hx
    · rw [if_neg h1] at hx
      simp at hx

theorem lowerBound_drop (h : Nat → Timer) (v : Nat) (l : List Nat) (hs : SetSorted h l) :
    ∀ x ∈ l.drop (lowerBound h v l), ¬ timerLt h x v := by
  induction l with
  | nil => intro x hx; simp at hx
  | cons y ys ih =>
    unfold SetSorted at hs
    rw [List.pairwise_cons] at hs
    intro x hx
    unfold lowerBound at hx
    by_cases h1 : Comparator h (some y) (some v) = true
    · rw [if_pos h1, List.drop_succ_cons] at hx
      exact ih hs.2 x hx
    · rw [if_neg h1, List.drop_zero] at hx
      have hyv : ¬ timerLt h y v := fun hc => h1 ((Comparator_iff h y v).2 hc)
      rcases List.mem_cons.1 hx with rfl | hx
      · exact hyv
      · exact fun hc => hyv (timerLt_trans h y x v (hs.1 x hx) hc)

theorem take_drop_takeWhile {α : Type} (p : α → Bool) (d : List α) :
    d.take (d.takeWhile p).length = d.takeWhile p ∧
      d.drop (d.takeWhile p).length = d.dropWhile p := by
  induction d with
  | nil => simp
  | cons y ys ih =>
    by_cases hy : p y = true
    · simp [List.takeWhile_cons, List.dropWhile_cons, hy, ih.1, ih.2]
    · simp [List.takeWhile_cons, List.dropWhile_cons, hy]

theorem dropWhile_gt (h : Nat → Timer) (now : Nat) (d : List Nat) (hs : SetSorted h d)
    (hge : ∀ x ∈ d, now ≤ (h x).m_next) :
    ∀ x ∈ d.dropWhile (fun t => (h t).m_next == now), now < (h x).m_next := by
  induction d with
  | nil => intro x hx; simp at hx
  | cons y ys ih =>
    unfold SetSorted at hs
    rw [List.pairwise_cons] at hs
    intro x hx
    rw [List.dropWhile_cons] at hx
    by_cases hy : ((h y).m_next == now) = true
    · rw [if_pos hy] at hx
      exact ih hs.2 (fun z hz => hge z (List.mem_cons_of_mem _ hz)) x hx
    · rw [if_neg hy] at hx
      have h1 : now ≤ (h y).m_next := hge y (List.mem_cons_self _ _)
      have h2 : (h y).m_next ≠ now := by simpa using hy
      rcases List.mem_cons.1 hx with rfl | hx
      · omega
      · have := hs.1 x hx
        unfold timerLt at this
        omega

theorem skipEqual_take_drop (h : Nat → Timer) (now : Nat) (l : List Nat) (a : Nat) :
    l.take (skipEqual h now l a) =
        l.take a ++ (l.drop a).takeWhile (fun t => (h t).m_next == now) ∧
      l.drop (skipEqual h now l a) = (l.drop a).dropWhile (fun t => (h t).m_next == now) := by
  unfold skipEqual
  have := take_drop_takeWhile (fun t => (h t).m_next == now) (l.drop a)
  constructor
  · rw [List.take_add, this.1]
  · rw [← List.drop_drop, this.2]

theorem expiredEnd_spec (h : Nat → Timer) (now nowAddr : Nat) (l : List Nat)
    (hs : SetSorted h l) (hfresh : nowAddr ∉ l) (rollover : Bool) :
    (∀ x ∈ l.take (expiredEnd h rollover now nowAddr l), rollover = true ∨ (h x).m_next ≤ now) ∧
    (∀ x ∈ l.drop (expiredEnd h rollover now nowAddr l), rollover = false ∧ now < (h x).m_next) := by
  unfold expiredEnd
  cases rollover with
  | true =>
    simp only [if_true]
    have hsk := skipEqual_take_drop h now l l.length
    rw [hsk.2, List.drop_length]
    exact ⟨fun x _ => Or.inl trivial, fun x hx => by simp at hx⟩
  | false =>
    simp only [Bool.false_eq_true, if_false]
    generalize hh : store h nowAddr { Timer.blank with m_next := now } = h1
    have hsame : ∀ x ∈ l, (h1 x).m_next = (h x).m_next := by
      intro x hx
      rw [← hh, store_other]
      rintro rfl
      exact hfresh hx
    have hnow : (h1 nowAddr).m_next = now := by rw [← hh, store_same]
    have hs1 : SetSorted h1 l := hs.congr hsame
    have hsk := skipEqual_take_drop h now l (lowerBound h1 nowAddr l)
    rw [hsk.1, hsk.2]
    constructor
    · intro x hx
      right
      rcases List.mem_append.1 hx with hx | hx
      · have hlt := lowerBound_take h1 nowAddr l x hx
        have hxl : x ∈ l := List.mem_of_mem_take hx
        unfold timerLt at hlt
        rw [hsame x hxl, hnow] at hlt
        omega
      · have := (List.mem_takeWhile_imp hx)
        simp only [beq_iff_eq] at this
        omega
    · intro x hx
      refine ⟨trivial, ?_⟩
      have hsd : SetSorted h (l.drop (lowerBound h1 nowAddr l)) := hs.sublist (List.drop_sublist _ _)
      apply dropWhile_gt h now _ hsd _ x hx
      intro z hz
      have hzl : z ∈ l := List.mem_of_mem_drop hz
      have hnlt := lowerBound_drop h1 nowAddr l hs1 z hz
      unfold timerLt at hnlt
      rw [hsame z hzl, hnow] at hnlt
      omega

theorem take_eq_filter {α : Type} (p : α → Bool) (l : List α) (k : Nat)
    (h1 : ∀ x ∈ l.take k, p x = true) (h2 : ∀ x ∈ l.drop k, p x = false) :
    l.take k = l.filter p ∧ l.drop k = l.filter (fun x => !p x) := by
  have hl : l = l.take k ++ l.drop k := (List.take_append_drop k l).symm
  constructor
  · conv_rhs => rw [hl]
    rw [List.filter_append, List.filter_eq_self.2 h1, List.filter_eq_nil_iff.2, List.append_nil]
    intro x hx
    simp [h2 x hx]
  · conv_rhs => rw [hl]
    have e1 : (l.take k).filter (fun x => !p x) = [] :=
      List.filter_eq_nil_iff.2 (fun x hx => by simp [h1 x hx])
    have e2 : (l.drop k).filter (fun x => !p x) = l.drop k :=
      List.filter_eq_self.2 (fun x hx => by simp [h2 x hx])
    rw [List.filter_append, e1, e2, List.nil_append]

/-! ### The loop over the expired timers -/

theorem expireOne_fold (now : Nat) (E : List Nat) :
    ∀ (h : Nat → Timer) (rest : List Nat) (cbs : List (Option Nat)),
      E.Nodup → (∀ e ∈ E, e ∉ rest) → SetSorted h rest →
      (E.foldl (expireOne now) (h, rest, cbs)).2.2 = cbs ++ E.map (fun t => (h t).m_cb) ∧
      (∀ t, t ∉ E → (E.foldl (expireOne now) (h, rest, cbs)).1 t = h t) ∧
      (∀ t ∈ E, (E.foldl (expireOne now) (h, rest, cbs)).1 t = firedTimer now (h t)) ∧
      (∀ x, x ∈ (E.foldl (expireOne now) (h, rest, cbs)).2.1 ↔
        x ∈ rest ∨ (x ∈ E ∧ (h x).m_recurring = true)) ∧
      SetSorted (E.foldl (expireOne now) (h, rest, cbs)).1
        (E.foldl (expireOne now) (h, rest, cbs)).2.1 := by
  induction E with
  | nil =>
    intro h rest cbs _ _ hs
    simp only [List.foldl_nil, List.map_nil, List.append_nil, List.not_mem_nil, false_and,
      or_false, implies_true, true_and, false_implies]
    exact hs
  | cons e es ih =>
    intro h rest cbs hnd hdisj hs
    rw [List.nodup_cons] at hnd
    have he : e ∉ rest := hdisj e (List.mem_cons_self _ _)
    rw [List.foldl_cons]
    by_cases hr : (h e).m_recurring = true
    · have hstep : expireOne now (h, rest, cbs) e =
          (store h e { h e with m_next := add64 now (h e).m_ms },
            setInsert (store h e { h e with m_next := add64 now (h e).m_ms }) e rest,
            cbs ++ [(h e).m_cb]) := by
        unfold expireOne
        simp only [hr, if_true]
      rw [hstep]
      generalize hh1 : store h e { h e with m_next := add64 now (h e).m_ms } = h1
      have hs1 : SetSorted h1 (setInsert h1 e rest) := by
        apply sorted_setInsert
        rw [← hh1]
        exact hs.store e _ he
      have hd1 : ∀ x ∈ es, x ∉ setInsert h1 e rest := by
        intro x hx hc
        rcases (mem_setInsert h1 e x rest).1 hc with rfl | hc
        · exact hnd.1 hx
        · exact hdisj x (List.mem_cons_of_mem _ hx) hc
      have hsame : ∀ t, t ≠ e → h1 t = h t := fun t ht => by rw [← hh1, store_other _ _ _ _ ht]
      have hat : h1 e = firedTimer now (h e) := by
        rw [← hh1, store_same]; unfold firedTimer; rw [if_pos hr]
      obtain ⟨a1, a2, a3, a4, a5⟩ := ih h1 (setInsert h1 e rest) (cbs ++ [(h e).m_cb]) hnd.2 hd1 hs1
      refine ⟨?_, ?_, ?_, ?_, a5⟩
      · rw [a1, List.map_cons, List.append_assoc, List.singleton_append]
        congr 2
        apply List.map_congr_left
        intro t ht
        rw [hsame t (fun hc => hnd.1 (hc ▸ ht))]
      · intro t ht
        rw [List.mem_cons, not_or] at ht
        rw [a2 t ht.2, hsame t ht.1]
      · intro t ht
        rcases List.mem_cons.1 ht with rfl | ht
        · rw [a2 t hnd.1, hat]
        · rw [a3 t ht, hsame t (fun hc => hnd.1 (hc ▸ ht))]
      · intro x
        rw [a4 x, mem_setInsert, List.mem_cons]
        constructor
        · rintro ((rfl | hx) | ⟨hx, hrx⟩)
          · exact Or.inr ⟨Or.inl rfl, hr⟩
          · exact Or.inl hx
          · exact Or.inr ⟨Or.inr hx, by rw [← hsame x (fun hc => hnd.1 (hc ▸ hx))]; exact hrx⟩
        · rintro (hx | ⟨rfl | hx, hrx⟩)
          · exact Or.inl (Or.inr hx)
          · exact Or.inl (Or.inl rfl)
          · exact Or.inr ⟨hx, by rw [hsame x (fun hc => hnd.1 (hc ▸ hx))]; exact hrx⟩
    · have hstep : expireOne now (h, rest, cbs) e =
          (store h e { h e with m_cb := none }, rest, cbs ++ [(h e).m_cb]) := by
        unfold expireOne
        simp only [hr, if_false]
        simp
      rw [hstep]
      generalize hh1 : store h e { h e with m_cb := none } = h1
      have hs1 : SetSorted h1 rest := by rw [← hh1]; exact hs.store e _ he
      have hd1 : ∀ x ∈ es, x ∉ rest := fun x hx => hdisj x (List.mem_cons_of_mem _ hx)
      have hsame : ∀ t, t ≠ e → h1 t = h t := fun t ht => by rw [← hh1, store_other _ _ _ _ ht]
      have hat : h1 e = firedTimer now (h e) := by
        rw [← hh1, store_same]; unfold firedTimer; rw [if_neg hr]
      obtain ⟨a1, a2, a3, a4, a5⟩ := ih h1 rest (cbs ++ [(h e).m_cb]) hnd.2 hd1 hs1
      refine ⟨?_, ?_, ?_, ?_, a5⟩
      · rw [a1, List.map_cons, List.append_assoc, List.singleton_append]
        congr 2
        apply List.map_congr_left
        intro t ht
        rw [hsame t (fun hc => hnd.1 (hc ▸ ht))]
      · intro t ht
        rw [List.mem_cons, not_or] at ht
        rw [a2 t ht.2, hsame t ht.1]
      · intro t ht
        rcases List.mem_cons.1 ht with rfl | ht
        · rw [a2 t hnd.1, hat]
        · rw [a3 t ht, hsame t (fun hc => hnd.1 (hc ▸ ht))]
      · intro x
        rw [a4 x, List.mem_cons]
        constructor
        · rintro (hx | ⟨hx, hrx⟩)
          · exact Or.inl hx
          · exact Or.inr ⟨Or.inr hx, by rw [← hsame x (fun hc => hnd.1 (hc ▸ hx))]; exact hrx⟩
        · rintro (hx | ⟨rfl | hx, hrx⟩)
          · exact Or.inl hx
          · exact absurd hrx hr
          · exact Or.inr ⟨hx, by rw [hsame x (fun hc => hnd.1 (hc ▸ hx))]; exact hrx⟩

theorem listExpiredCb_spec (tm : TimerManager) (now nowAddr : Nat) (cbs : List (Option Nat))
    (hs : SetSorted tm.heap tm.m_timers) (hfresh : nowAddr ∉ tm.m_timers) :
    (tm.listExpiredCb now nowAddr cbs).1 = tm.m_timers.filter (expiredNow tm now) ∧
    (tm.listExpiredCb now nowAddr cbs).2.1 =
      cbs ++ (tm.listExpiredCb now nowAddr cbs).1.map (fun t => (tm.heap t).m_cb) ∧
    (∀ t, t ∉ (tm.listExpiredCb now nowAddr cbs).1 →
      (tm.listExpiredCb now nowAddr cbs).2.2.heap t = tm.heap t) ∧
    (∀ t ∈ (tm.listExpiredCb now nowAddr cbs).1,
      (tm.listExpiredCb now nowAddr cbs).2.2.heap t = firedTimer now (tm.heap t)) ∧
    (∀ x, x ∈ (tm.listExpiredCb now nowAddr cbs).2.2.m_timers ↔
      (x ∈ tm.m_timers ∧ (expiredNow tm now x = false ∨ (tm.heap x).m_recurring = true))) ∧
    SetSorted (tm.listExpiredCb now nowAddr cbs).2.2.heap
      (tm.listExpiredCb now nowAddr cbs).2.2.m_timers ∧
    (tm.listExpiredCb now nowAddr cbs).2.2.live = tm.live := by
  obtain ⟨heap, timers, tickled, prev, live, fc⟩ := tm
  simp only at hs hfresh
  unfold TimerManager.listExpiredCb
  cases timers with
  | nil =>
    simp only [List.filter_nil, List.map_nil, List.append_nil, List.not_mem_nil, false_and,
      not_false_eq_true, implies_true, true_and, false_implies, iff_self]
    exact ⟨hs, trivial⟩
  | cons first rest =>
    simp only [TimerManager.detectClockRollover]
    by_cases hearly : (!rolloverTest prev now && decide ((heap first).m_next > now)) = true
    · rw [if_pos hearly]
      simp only [Bool.and_eq_true, Bool.not_eq_true', decide_eq_true_eq] at hearly
      have hnone : ∀ x ∈ first :: rest,
          expiredNow ⟨heap, first :: rest, tickled, prev, live, fc⟩ now x = false := by
        intro x hx
        unfold expiredNow
        simp only
        rw [hearly.1, Bool.false_or, decide_eq_false_iff_not]
        rcases List.mem_cons.1 hx with rfl | hx
        · omega
        · unfold SetSorted at hs
          have := (List.pairwise_cons.1 hs).1 x hx
          unfold timerLt at this
          omega
      have hf : (first :: rest).filter
          (expiredNow ⟨heap, first :: rest, tickled, prev, live, fc⟩ now) = [] :=
        List.filter_eq_nil_iff.2 (fun x hx => by simp [hnone x hx])
      rw [hf]
      simp only [List.map_nil, List.append_nil, List.not_mem_nil, not_false_eq_true,
        implies_true, true_and, false_implies]
      exact ⟨fun x => ⟨fun hx => ⟨hx, Or.inl (hnone x hx)⟩, fun hx => hx.1⟩, hs, trivial⟩
    · rw [if_neg hearly]
      simp only
      generalize hit : expiredEnd heap (rolloverTest prev now) now nowAddr (first :: rest) = it
      have hsp := expiredEnd_spec heap now nowAddr (first :: rest) hs hfresh
        (rolloverTest prev now)
      rw [hit] at hsp
      have htd := take_eq_filter
        (expiredNow ⟨heap, first :: rest, tickled, prev, live, fc⟩ now) (first :: rest) it
        (fun x hx => by
          unfold expiredNow
          simp only
          rcases hsp.1 x hx with h1 | h1
          · rw [h1, Bool.true_or]
          · rw [Bool.or_eq_true, decide_eq_true_eq]; exact Or.inr h1)
        (fun x hx => by
          unfold expiredNow
          simp only
          have := hsp.2 x hx
          rw [this.1, Bool.false_or, decide_eq_false_iff_not]
          omega)
      have hnd : (first :: rest).Nodup := hs.nodup
      have hndt : ((first :: rest).take it).Nodup := hnd.sublist (List.take_sublist _ _)
      have hdisj : ∀ e ∈ (first :: rest).take it, e ∉ (first :: rest).drop it := by
        intro e he hd
        rw [htd.1] at he
        rw [htd.2] at hd
        have h1 := (List.mem_filter.1 he).2
        have h2 := (List.mem_filter.1 hd).2
        rw [h1] at h2
        simp at h2
      have hsd : SetSorted heap ((first :: rest).drop it) := hs.sublist (List.drop_sublist _ _)
      obtain ⟨a1, a2, a3, a4, a5⟩ := expireOne_fold now ((first :: rest).take it) heap
        ((first :: rest).drop it) cbs hndt hdisj hsd
      refine ⟨htd.1, a1, a2, a3, ?_, a5, trivial⟩
      intro x
      rw [a4 x, htd.1, htd.2, List.mem_filter, List.mem_filter]
      constructor
      · rintro (⟨hx, hp⟩ | ⟨⟨hx, -⟩, hr⟩)
        · exact ⟨hx, Or.inl (by simpa using hp)⟩
        · exact ⟨hx, Or.inr hr⟩
      · rintro ⟨hx, hp | hr⟩
        · exact Or.inl ⟨hx, by simp [hp]⟩
        · by_cases hp : expiredNow ⟨heap, first :: rest, tickled, prev, live, fc⟩ now x = true
          · exact Or.inr ⟨⟨hx, hp⟩, hr⟩
          · exact Or.inl ⟨hx, by simpa using hp⟩

/-! ### Every call preserves the manager invariant -/

theorem wf_init (now : Nat) : (TimerManager.init now).wf := by
  unfold TimerManager.wf TimerManager.init SetSorted
  simp [Timer.blank]

theorem addTimerPtr_fields (tm : TimerManager) (v : Nat) :
    (tm.addTimerPtr v).heap = tm.heap ∧ (tm.addTimerPtr v).live = tm.live ∧
      (tm.addTimerPtr v).m_timers = setInsert tm.heap v tm.m_timers := by
  unfold TimerManager.addTimerPtr
  exact ⟨rfl, rfl, rfl⟩

theorem addTimer_spec (tm : TimerManager) (now addr ms : Nat) (cb : Option Nat) (recurring : Bool)
    (r : Nat × TimerManager) (h : tm.addTimer now addr ms cb recurring = some r) :
    r.1 = addr ∧ addr ∉ tm.live ∧ r.2.live = addr :: tm.live ∧
    r.2.heap = store tm.heap addr
      { m_recurring := recurring, m_ms := ms, m_cb := cb, m_next := add64 now ms } ∧
    r.2.m_timers = setInsert r.2.heap addr tm.m_timers := by
  unfold TimerManager.addTimer at h
  by_cases hl : addr ∈ tm.live
  · rw [if_pos hl] at h; exact absurd h (by simp)
  · rw [if_neg hl] at h
    simp only [Option.some.injEq] at h
    subst h
    exact ⟨rfl, hl, rfl, rfl, rfl⟩

theorem wf_addTimer (tm : TimerManager) (hwf : tm.wf) (now addr ms : Nat) (cb : Option Nat)
    (recurring : Bool) (r : Nat × TimerManager)
    (h : tm.addTimer now addr ms cb recurring = some r) : r.2.wf := by
  obtain ⟨-, hfresh, hlive, hheap, hset⟩ := addTimer_spec tm now addr ms cb recurring r h
  obtain ⟨hs, hsub, hA⟩ := hwf
  have hnot : addr ∉ tm.m_timers := fun hc => hfresh (hsub addr hc)
  refine ⟨?_, ?_, ?_⟩
  · rw [hset]
    apply sorted_setInsert
    rw [hheap]
    exact hs.store addr _ hnot
  · intro x hx
    rw [hset, mem_setInsert] at hx
    rw [hlive]
    rcases hx with rfl | hx
    · exact List.mem_cons_self _ _
    · exact List.mem_cons_of_mem _ (hsub x hx)
  · intro x hx
    rw [hset, mem_setInsert]
    by_cases hxa : x = addr
    · exact Or.inl hxa
    · rw [hheap, store_other _ _ _ _ hxa] at hx
      exact Or.inr (hA x hx)

theorem cancel_spec (tm : TimerManager) (hwf : tm.wf) (t : Nat) :
    ((tm.heap t).m_cb.isSome = true →
      ∃ it, setFind (store tm.heap t { tm.heap t with m_cb := none }) t tm.m_timers = some it ∧
        tm.m_timers.get? it = some t ∧
        tm.cancel t = some (true, { tm with heap := store tm.heap t { tm.heap t with m_cb := none },
                                            m_timers := tm.m_timers.erase t })) ∧
    ((tm.heap t).m_cb.isSome = false → tm.cancel t = some (false, tm)) := by
  obtain ⟨hs, hsub, hA⟩ := hwf
  constructor
  · intro hcb
    have hmem : t ∈ tm.m_timers := hA t hcb
    have hs1 : SetSorted (store tm.heap t { tm.heap t with m_cb := none }) tm.m_timers := by
      apply hs.congr
      intro x _
      by_cases hx : x = t
      · subst hx; rw [store_same]
      · rw [store_other _ _ _ _ hx]
    have hlb := lowerBound_of_mem _ t tm.m_timers hs1 hmem
    obtain ⟨it, hfind, herase⟩ := setFind_of_mem _ t tm.m_timers hs1 hmem
    have hit : it = lowerBound (store tm.heap t { tm.heap t with m_cb := none }) t tm.m_timers := by
      unfold setFind at hfind
      rw [hlb.1] at hfind
      simp only at hfind
      split at hfind
      · exact absurd hfind (by simp)
      · exact (Option.some.inj hfind).symm
    refine ⟨it, hfind, by rw [hit]; exact hlb.1, ?_⟩
    unfold TimerManager.cancel
    rw [if_pos hcb]
    simp only [hfind, herase]
  · intro hcb
    unfold TimerManager.cancel
    rw [if_neg (by simp [hcb])]

theorem wf_cancel (tm : TimerManager) (hwf : tm.wf) (t : Nat) (r : Bool × TimerManager)
    (h : tm.cancel t = some r) : r.2.wf := by
  have hsp := cancel_spec tm hwf t
  obtain ⟨hs, hsub, hA⟩ := hwf
  cases hcb : (tm.heap t).m_cb.isSome with
  | false =>
    rw [hsp.2 hcb] at h
    simp only [Option.some.injEq] at h
    subst h
    exact ⟨hs, hsub, hA⟩
  | true =>
    obtain ⟨it, -, -, hc⟩ := hsp.1 hcb
    rw [hc] at h
    simp only [Option.some.injEq] at h
    subst h
    have hnd := hs.nodup
    refine ⟨?_, ?_, ?_⟩
    · apply SetSorted.congr (hs.sublist (List.erase_sublist _ _))
      intro x _
      dsimp only
      by_cases hx : x = t
      · subst hx; rw [store_same]
      · rw [store_other _ _ _ _ hx]
    · intro x hx
      exact hsub x (List.mem_of_mem_erase hx)
    · intro x hx
      simp only at hx ⊢
      by_cases hxt : x = t
      · subst hxt; rw [store_same] at hx; simp at hx
      · rw [store_other _ _ _ _ hxt] at hx
        exact (List.mem_erase_of_ne hxt).2 (hA x hx)

theorem refresh_spec (tm : TimerManager) (hwf : tm.wf) (t now : Nat) :
    ((tm.heap t).m_cb.isSome = false → tm.refresh t now = (false, tm)) ∧
    ((tm.heap t).m_cb.isSome = true →
      tm.refresh t now = (true,
        { tm with
          heap := store tm.heap t { tm.heap t with m_next := add64 now (tm.heap t).m_ms }
          m_timers := setInsert
            (store tm.heap t { tm.heap t with m_next := add64 now (tm.heap t).m_ms }) t
            (tm.m_timers.erase t) })) := by
  obtain ⟨hs, hsub, hA⟩ := hwf
  constructor
  · intro hcb
    unfold TimerManager.refresh
    rw [if_pos (by simp [hcb])]
  · intro hcb
    obtain ⟨it, hfind, herase⟩ := setFind_of_mem tm.heap t tm.m_timers hs (hA t hcb)
    unfold TimerManager.refresh
    rw [if_neg (by simp [hcb])]
    simp only [hfind, herase]

theorem reset_spec (tm : TimerManager) (hwf : tm.wf) (t ms : Nat) (from_now : Bool) (now : Nat) :
    ((ms = (tm.heap t).m_ms ∧ from_now = false) → tm.reset t ms from_now now = (true, tm)) ∧
    (¬ (ms = (tm.heap t).m_ms ∧ from_now = false) → (tm.heap t).m_cb.isSome = false →
      tm.reset t ms from_now now = (false, tm)) ∧
    (¬ (ms = (tm.heap t).m_ms ∧ from_now = false) → (tm.heap t).m_cb.isSome = true →
      tm.reset t ms from_now now = (true, TimerManager.addTimerPtr
        { tm with
          heap := store tm.heap t
            { tm.heap t with
              m_ms := ms
              m_next := add64 (if from_now then now
                else sub64 (tm.heap t).m_next (tm.heap t).m_ms) ms }
          m_timers := tm.m_timers.erase t } t)) := by
  obtain ⟨hs, hsub, hA⟩ := hwf
  refine ⟨?_, ?_, ?_⟩
  · intro h
    unfold TimerManager.reset
    rw [if_pos h]
  · intro h hcb
    unfold TimerManager.reset
    rw [if_neg h, if_pos (by simp [hcb])]
  · intro h hcb
    obtain ⟨it, hfind, herase⟩ := setFind_of_mem tm.heap t tm.m_timers hs (hA t hcb)
    unfold TimerManager.reset
    rw [if_neg h, if_neg (by simp [hcb])]
    simp only [hfind, herase]

/-- Re-inserting a timer after a change of its deadline or period keeps the
manager invariant. -/
theorem wf_reinsert (tm tm2 : TimerManager) (hwf : tm.wf) (t : Nat) (v : Timer)
    (hmem : t ∈ tm.m_timers) (hh : tm2.heap = store tm.heap t v)
    (ht : tm2.m_timers = setInsert (store tm.heap t v) t (tm.m_timers.erase t))
    (hl : tm2.live = tm.live) : tm2.wf := by
  obtain ⟨hs, hsub, hA⟩ := hwf
  have hnd := hs.nodup
  have hnot : t ∉ tm.m_timers.erase t := fun hc => ((List.Nodup.mem_erase_iff hnd).1 hc).1 rfl
  refine ⟨?_, ?_, ?_⟩
  · rw [hh, ht]
    apply sorted_setInsert
    exact (hs.sublist (List.erase_sublist _ _)).store t v hnot
  · intro x hx
    rw [ht] at hx
    rw [hl]
    rcases (mem_setInsert _ _ _ _).1 hx with rfl | hx
    · exact hsub x hmem
    · exact hsub x (List.mem_of_mem_erase hx)
  · intro x hx
    rw [hh] at hx
    rw [ht, mem_setInsert]
    by_cases hxt : x = t
    · exact Or.inl hxt
    · rw [store_other _ _ _ _ hxt] at hx
      exact Or.inr ((List.mem_erase_of_ne hxt).2 (hA x hx))

theorem wf_refresh (tm : TimerManager) (hwf : tm.wf) (t now : Nat) : (tm.refresh t now).2.wf := by
  have hsp := refresh_spec tm hwf t now
  cases hcb : (tm.heap t).m_cb.isSome with
  | false => rw [hsp.1 hcb]; exact hwf
  | true =>
    rw [hsp.2 hcb]
    exact wf_reinsert tm _ hwf t { tm.heap t with m_next := add64 now (tm.heap t).m_ms }
      (hwf.2.2 t hcb) rfl rfl rfl

theorem wf_reset (tm : TimerManager) (hwf : tm.wf) (t ms : Nat) (from_now : Bool) (now : Nat) :
    (tm.reset t ms from_now now).2.wf := by
  have hsp := reset_spec tm hwf t ms from_now now
  by_cases h : ms = (tm.heap t).m_ms ∧ from_now = false
  · rw [hsp.1 h]; exact hwf
  · cases hcb : (tm.heap t).m_cb.isSome with
    | false => rw [hsp.2.1 h hcb]; exact hwf
    | true =>
      rw [hsp.2.2 h hcb]
      exact wf_reinsert tm _ hwf t
        { tm.heap t with
          m_ms := ms
          m_next := add64 (if from_now then now
            else sub64 (tm.heap t).m_next (tm.heap t).m_ms) ms }
        (hwf.2.2 t hcb) rfl rfl rfl

theorem wf_listExpiredCb (tm : TimerManager) (hwf : tm.wf) (now nowAddr : Nat)
    (cbs : List (Option Nat)) (hfresh : nowAddr ∉ tm.live) :
    (tm.listExpiredCb now nowAddr cbs).2.2.wf := by
  obtain ⟨hs, hsub, hA⟩ := hwf
  have hf : nowAddr ∉ tm.m_timers := fun hc => hfresh (hsub _ hc)
  obtain ⟨e1, -, e3, e4, e5, e6, e7⟩ := listExpiredCb_spec tm now nowAddr cbs hs hf
  refine ⟨e6, ?_, ?_⟩
  · intro x hx
    rw [e7]
    exact hsub x ((e5 x).1 hx).1
  · intro x hx
    rw [e5]
    by_cases hxe : x ∈ (tm.listExpiredCb now nowAddr cbs).1
    · rw [e4 x hxe] at hx
      have hxm : x ∈ tm.m_timers := by
        rw [e1] at hxe
        exact (List.mem_filter.1 hxe).1
      refine ⟨hxm, Or.inr ?_⟩
      unfold firedTimer at hx
      by_cases hr : (tm.heap x).m_recurring = true
      · exact hr
      · rw [if_neg hr] at hx
        simp at hx
    · rw [e3 x hxe] at hx
      have hxm := hA x hx
      refine ⟨hxm, Or.inl ?_⟩
      rw [e1, List.mem_filter] at hxe
      by_contra hc
      exact hxe ⟨hxm, by simpa using hc⟩

theorem wf_step (tm tm1 : TimerManager) (hwf : tm.wf) (op : TimerOp)
    (h : tm.step op = some tm1) : tm1.wf := by
  cases op with
  | addTimer now addr ms cb recurring =>
    simp only [TimerManager.step, Option.map_eq_some'] at h
    obtain ⟨r, hr, rfl⟩ := h
    exact wf_addTimer tm hwf _ _ _ _ _ r hr
  | addConditionTimer now addr ms bound recurring =>
    simp only [TimerManager.step, TimerManager.addConditionTimer, Option.map_eq_some'] at h
    obtain ⟨r, hr, rfl⟩ := h
    exact wf_addTimer tm hwf _ _ _ _ _ r hr
  | cancel t =>
    simp only [TimerManager.step, Option.map_eq_some'] at h
    obtain ⟨r, hr, rfl⟩ := h
    exact wf_cancel tm hwf t r hr
  | refresh t now =>
    simp only [TimerManager.step, Option.some.injEq] at h
    rw [← h]; exact wf_refresh tm hwf t now
  | reset t ms from_now now =>
    simp only [TimerManager.step, Option.some.injEq] at h
    rw [← h]; exact wf_reset tm hwf t ms from_now now
  | listExpiredCb now nowAddr =>
    simp only [TimerManager.step] at h
    by_cases hl : nowAddr ∈ tm.live
    · rw [if_pos hl] at h; exact absurd h (by simp)
    · rw [if_neg hl] at h
      simp only [Option.some.injEq] at h
      rw [← h]; exact wf_listExpiredCb tm hwf now nowAddr [] hl

theorem wf_run (ops : List TimerOp) : ∀ (tm tm1 : TimerManager), tm.wf →
    tm.run ops = some tm1 → tm1.wf := by
  induction ops with
  | nil =>
    intro tm tm1 hwf h
    simp only [TimerManager.run, Option.some.injEq] at h
    rw [← h]; exact hwf
  | cons op ops ih =>
    intro tm tm1 hwf h
    unfold TimerManager.run at h
    cases hs : tm.step op with
    | none => rw [hs] at h; exact absurd h (by simp)
    | some tm2 =>
      rw [hs] at h
      exact ih tm2 tm1 (wf_step tm tm2 hwf op hs) h

/-! ### Following one timer through a call -/

theorem addTimer_track (tm : TimerManager) (t : Nat) (ht : t ∈ tm.live)
    (now addr ms : Nat) (cb : Option Nat) (recurring : Bool) (r : Nat × TimerManager)
    (h : tm.addTimer now addr ms cb recurring = some r) :
    t ∈ r.2.live ∧ (t ∈ r.2.m_timers ↔ t ∈ tm.m_timers) ∧ r.2.heap t = tm.heap t := by
  obtain ⟨-, hfresh, hlive, hheap, hset⟩ := addTimer_spec tm now addr ms cb recurring r h
  have hne : t ≠ addr := fun hc => hfresh (hc ▸ ht)
  refine ⟨by rw [hlive]; exact List.mem_cons_of_mem _ ht, ?_, ?_⟩
  · rw [hset, mem_setInsert]
    constructor
    · rintro (hc | hc)
      · exact absurd hc hne
      · exact hc
    · exact Or.inr
  · rw [hheap, store_other _ _ _ _ hne]

theorem step_track (tm tm1 : TimerManager) (hwf : tm.wf) (t : Nat) (ht : t ∈ tm.live)
    (op : TimerOp) (h : tm.step op = some tm1) :
    t ∈ tm1.live ∧
    (t ∈ tm1.m_timers ↔ (t ∈ tm.m_timers ∧ tm.kills op t = false)) ∧
    (tm1.heap t).m_cb.isSome = ((tm.heap t).m_cb.isSome && !tm.kills op t) := by
  have hnd := hwf.1.nodup
  cases op with
  | addTimer now addr ms cb recurring =>
    simp only [TimerManager.step, Option.map_eq_some'] at h
    obtain ⟨r, hr, rfl⟩ := h
    obtain ⟨a, b, c⟩ := addTimer_track tm t ht _ _ _ _ _ r hr
    refine ⟨a, ?_, ?_⟩
    · rw [b]; simp [TimerManager.kills]
    · rw [c]; simp [TimerManager.kills]
  | addConditionTimer now addr ms bound recurring =>
    simp only [TimerManager.step, TimerManager.addConditionTimer, Option.map_eq_some'] at h
    obtain ⟨r, hr, rfl⟩ := h
    obtain ⟨a, b, c⟩ := addTimer_track tm t ht _ _ _ _ _ r hr
    refine ⟨a, ?_, ?_⟩
    · rw [b]; simp [TimerManager.kills]
    · rw [c]; simp [TimerManager.kills]
  | cancel u =>
    simp only [TimerManager.step, Option.map_eq_some'] at h
    obtain ⟨r, hr, rfl⟩ := h
    have hsp := cancel_spec tm hwf u
    cases hcb : (tm.heap u).m_cb.isSome with
    | false =>
      rw [hsp.2 hcb] at hr
      simp only [Option.some.injEq] at hr
      subst hr
      have hk : tm.kills (TimerOp.cancel u) t = false := by
        unfold TimerManager.kills
        by_cases hut : u = t
        · subst hut; simp [hcb]
        · simp [hut]
      rw [hk]
      simp [ht]
    | true =>
      obtain ⟨it, -, -, hc⟩ := hsp.1 hcb
      rw [hc] at hr
      simp only [Option.some.injEq] at hr
      subst hr
      by_cases hut : u = t
      · subst hut
        have hk : tm.kills (TimerOp.cancel u) u = true := by
          unfold TimerManager.kills; simp [hcb]
        rw [hk]
        refine ⟨ht, ?_, ?_⟩
        · dsimp only
          constructor
          · intro hc2
            exact absurd rfl ((List.Nodup.mem_erase_iff hnd).1 hc2).1
          · intro hc2; exact absurd hc2.2 (by simp)
        · dsimp only
          rw [store_same]; simp
      · have hk : tm.kills (TimerOp.cancel u) t = false := by
          unfold TimerManager.kills; simp [hut]
        rw [hk]
        refine ⟨ht, ?_, ?_⟩
        · dsimp only
          rw [List.mem_erase_of_ne (fun hc => hut hc.symm)]
          simp
        · dsimp only
          rw [store_other _ _ _ _ (fun hc => hut hc.symm)]
          simp
  | refresh u now =>
    simp only [TimerManager.step, Option.some.injEq] at h
    subst h
    have hk : tm.kills (TimerOp.refresh u now) t = false := rfl
    rw [hk]
    have hsp := refresh_spec tm hwf u now
    cases hcb : (tm.heap u).m_cb.isSome with
    | false => rw [hsp.1 hcb]; simp [ht]
    | true =>
      rw [hsp.2 hcb]
      refine ⟨ht, ?_, ?_⟩
      · dsimp only
        rw [mem_setInsert]
        by_cases hut : t = u
        · subst hut; simp [hwf.2.2 t hcb]
        · rw [List.mem_erase_of_ne hut]; simp [hut]
      · dsimp only
        by_cases hut : t = u
        · subst hut; rw [store_same]; simp
        · rw [store_other _ _ _ _ hut]; simp
  | reset u ms from_now now =>
    simp only [TimerManager.step, Option.some.injEq] at h
    subst h
    have hk : tm.kills (TimerOp.reset u ms from_now now) t = false := rfl
    rw [hk]
    have hsp := reset_spec tm hwf u ms from_now now
    by_cases hsame : ms = (tm.heap u).m_ms ∧ from_now = false
    · rw [hsp.1 hsame]; simp [ht]
    · cases hcb : (tm.heap u).m_cb.isSome with
      | false => rw [hsp.2.1 hsame hcb]; simp [ht]
      | true =>
        rw [hsp.2.2 hsame hcb]
        unfold TimerManager.addTimerPtr
        refine ⟨ht, ?_, ?_⟩
        · dsimp only
          rw [mem_setInsert]
          by_cases hut : t = u
          · subst hut; simp [hwf.2.2 t hcb]
          · rw [List.mem_erase_of_ne hut]; simp [hut]
        · dsimp only
          by_cases hut : t = u
          · subst hut; rw [store_same]; simp
          · rw [store_other _ _ _ _ hut]; simp
  | listExpiredCb now nowAddr =>
    simp only [TimerManager.step] at h
    by_cases hl : nowAddr ∈ tm.live
    · rw [if_pos hl] at h; exact absurd h (by simp)
    · rw [if_neg hl] at h
      simp only [Option.some.injEq] at h
      subst h
      have hf : nowAddr ∉ tm.m_timers := fun hc => hl (hwf.2.1 _ hc)
      obtain ⟨e1, -, e3, e4, e5, -, e7⟩ := listExpiredCb_spec tm now nowAddr [] hwf.1 hf
      have hk : tm.kills (TimerOp.listExpiredCb now nowAddr) t =
          (decide (t ∈ (tm.listExpiredCb now nowAddr []).1) && !(tm.heap t).m_recurring) := rfl
      rw [hk]
      refine ⟨by rw [e7]; exact ht, ?_, ?_⟩
      · rw [e5, e1]
        by_cases hm : t ∈ tm.m_timers
        · by_cases hp : expiredNow tm now t = true
          · by_cases hr : (tm.heap t).m_recurring = true
            · simp [hm, hp, hr, List.mem_filter]
            · simp [hm, hp, hr, List.mem_filter]
          · simp [hm, hp, List.mem_filter]
        · simp [hm]
      · by_cases hxe : t ∈ (tm.listExpiredCb now nowAddr []).1
        · rw [e4 t hxe]
          unfold firedTimer
          by_cases hr : (tm.heap t).m_recurring = true
          · rw [if_pos hr]; simp [hr]
          · rw [if_neg hr]; simp [hxe, hr]
        · rw [e3 t hxe]; simp [hxe]

theorem run_track (t : Nat) (ops : List TimerOp) : ∀ (tm tm1 : TimerManager), tm.wf →
    t ∈ tm.live → tm.run ops = some tm1 →
    t ∈ tm1.live ∧
    (t ∈ tm1.m_timers ↔ (t ∈ tm.m_timers ∧ tm.killedIn ops t = false)) ∧
    (tm1.heap t).m_cb.isSome = ((tm.heap t).m_cb.isSome && !tm.killedIn ops t) := by
  induction ops with
  | nil =>
    intro tm tm1 _ ht h
    simp only [TimerManager.run, Option.some.injEq] at h
    subst h
    simp [TimerManager.killedIn, ht]
  | cons op ops ih =>
    intro tm tm1 hwf ht h
    unfold TimerManager.run at h
    unfold TimerManager.killedIn
    cases hs : tm.step op with
    | none => rw [hs] at h; exact absurd h (by simp)
    | some tm2 =>
      rw [hs] at h
      simp only at h ⊢
      obtain ⟨a1, a2, a3⟩ := step_track tm tm2 hwf t ht op hs
      obtain ⟨b1, b2, b3⟩ := ih tm2 tm1 (wf_step tm tm2 hwf op hs) a1 h
      refine ⟨b1, ?_, ?_⟩
      · rw [b2, a2, Bool.or_eq_false_iff]
        tauto
      · rw [b3, a3]
        cases (tm.heap t).m_cb.isSome <;> cases tm.kills op t <;>
          cases tm2.killedIn ops t <;> rfl

theorem foldl_snoc_eq {α : Type} (l : List α) (acc : List α) :
    l.foldl (fun calls cb => calls ++ [cb]) acc = acc ++ l := by
  induction l generalizing acc with
  | nil => simp
  | cons x xs ih => rw [List.foldl_cons, ih]; simp

theorem idleTimers_calls (tm : TimerManager) (now nowAddr : Nat) :
    (idleTimers tm now nowAddr).1 = (tm.listExpiredCb now nowAddr []).2.1 := by
  unfold idleTimers
  simp only
  cases hc : (tm.listExpiredCb now nowAddr []).2.1 with
  | nil => simp
  | cons x xs => simp [foldl_snoc_eq]

theorem expired_subset (tm : TimerManager) (now nowAddr : Nat) (cbs : List (Option Nat)) :
    ∀ t ∈ (tm.listExpiredCb now nowAddr cbs).1, t ∈ tm.m_timers := by
  intro t ht
  unfold TimerManager.listExpiredCb at ht
  split at ht
  · simp at ht
  · rename_i first rest hl
    simp only at ht
    split at ht
    · simp at ht
    · simp only [TimerManager.detectClockRollover] at ht
      rw [hl] at ht
      rw [hl]
      exact List.mem_of_mem_take ht

/-! ## Claims about the IOManager -/

/-- For a timer less than `2 ^ 31` milliseconds away the timeout handed to
`epoll_wait` is the smaller of that distance and 5000, and without a timer it
is 5000. -/
theorem idleTimeout_small (t : Nat) (h : t < 2147483648) :
    idleTimeout t = min (t : Int) 5000 ∧ idleTimeout 18446744073709551615 = 5000 := by
  constructor
  · unfold idleTimeout toUInt64 toInt32 MAX_TIMEOUT W32
    have h1 : t ≠ 18446744073709551615 := by omega
    have h2 : t % 4294967296 = t := by omega
    simp only [h1, ne_eq, not_false_eq_true, if_true, h2, h, if_pos]
    rcases le_total (t : Int) 5000 with hle | hle
    · rw [min_eq_left hle]
      have h3 : ((t : Int) % 18446744073709551616).toNat = t := by omega
      rw [h3, h2, if_pos h]
    · rw [min_eq_right hle]
      decide
  · decide

/-- C8 (the code departs from the claim). For the value 3000000000 returned
by `getNextTimer` (a timer about 34.7 days away) the `int` conversion in
`std::min((int)next_timeout, MAX_TIMEOUT)` yields a negative number, and
`IOManager::idle` hands `-1294967296` to `epoll_wait` in place of
`min(3000000000, 5000) = 5000`; for 4294967296 it hands over `0`. -/
theorem idleTimeout_truncates :
    idleTimeout 3000000000 = -1294967296 ∧ min (3000000000 : Int) 5000 = 5000 ∧
    ¬ (0 ≤ idleTimeout 3000000000 ∧ idleTimeout 3000000000 ≤ 5000) ∧
    idleTimeout 4294967296 = 0 := by
  decide

/-! ## Claims about the timer manager -/

theorem expiredNow_no_rollover (tm : TimerManager) (now : Nat)
    (hno : rolloverTest tm.m_previouseTime now = false) :
    expiredNow tm now = fun t => decide ((tm.heap t).m_next ≤ now) := by
  funext t
  unfold expiredNow
  rw [hno, Bool.false_or]

/-- C2. For every timer set (ordered by the comparator, as a `std::set` is)
and every clock reading `now` at which no rollover is detected, one call of
`listExpiredCb`: (a) appends to `cbs` the callbacks of exactly the timers
whose deadline is not after `now`, one for each, (b) removes every expired
non-recurring timer from the set and leaves every timer with a later deadline
in the set with its object unchanged, and (c) leaves every expired recurring
timer in the set with its deadline set to `now + period` (the 64-bit sum) and
nothing else changed. -/
theorem listExpiredCb_drains_expired (tm : TimerManager) (now nowAddr : Nat)
    (cbs : List (Option Nat)) (hs : SetSorted tm.heap tm.m_timers)
    (hfresh : nowAddr ∉ tm.m_timers) (hno : rolloverTest tm.m_previouseTime now = false) :
    ((tm.listExpiredCb now nowAddr cbs).1 =
        tm.m_timers.filter (fun t => decide ((tm.heap t).m_next ≤ now)) ∧
      (tm.listExpiredCb now nowAddr cbs).1.Nodup ∧
      (tm.listExpiredCb now nowAddr cbs).2.1 =
        cbs ++ (tm.listExpiredCb now nowAddr cbs).1.map (fun t => (tm.heap t).m_cb)) ∧
    (∀ t ∈ tm.m_timers, (tm.heap t).m_next ≤ now → (tm.heap t).m_recurring = false →
      t ∉ (tm.listExpiredCb now nowAddr cbs).2.2.m_timers) ∧
    (∀ t ∈ tm.m_timers, now < (tm.heap t).m_next →
      t ∈ (tm.listExpiredCb now nowAddr cbs).2.2.m_timers ∧
      (tm.listExpiredCb now nowAddr cbs).2.2.heap t = tm.heap t) ∧
    (∀ t ∈ tm.m_timers, (tm.heap t).m_next ≤ now → (tm.heap t).m_recurring = true →
      t ∈ (tm.listExpiredCb now nowAddr cbs).2.2.m_timers ∧
      (tm.listExpiredCb now nowAddr cbs).2.2.heap t =
        { tm.heap t with m_next := (now + (tm.heap t).m_ms) % 18446744073709551616 } ∧
      (now + (tm.heap t).m_ms < 18446744073709551616 →
        ((tm.listExpiredCb now nowAddr cbs).2.2.heap t).m_next = now + (tm.heap t).m_ms)) := by
  obtain ⟨e1, e2, e3, e4, e5, -, -⟩ := listExpiredCb_spec tm now nowAddr cbs hs hfresh
  rw [expiredNow_no_rollover tm now hno] at e1
  have hexp : ∀ t, expiredNow tm now t = decide ((tm.heap t).m_next ≤ now) := by
    intro t; rw [expiredNow_no_rollover tm now hno]
  refine ⟨⟨e1, ?_, e2⟩, ?_, ?_, ?_⟩
  · rw [e1]
    exact hs.nodup.sublist (List.filter_sublist _)
  · intro t ht hle hr hc
    rcases ((e5 t).1 hc).2 with h | h
    · rw [hexp, decide_eq_false_iff_not] at h; exact h hle
    · rw [hr] at h; exact absurd h (by simp)
  · intro t ht hlt
    refine ⟨(e5 t).2 ⟨ht, Or.inl ?_⟩, e3 t ?_⟩
    · rw [hexp, decide_eq_false_iff_not]; omega
    · rw [e1, List.mem_filter]
      rintro ⟨-, h⟩
      rw [decide_eq_true_eq] at h
      omega
  · intro t ht hle hr
    have hmem : t ∈ (tm.listExpiredCb now nowAddr cbs).1 := by
      rw [e1, List.mem_filter]
      exact ⟨ht, by rw [decide_eq_true_eq]; exact hle⟩
    have hheap := e4 t hmem
    unfold firedTimer at hheap
    rw [if_pos hr] at hheap
    refine ⟨(e5 t).2 ⟨ht, Or.inr hr⟩, hheap, ?_⟩
    intro hlt
    rw [hheap]
    show add64 now (tm.heap t).m_ms = now + (tm.heap t).m_ms
    unfold add64 W64
    exact Nat.mod_eq_of_lt hlt

/-- Witness for C2: at clock reading 1000 the sample set gives the callbacks
of the 500 ms timer and of the recurring timer, in this order, drops the
first, keeps the 5000 ms timer and re-arms the recurring one for 2000. -/
theorem listExpiredCb_drains_expired_witness :
    SetSorted sampleTimers.heap sampleTimers.m_timers ∧ 99 ∉ sampleTimers.m_timers ∧
    rolloverTest sampleTimers.m_previouseTime 1000 = false ∧
    (sampleTimers.listExpiredCb 1000 99 []).2.1 = [some 2, some 1] ∧
    5 ∉ (sampleTimers.listExpiredCb 1000 99 []).2.2.m_timers ∧
    7 ∈ (sampleTimers.listExpiredCb 1000 99 []).2.2.m_timers ∧
    ((sampleTimers.listExpiredCb 1000 99 []).2.2.heap 10).m_next = 2000 :=
  ⟨by decide, by decide, by decide,
   ((listExpiredCb_drains_expired sampleTimers 1000 99 [] (by decide) (by decide)
      (by decide)).1.2.2).trans (by decide),
   (listExpiredCb_drains_expired sampleTimers 1000 99 [] (by decide) (by decide)
      (by decide)).2.1 5 (by decide) (by decide) (by decide),
   ((listExpiredCb_drains_expired sampleTimers 1000 99 [] (by decide) (by decide)
      (by decide)).2.2.1 7 (by decide) (by decide)).1,
   ((listExpiredCb_drains_expired sampleTimers 1000 99 [] (by decide) (by decide)
      (by decide)).2.2.2 10 (by decide) (by decide) (by decide)).2.2 (by decide)⟩

/-- C5. For every timer set (ordered by the comparator) and every clock
reading, the callbacks that one call of `listExpiredCb` appends are those of
the vector `expired` in its order, `expired` is strictly increasing in the
order "deadline before the call, then address", and the idle loop hands the
collected callbacks to `schedule` in that same order. -/
theorem listExpiredCb_in_deadline_order (tm : TimerManager) (now nowAddr : Nat)
    (cbs : List (Option Nat)) (hs : SetSorted tm.heap tm.m_timers)
    (hfresh : nowAddr ∉ tm.m_timers) :
    (tm.listExpiredCb now nowAddr cbs).2.1 =
      cbs ++ (tm.listExpiredCb now nowAddr cbs).1.map (fun t => (tm.heap t).m_cb) ∧
    (tm.listExpiredCb now nowAddr cbs).1.Pairwise
      (fun a b => (tm.heap a).m_next < (tm.heap b).m_next ∨
        ((tm.heap a).m_next = (tm.heap b).m_next ∧ a < b)) ∧
    (tm.listExpiredCb now nowAddr cbs).1.Pairwise
      (fun a b => (tm.heap a).m_next ≤ (tm.heap b).m_next) ∧
    (idleTimers tm now nowAddr).1 =
      (tm.listExpiredCb now nowAddr []).1.map (fun t => (tm.heap t).m_cb) := by
  obtain ⟨e1, e2, -, -, -, -, -⟩ := listExpiredCb_spec tm now nowAddr cbs hs hfresh
  obtain ⟨-, f2, -, -, -, -, -⟩ := listExpiredCb_spec tm now nowAddr [] hs hfresh
  have hp : (tm.listExpiredCb now nowAddr cbs).1.Pairwise (timerLt tm.heap) := by
    rw [e1]
    exact List.Pairwise.sublist (List.filter_sublist _) hs
  refine ⟨e2, hp, ?_, ?_⟩
  · exact hp.imp (fun {a b} h => by unfold timerLt at h; omega)
  · rw [idleTimers_calls, f2, List.nil_append]

/-- Witness for C5: at clock reading 6000 the sample set yields the callbacks
of the 500 ms, the 1000 ms and the 5000 ms timer in this order, and the idle
loop schedules them in this order. -/
theorem listExpiredCb_in_deadline_order_witness :
    SetSorted sampleTimers.heap sampleTimers.m_timers ∧ 99 ∉ sampleTimers.m_timers ∧
    (sampleTimers.listExpiredCb 6000 99 []).1 = [5, 10, 7] ∧
    (idleTimers sampleTimers 6000 99).1 = [some 2, some 1, some 3] :=
  ⟨by decide, by decide, by decide,
   ((listExpiredCb_in_deadline_order sampleTimers 6000 99 [] (by decide)
      (by decide)).2.2.2).trans (by decide)⟩

/-- C3. Timer-queue membership invariant. Let a timer be created by
`addTimer` or `addConditionTimer` with a non-empty callback in a state reached
from a new manager, and let any sequence of calls follow (`cancel`, `refresh`,
`reset`, `listExpiredCb`, and creations of other timers, on any handles).
Then the timer is in the set iff its callback is non-empty, this is the case
iff no call of the sequence cancelled it or fired it as a non-recurring
timer, `cancel` on any handle is defined, and the lookup inside `cancel` of a
timer with a callback finds that timer. -/
theorem timer_in_set_iff_callback (now0 : Nat) (ops1 : List TimerOp)
    (tm1 tm2 tm3 : TimerManager) (now addr ms cb : Nat) (recurring : Bool)
    (ops2 : List TimerOp)
    (h1 : (TimerManager.init now0).run ops1 = some tm1)
    (h2 : tm1.addTimer now addr ms (some cb) recurring = some (addr, tm2) ∨
      tm1.addConditionTimer now addr ms cb recurring = some (addr, tm2))
    (h3 : tm2.run ops2 = some tm3) :
    (addr ∈ tm3.m_timers ↔ (tm3.heap addr).m_cb.isSome = true) ∧
    ((tm3.heap addr).m_cb.isSome = true ↔ tm2.killedIn ops2 addr = false) ∧
    (∀ t, ∃ r, tm3.cancel t = some r) ∧
    (∀ t, (tm3.heap t).m_cb.isSome = true →
      ∃ it, setFind (store tm3.heap t { tm3.heap t with m_cb := none }) t tm3.m_timers = some it ∧
        tm3.m_timers.get? it = some t ∧
        tm3.cancel t = some (true,
          { tm3 with heap := store tm3.heap t { tm3.heap t with m_cb := none },
                     m_timers := tm3.m_timers.erase t })) := by
  have h2a : tm1.addTimer now addr ms (some cb) recurring = some (addr, tm2) := by
    rcases h2 with h | h
    · exact h
    · exact h
  have hwf1 := wf_run ops1 _ tm1 (wf_init now0) h1
  have hwf2 : tm2.wf := wf_addTimer tm1 hwf1 _ _ _ _ _ _ h2a
  have hwf3 := wf_run ops2 tm2 tm3 hwf2 h3
  obtain ⟨-, -, hlive, hheap, hset⟩ := addTimer_spec tm1 now addr ms (some cb) recurring _ h2a
  simp only at hlive hheap hset
  have hl2 : addr ∈ tm2.live := by rw [hlive]; exact List.mem_cons_self _ _
  have hm2 : addr ∈ tm2.m_timers := by rw [hset, mem_setInsert]; exact Or.inl rfl
  have hc2 : (tm2.heap addr).m_cb.isSome = true := by rw [hheap, store_same]; rfl
  obtain ⟨-, b2, b3⟩ := run_track addr ops2 tm2 tm3 hwf2 hl2 h3
  rw [hc2, Bool.true_and] at b3
  have hk : (tm3.heap addr).m_cb.isSome = true ↔ tm2.killedIn ops2 addr = false := by
    rw [b3]; simp
  refine ⟨?_, hk, ?_, ?_⟩
  · rw [b2, hk]
    exact ⟨fun h => h.2, fun h => ⟨hm2, h⟩⟩
  · intro t
    have hsp := cancel_spec tm3 hwf3 t
    cases hcb : (tm3.heap t).m_cb.isSome with
    | false => exact ⟨_, hsp.2 hcb⟩
    | true =>
      obtain ⟨it, -, -, hc⟩ := hsp.1 hcb
      exact ⟨_, hc⟩
  · intro t hcb
    exact (cancel_spec tm3 hwf3 t).1 hcb

/-- Witness for C3: the recurring timer of `tests/test_timer.cc` at address
10 is created, fires at 1000 and stays in the set with its callback; after
its `cancel` it is out of the set and has no callback. -/
theorem timer_in_set_iff_callback_witness :
    ∃ tm1 tm2 tm3 tm4,
      (TimerManager.init 0).run [] = some tm1 ∧
      tm1.addTimer 0 10 1000 (some 1) true = some (10, tm2) ∧
      tm2.run [TimerOp.listExpiredCb 1000 99] = some tm3 ∧
      tm2.run [TimerOp.listExpiredCb 1000 99, TimerOp.cancel 10] = some tm4 ∧
      (10 ∈ tm3.m_timers ↔ (tm3.heap 10).m_cb.isSome = true) ∧ 10 ∈ tm3.m_timers ∧
      (10 ∈ tm4.m_timers ↔ (tm4.heap 10).m_cb.isSome = true) ∧ 10 ∉ tm4.m_timers :=
  ⟨_, _, _, _, rfl, rfl, rfl, rfl,
   (timer_in_set_iff_callback 0 [] _ _ _ 0 10 1000 1 true [TimerOp.listExpiredCb 1000 99]
      rfl (Or.inl rfl) rfl).1,
   by decide,
   (timer_in_set_iff_callback 0 [] _ _ _ 0 10 1000 1 true
      [TimerOp.listExpiredCb 1000 99, TimerOp.cancel 10] rfl (Or.inl rfl) rfl).1,
   by decide⟩

/-- C4. Once `cancel` has returned `true` for a timer in a state reached from
a new manager, then after any further sequence of calls: no call of
`listExpiredCb`, at any clock reading (rollover or not), has the timer in its
vector `expired`, whose callbacks are the ones it appends; and `cancel` on the
same timer returns `false` and leaves the state as it is. -/
theorem cancelled_timer_never_fires (now0 : Nat) (ops1 : List TimerOp)
    (tm1 tm2 tm3 : TimerManager) (t : Nat) (ops2 : List TimerOp)
    (h1 : (TimerManager.init now0).run ops1 = some tm1)
    (h2 : tm1.cancel t = some (true, tm2))
    (h3 : tm2.run ops2 = some tm3) :
    (∀ now nowAddr cbs, t ∉ (tm3.listExpiredCb now nowAddr cbs).1) ∧
    (∀ now nowAddr cbs, nowAddr ∉ tm3.live →
      (tm3.listExpiredCb now nowAddr cbs).2.1 =
        cbs ++ (tm3.listExpiredCb now nowAddr cbs).1.map (fun u => (tm3.heap u).m_cb)) ∧
    tm3.cancel t = some (false, tm3) ∧
    t ∉ tm3.m_timers ∧ (tm3.heap t).m_cb = none := by
  have hwf1 := wf_run ops1 _ tm1 (wf_init now0) h1
  have hwf2 : tm2.wf := wf_cancel tm1 hwf1 t _ h2
  have hwf3 := wf_run ops2 tm2 tm3 hwf2 h3
  have hsp := cancel_spec tm1 hwf1 t
  have hcb1 : (tm1.heap t).m_cb.isSome = true := by
    cases hcb : (tm1.heap t).m_cb.isSome with
    | false =>
      rw [hsp.2 hcb] at h2
      simp at h2
    | true => rfl
  obtain ⟨it, -, -, hc⟩ := hsp.1 hcb1
  rw [hc] at h2
  simp only [Option.some.injEq, Prod.mk.injEq, true_and] at h2
  have hl1 : t ∈ tm1.live := hwf1.2.1 t (hwf1.2.2 t hcb1)
  have hl2 : t ∈ tm2.live := by rw [← h2]; exact hl1
  have hm2 : t ∉ tm2.m_timers := by
    rw [← h2]
    exact fun hx => ((List.Nodup.mem_erase_iff hwf1.1.nodup).1 hx).1 rfl
  have hc2 : (tm2.heap t).m_cb.isSome = false := by
    rw [← h2]
    show (store tm1.heap t _ t).m_cb.isSome = false
    rw [store_same]
    rfl
  obtain ⟨-, b2, b3⟩ := run_track t ops2 tm2 tm3 hwf2 hl2 h3
  rw [hc2, Bool.false_and] at b3
  have hm3 : t ∉ tm3.m_timers := fun hx => hm2 ((b2.1 hx).1)
  refine ⟨?_, ?_, (cancel_spec tm3 hwf3 t).2 b3, hm3, ?_⟩
  · intro now nowAddr cbs hx
    exact hm3 (expired_subset tm3 now nowAddr cbs t hx)
  · intro now nowAddr cbs hfresh
    exact (listExpiredCb_spec tm3 now nowAddr cbs hwf3.1
      (fun hx => hfresh (hwf3.2.1 _ hx))).2.1
  · cases hx : (tm3.heap t).m_cb with
    | none => rfl
    | some v => rw [hx] at b3; simp at b3

/-- Witness for C4: the recurring timer at address 10 fires at 1000 and is
cancelled (as from inside its callback); `listExpiredCb` at 2000 and then at
3000 does not return it, with and without the other timers, and a second
`cancel` returns `false`. -/
theorem cancelled_timer_never_fires_witness :
    ∃ tm1 tm2 tm3,
      (TimerManager.init 0).run
        [TimerOp.addTimer 0 10 1000 (some 1) true, TimerOp.addTimer 0 5 500 (some 2) false,
         TimerOp.listExpiredCb 1000 99] = some tm1 ∧
      tm1.cancel 10 = some (true, tm2) ∧
      tm2.run [TimerOp.listExpiredCb 2000 98] = some tm3 ∧
      10 ∉ (tm3.listExpiredCb 3000 97 []).1 ∧
      (tm3.cancel 10).map (fun r => r.1) = some false :=
  ⟨_, _, _, rfl, rfl, rfl,
   (cancelled_timer_never_fires 0
      [TimerOp.addTimer 0 10 1000 (some 1) true, TimerOp.addTimer 0 5 500 (some 2) false,
       TimerOp.listExpiredCb 1000 99] _ _ _ 10 [TimerOp.listExpiredCb 2000 98]
      rfl rfl rfl).1 3000 97 [],
   by
    rw [(cancelled_timer_never_fires 0
      [TimerOp.addTimer 0 10 1000 (some 1) true, TimerOp.addTimer 0 5 500 (some 2) false,
       TimerOp.listExpiredCb 1000 99] _ _ _ 10 [TimerOp.listExpiredCb 2000 98]
      rfl rfl rfl).2.2.1]
    rfl⟩

/-! ## Claims about the scheduler -/

theorem selectTask_spec (getState : Nat → FiberState) (threadId : Int) (q : List ScheduleTask)
    (hq : ∀ t ∈ q, t.fiber.isSome = true ∨ t.cb.isSome = true) :
    (selectTask getState threadId q).map (fun r => (r.task, r.m_tasks)) =
      some (q.find? (selectable getState threadId), q.eraseP (selectable getState threadId)) := by
  induction q with
  | nil => rfl
  | cons it rest ih =>
    have ih2 := ih (fun t ht => hq t (List.mem_cons_of_mem _ ht))
    unfold selectTask
    by_cases haff : it.thread ≠ -1 ∧ it.thread ≠ threadId
    · rw [if_pos haff]
      have hsel : selectable getState threadId it = false := by
        unfold selectable affinityOk
        simp [haff.1, haff.2]
      rw [List.find?_cons_of_neg _ (by simp [hsel]), List.eraseP_cons_of_neg (by simp [hsel])]
      cases hs : selectTask getState threadId rest with
      | none => rw [hs] at ih2; simp at ih2
      | some r =>
        rw [hs] at ih2
        simp only [Option.map_some', Option.some.injEq, Prod.mk.injEq] at ih2 ⊢
        exact ⟨ih2.1, by rw [ih2.2]⟩
    · rw [if_neg haff]
      have haff2 : affinityOk threadId it = true := by
        unfold affinityOk
        by_cases h1 : it.thread = -1
        · simp [h1]
        · have : it.thread = threadId := by
            by_contra h2
            exact haff ⟨h1, h2⟩
          simp [this]
      have hne : ¬ (it.fiber.isNone = true ∧ it.cb.isNone = true) := by
        rintro ⟨h1, h2⟩
        rcases hq it (List.mem_cons_self _ _) with h | h
        · rw [Option.isNone_iff_eq_none] at h1; rw [h1] at h; simp at h
        · rw [Option.isNone_iff_eq_none] at h2; rw [h2] at h; simp at h
      rw [if_neg hne]
      by_cases hrun : fiberRunning getState it = true
      · rw [if_pos hrun]
        have hsel : selectable getState threadId it = false := by
          unfold selectable
          simp [hrun]
        rw [List.find?_cons_of_neg _ (by simp [hsel]), List.eraseP_cons_of_neg (by simp [hsel])]
        cases hs : selectTask getState threadId rest with
        | none => rw [hs] at ih2; simp at ih2
        | some r =>
          rw [hs] at ih2
          simp only [Option.map_some', Option.some.injEq, Prod.mk.injEq] at ih2 ⊢
          exact ⟨ih2.1, by rw [ih2.2]⟩
      · rw [if_neg hrun]
        have hsel : selectable getState threadId it = true := by
          unfold selectable
          simp [haff2, hrun]
        rw [List.find?_cons_of_pos _ hsel, List.eraseP_cons_of_pos hsel]
        rfl

/-- C6 as stated fails. On the sample queue (a coroutine in state `RUNNING`
followed by a callback, both for any thread) thread 0 does not take the first
task whose affinity fits: it skips the running coroutine and takes the
callback; and on a queue that holds only the running coroutine it takes no
task although a task with affinity `-1` is queued. -/
theorem selectTask_skips_running_fiber :
    (selectTask sampleStates 0 sampleTasks).map (fun r => (r.task, r.m_tasks)) ≠
      some (sampleTasks.find? (affinityOk 0), sampleTasks.eraseP (affinityOk 0)) ∧
    (selectTask sampleStates 0 sampleTasks).map (fun r => (r.task, r.m_tasks)) =
      some (some { fiber := none, cb := some 7, thread := -1 },
            [{ fiber := some 1, cb := none, thread := -1 }]) ∧
    (selectTask sampleStates 0 [{ fiber := some 1, cb := none, thread := -1 }]).map
        (fun r => r.task) = some none ∧
    ([{ fiber := some 1, cb := none, thread := -1 }] : List ScheduleTask).find? (affinityOk 0) =
      some { fiber := some 1, cb := none, thread := -1 } := by
  decide

/-- C6, amended. For every task queue whose tasks each carry a coroutine or a
callback and every worker thread id, the selection step of `Scheduler::run`
completes, takes the first task in queue order whose affinity is `-1` or the
thread's id and whose coroutine, if it carries one, is not in state `RUNNING`,
leaves all other tasks queued in their order, and takes no task exactly when
the queue holds no such task. -/
theorem selectTask_takes_first_selectable (getState : Nat → FiberState) (threadId : Int)
    (q : List ScheduleTask) (hq : ∀ t ∈ q, t.fiber.isSome = true ∨ t.cb.isSome = true) :
    (selectTask getState threadId q).map (fun r => (r.task, r.m_tasks)) =
      some (q.find? (selectable getState threadId), q.eraseP (selectable getState threadId)) ∧
    ((selectTask getState threadId q).map (fun r => r.task) = some none ↔
      ∀ t ∈ q, selectable getState threadId t = false) := by
  have h := selectTask_spec getState threadId q hq
  refine ⟨h, ?_⟩
  cases hs : selectTask getState threadId q with
  | none => rw [hs] at h; simp at h
  | some r =>
    rw [hs] at h
    simp only [Option.map_some', Option.some.injEq, Prod.mk.injEq] at h ⊢
    rw [h.1, List.find?_eq_none]
    simp

/-- Witness for the amended C6: on the sample queue thread 0 takes the
callback and leaves the running coroutine queued. -/
theorem selectTask_takes_first_selectable_witness :
    (∀ t ∈ sampleTasks, t.fiber.isSome = true ∨ t.cb.isSome = true) ∧
    (selectTask sampleStates 0 sampleTasks).map (fun r => (r.task, r.m_tasks)) =
      some (some { fiber := none, cb := some 7, thread := -1 },
            [{ fiber := some 1, cb := none, thread := -1 }]) :=
  ⟨by decide,
   (selectTask_takes_first_selectable sampleStates 0 sampleTasks (by decide)).1.trans
     (by decide)⟩

/-! ## Claims about the fcntl/ioctl hooks -/

theorem and_O_NONBLOCK_ne_zero (m : Nat) : m &&& O_NONBLOCK ≠ 0 ↔ m.testBit 11 = true := by
  unfold O_NONBLOCK
  rw [show (2048 : Nat) = 2 ^ 11 from rfl, Nat.and_two_pow]
  cases m.testBit 11 <;> simp

theorem testBit_O_NONBLOCK (i : Nat) : O_NONBLOCK.testBit i = decide (11 = i) := by
  unfold O_NONBLOCK
  rw [show (2048 : Nat) = 2 ^ 11 from rfl, Nat.testBit_two_pow]

theorem testBit_bitNot32 (x i : Nat) :
    (bitNot32 x).testBit i = (decide (i < 32) ^^ (x % W32).testBit i) := by
  unfold bitNot32
  rw [Nat.testBit_xor, show (4294967295 : Nat) = 2 ^ 32 - 1 from rfl, Nat.testBit_two_pow_sub_one]

theorem testBit_SETFL_MASK_11 : SETFL_MASK.testBit 11 = true := by decide

theorem testBit_high_of_lt (x i : Nat) (hx : x < 4294967296) (hi : 32 ≤ i) :
    x.testBit i = false := by
  apply Nat.testBit_eq_false_of_lt
  calc x < 2 ^ 32 := hx
    _ ≤ 2 ^ i := Nat.pow_le_pow_right (by decide) hi

/-- The kernel's `O_NONBLOCK` flag after the original `F_SETFL` is the one of
the argument. -/
theorem fcntl_f_SETFL_nonblock (k : KernelFd) (arg : Nat) :
    (fcntl_f_SETFL k arg).nonblock = arg.testBit 11 := by
  unfold KernelFd.nonblock fcntl_f_SETFL
  have h : ∀ m : Nat, (m &&& O_NONBLOCK != 0) = m.testBit 11 := by
    intro m
    have := and_O_NONBLOCK_ne_zero m
    cases hb : m.testBit 11
    · rw [hb] at this
      simp only [Bool.false_eq_true, iff_false, not_not] at this
      simp [this]
    · rw [hb] at this
      simp only [iff_true] at this
      simp [this]
  rw [h]
  simp only
  rw [Nat.testBit_or, Nat.testBit_and, Nat.testBit_and, testBit_SETFL_MASK_11, testBit_bitNot32]
  have : (SETFL_MASK % W32).testBit 11 = true := by decide
  rw [this]
  simp

theorem nonblock_iff (k : KernelFd) : k.nonblock = k.flags.testBit 11 := by
  unfold KernelFd.nonblock
  have := and_O_NONBLOCK_ne_zero k.flags
  cases hb : k.flags.testBit 11
  · rw [hb] at this
    simp only [Bool.false_eq_true, iff_false, not_not] at this
    simp [this]
  · rw [hb] at this
    simp only [iff_true] at this
    simp [this]

theorem FdCtx_new_socket (fd : Int) (k : KernelFd) (hst : k.statOk = true) (hso : k.isSock = true) :
    (FdCtx.new fd k).1.m_isSocket = true ∧ (FdCtx.new fd k).1.m_sysNonblock = true ∧
    (FdCtx.new fd k).1.m_userNonblock = false ∧ (FdCtx.new fd k).1.m_isClosed = false ∧
    (FdCtx.new fd k).2.nonblock = true := by
  unfold FdCtx.new FdCtx.init
  simp only [hst, hso, Bool.false_eq_true, if_false, Bool.not_true, if_true, and_self, true_and]
  by_cases h : fcntl_f_GETFL k &&& O_NONBLOCK = 0
  · rw [if_pos h, fcntl_f_SETFL_nonblock, Nat.testBit_or, testBit_O_NONBLOCK]
    simp
  · rw [if_neg h, nonblock_iff]
    exact (and_O_NONBLOCK_ne_zero _).1 h

/-- C9 (the code departs from the claim). Creating the `FdCtx` of a socket
sets the kernel's `O_NONBLOCK` flag and the hooked `fcntl(fd, F_SETFL, arg)`
keeps it set for every `arg`; the hooked `ioctl(fd, FIONBIO, &v)` with
`v = 0` passes the user's zero to the original `ioctl` and leaves the flag
clear, for every registered open socket, while the user flag is `false`
too.  On the sample socket: set after creation, clear after the `ioctl`. -/
theorem ioctl_FIONBIO_clears_kernel_nonblock :
    (∀ (fd : Int) (k : KernelFd), k.statOk = true → k.isSock = true →
      (FdCtx.new fd k).2.nonblock = true) ∧
    (∀ (c : FdCtx) (k : KernelFd) (arg : Nat), c.m_isSocket = true → c.m_isClosed = false →
      c.m_sysNonblock = true → (hook_fcntl_SETFL (some c) k arg).kernel.nonblock = true) ∧
    (∀ (c : FdCtx) (k : KernelFd), c.m_isSocket = true → c.m_isClosed = false →
      (hook_ioctl (some c) k 0).kernel.nonblock = false ∧
      (hook_ioctl (some c) k 0).ctx.map (fun c1 => c1.m_userNonblock) = some false) ∧
    (FdCtx.new 5 sampleSocket).2.nonblock = true ∧
    (hook_ioctl (some (FdCtx.new 5 sampleSocket).1) (FdCtx.new 5 sampleSocket).2
      0).kernel.nonblock = false := by
  refine ⟨fun fd k h1 h2 => (FdCtx_new_socket fd k h1 h2).2.2.2.2, ?_, ?_, by decide, by decide⟩
  · intro c k arg hs hc hsys
    unfold hook_fcntl_SETFL
    simp only [hs, hc, hsys, Bool.not_true, Bool.or_self, Bool.false_eq_true, if_false, if_true]
    rw [fcntl_f_SETFL_nonblock, Nat.testBit_or, testBit_O_NONBLOCK]
    simp
  · intro c k hs hc
    unfold hook_ioctl
    simp only [hs, hc, Bool.not_true, Bool.or_self, Bool.false_eq_true, if_false]
    refine ⟨?_, by simp⟩
    rw [nonblock_iff]
    unfold ioctl_f
    simp only [ne_eq, not_true_eq_false, if_false]
    rw [Nat.testBit_and, testBit_bitNot32]
    have : (O_NONBLOCK % W32).testBit 11 = true := by decide
    rw [this]
    simp

/-- C10. For a registered open socket (its `FdCtx` has the socket flag and
the runtime's non-blocking flag that creation sets, and is not closed), any
kernel state and any flag word `arg`: the hooked `fcntl(fd, F_SETFL, arg)`
records `arg & O_NONBLOCK` as the user flag, hands `arg | O_NONBLOCK` to the
original `fcntl`, and a following hooked `fcntl(fd, F_GETFL)` returns the
kernel's flag word with bit `O_NONBLOCK` replaced by the user's choice. -/
theorem hook_fcntl_SETFL_GETFL (c : FdCtx) (k : KernelFd) (arg : Nat)
    (hs : c.m_isSocket = true) (hc : c.m_isClosed = false) (hsys : c.m_sysNonblock = true) :
    (hook_fcntl_SETFL (some c) k arg).ctx =
      some { c with m_userNonblock := arg &&& O_NONBLOCK != 0 } ∧
    ((arg &&& O_NONBLOCK != 0) = true ↔ arg &&& O_NONBLOCK ≠ 0) ∧
    (hook_fcntl_SETFL (some c) k arg).passed = arg ||| O_NONBLOCK ∧
    (hook_fcntl_SETFL (some c) k arg).kernel = fcntl_f_SETFL k (arg ||| O_NONBLOCK) ∧
    (∀ i : Nat,
      (hook_fcntl_GETFL (hook_fcntl_SETFL (some c) k arg).ctx
          (hook_fcntl_SETFL (some c) k arg).kernel).testBit i =
        if i = 11 then arg.testBit 11
        else (hook_fcntl_SETFL (some c) k arg).kernel.flags.testBit i) ∧
    ((hook_fcntl_GETFL (hook_fcntl_SETFL (some c) k arg).ctx
          (hook_fcntl_SETFL (some c) k arg).kernel) &&& O_NONBLOCK ≠ 0 ↔
      arg &&& O_NONBLOCK ≠ 0) := by
  have hset : hook_fcntl_SETFL (some c) k arg =
      { ret := 0, passed := arg ||| O_NONBLOCK,
        ctx := some { c with m_userNonblock := arg &&& O_NONBLOCK != 0 },
        kernel := fcntl_f_SETFL k (arg ||| O_NONBLOCK) } := by
    unfold hook_fcntl_SETFL
    simp only [hs, hc, hsys, Bool.not_true, Bool.or_self, Bool.false_eq_true, if_false, if_true]
  have hbits : ∀ i : Nat,
      (hook_fcntl_GETFL (some { c with m_userNonblock := arg &&& O_NONBLOCK != 0 })
          (fcntl_f_SETFL k (arg ||| O_NONBLOCK))).testBit i =
        if i = 11 then arg.testBit 11
        else (fcntl_f_SETFL k (arg ||| O_NONBLOCK)).flags.testBit i := by
    intro i
    unfold hook_fcntl_GETFL fcntl_f_GETFL
    simp only [hs, hc, Bool.not_true, Bool.or_self, Bool.false_eq_true, if_false]
    have hhigh : 32 ≤ i → (fcntl_f_SETFL k (arg ||| O_NONBLOCK)).flags.testBit i = false := by
      intro hi
      unfold fcntl_f_SETFL
      simp only
      rw [Nat.testBit_or, Nat.testBit_and, Nat.testBit_and, testBit_bitNot32,
        testBit_high_of_lt SETFL_MASK i (by decide) hi,
        testBit_high_of_lt (SETFL_MASK % W32) i (by decide) hi]
      simp
      omega
    by_cases hu : arg &&& O_NONBLOCK ≠ 0
    · have hb : (arg &&& O_NONBLOCK != 0) = true := by simpa using hu
      rw [hb, if_pos rfl, Nat.testBit_or, testBit_O_NONBLOCK]
      by_cases hi : i = 11
      · subst hi
        rw [if_pos rfl, (and_O_NONBLOCK_ne_zero arg).1 hu]
        simp
      · rw [if_neg hi]
        have : decide (11 = i) = false := by simp; omega
        rw [this]; simp
    · have hb : (arg &&& O_NONBLOCK != 0) = false := by simpa using hu
      rw [hb]
      simp only [Bool.false_eq_true, if_false]
      rw [Nat.testBit_and, testBit_bitNot32]
      by_cases hi : i = 11
      · subst hi
        rw [if_pos rfl]
        have h1 : (O_NONBLOCK % W32).testBit 11 = true := by decide
        have h2 : arg.testBit 11 = false := by
          cases hb2 : arg.testBit 11
          · rfl
          · exact absurd ((and_O_NONBLOCK_ne_zero arg).2 hb2) hu
        rw [h1, h2]; simp
      · rw [if_neg hi]
        have h1 : (O_NONBLOCK % W32).testBit i = false := by
          have : O_NONBLOCK % W32 = O_NONBLOCK := by decide
          rw [this, testBit_O_NONBLOCK]
          simp; omega
        rw [h1]
        by_cases h32 : i < 32
        · simp [h32]
        · rw [hhigh (by omega)]; simp
  rw [hset]
  refine ⟨rfl, by simp, rfl, rfl, hbits, ?_⟩
  rw [and_O_NONBLOCK_ne_zero, and_O_NONBLOCK_ne_zero, hbits 11, if_pos rfl]

/-- Witness for C10: on the sample socket, after creation of its `FdCtx`, the
user clears `O_NONBLOCK` with `F_SETFL`; the original call receives the flag
forced on, and `F_GETFL` reports it clear. -/
theorem hook_fcntl_SETFL_GETFL_witness :
    (FdCtx.new 5 sampleSocket).1.m_isSocket = true ∧
    (FdCtx.new 5 sampleSocket).1.m_isClosed = false ∧
    (FdCtx.new 5 sampleSocket).1.m_sysNonblock = true ∧
    (hook_fcntl_SETFL (some (FdCtx.new 5 sampleSocket).1) (FdCtx.new 5 sampleSocket).2 2).passed =
      2 ||| O_NONBLOCK ∧
    hook_fcntl_GETFL
      (hook_fcntl_SETFL (some (FdCtx.new 5 sampleSocket).1) (FdCtx.new 5 sampleSocket).2 2).ctx
      (hook_fcntl_SETFL (some (FdCtx.new 5 sampleSocket).1) (FdCtx.new 5 sampleSocket).2 2).kernel
      = 2 :=
  ⟨by decide, by decide, by decide,
   (hook_fcntl_SETFL_GETFL (FdCtx.new 5 sampleSocket).1 (FdCtx.new 5 sampleSocket).2 2
     (by decide) (by decide) (by decide)).2.2.1,
   by decide⟩

/-! ## Claims about coroutines -/

theorem Fiber.resume_eq_some (f g : Fiber) (h : f.resume = some g) :
    f.m_state = FiberState.READY ∧ g = { f with m_state := FiberState.RUNNING } := by
  unfold Fiber.resume at h
  split at h
  · rename_i hc
    refine ⟨?_, (Option.some.inj h).symm⟩
    cases hs : f.m_state <;> simp_all
  · cases h

theorem Fiber.yield_eq_some (f g : Fiber) (h : f.yield = some g) :
    (f.m_state = FiberState.RUNNING ∧ g = { f with m_state := FiberState.READY }) ∨
    (f.m_state = FiberState.TERM ∧ g = f) := by
  unfold Fiber.yield at h
  split at h
  · rename_i hc
    have h := (Option.some.inj h).symm
    rcases hc with hc | hc
    · left
      rw [if_pos (by rw [hc]; decide)] at h
      exact ⟨hc, h⟩
    · right
      rw [if_neg (by rw [hc]; decide)] at h
      exact ⟨hc, h⟩
  · cases h

theorem Fiber.MainFunc_eq (f : Fiber) :
    f.MainFunc = some { f with m_cb := none, m_state := FiberState.TERM } := by
  unfold Fiber.MainFunc Fiber.yield
  simp

theorem Fiber.resume_ready (f : Fiber) (h : f.m_state = FiberState.READY) :
    f.resume = some { f with m_state := FiberState.RUNNING } := by
  unfold Fiber.resume
  rw [if_pos (by rw [h]; decide)]

theorem Fiber.resume_not_ready (f : Fiber) (h : f.m_state ≠ FiberState.READY) :
    f.resume = none := by
  unfold Fiber.resume
  rw [if_neg]
  intro hc
  cases hs : f.m_state <;> simp_all

theorem Fiber.yield_running (f : Fiber) (h : f.m_state = FiberState.RUNNING) :
    f.yield = some { f with m_state := FiberState.READY } := by
  unfold Fiber.yield
  rw [if_pos (Or.inl h), if_pos (by rw [h]; decide)]

theorem Fiber.yield_term (f : Fiber) (h : f.m_state = FiberState.TERM) :
    f.yield = some f := by
  unfold Fiber.yield
  rw [if_pos (Or.inr h), if_neg (by rw [h]; decide)]

theorem Fiber.yield_ready (f : Fiber) (h : f.m_state = FiberState.READY) :
    f.yield = none := by
  unfold Fiber.yield
  rw [if_neg (by rw [h]; decide)]

/-- What one event does to the thread, case by case. -/
theorem FiberThread.step_cases (th th1 : FiberThread) (op : FiberOp) (h : th.step op = some th1) :
    (∃ f, op = FiberOp.resume f ∧ (th.fibers f).m_state = FiberState.READY ∧
      th1 = { th with fibers := Function.update th.fibers f
                        { th.fibers f with m_state := FiberState.RUNNING },
                      t_fiber := some f, swaps := th.swaps + 1 }) ∨
    (∃ f, op = FiberOp.yield f ∧ (th.fibers f).m_state = FiberState.RUNNING ∧
      th1 = { th with fibers := Function.update th.fibers f
                        { th.fibers f with m_state := FiberState.READY },
                      t_fiber := th.peer f, swaps := th.swaps + 1 }) ∨
    (∃ f, op = FiberOp.yield f ∧ (th.fibers f).m_state = FiberState.TERM ∧
      th1 = { th with fibers := Function.update th.fibers f (th.fibers f),
                      t_fiber := th.peer f, swaps := th.swaps + 1 }) ∨
    (∃ f, op = FiberOp.entryReturn ∧ th.t_fiber = some f ∧
      th1 = { th with fibers := Function.update th.fibers f
                        { th.fibers f with m_cb := none, m_state := FiberState.TERM },
                      t_fiber := th.peer f, swaps := th.swaps + 1 }) := by
  cases op with
  | resume f =>
    left
    simp only [FiberThread.step] at h
    cases hr : (th.fibers f).resume with
    | none => rw [hr] at h; cases h
    | some g =>
      rw [hr] at h
      obtain ⟨hs, hg⟩ := Fiber.resume_eq_some _ _ hr
      subst hg
      exact ⟨f, rfl, hs, (Option.some.inj h).symm⟩
  | yield f =>
    right
    simp only [FiberThread.step] at h
    cases hr : (th.fibers f).yield with
    | none => rw [hr] at h; cases h
    | some g =>
      rw [hr] at h
      rcases Fiber.yield_eq_some _ _ hr with ⟨hs, hg⟩ | ⟨hs, hg⟩
      · left
        subst hg
        exact ⟨f, rfl, hs, (Option.some.inj h).symm⟩
      · right; left
        subst hg
        exact ⟨f, rfl, hs, (Option.some.inj h).symm⟩
  | entryReturn =>
    right; right; right
    simp only [FiberThread.step] at h
    cases ht : th.t_fiber with
    | none => rw [ht] at h; cases h
    | some f =>
      rw [ht] at h
      dsimp only at h
      rw [Fiber.MainFunc_eq] at h
      exact ⟨f, rfl, rfl, (Option.some.inj h).symm⟩

/-- No event takes a coroutine out of TERM. -/
theorem FiberThread.step_term (th th1 : FiberThread) (op : FiberOp) (h : th.step op = some th1)
    (f : Nat) (hf : (th.fibers f).m_state = FiberState.TERM) :
    (th1.fibers f).m_state = FiberState.TERM := by
  rcases FiberThread.step_cases th th1 op h with ⟨g, _, hs, rfl⟩ | ⟨g, _, hs, rfl⟩ |
      ⟨g, _, hs, rfl⟩ | ⟨g, _, _, rfl⟩
  all_goals
    dsimp only
    by_cases hfg : f = g
    · subst hfg
      try simp only [Function.update_same]
      first
        | done
        | exact hf
        | rfl
        | (rw [hf] at hs; cases hs)
    · rw [Function.update_noteq hfg]
      exact hf

theorem FiberThread.run_term (ops : List FiberOp) (th th1 : FiberThread)
    (h : th.run ops = some th1) (f : Nat) (hf : (th.fibers f).m_state = FiberState.TERM) :
    (th1.fibers f).m_state = FiberState.TERM := by
  induction ops generalizing th with
  | nil =>
    unfold FiberThread.run at h
    cases h
    exact hf
  | cons op ops ih =>
    unfold FiberThread.run at h
    cases hs : th.step op with
    | none => rw [hs] at h; cases h
    | some th2 =>
      rw [hs] at h
      exact ih th2 h (FiberThread.step_term th th2 op hs f hf)

/-- The flag `m_runInScheduler` and `Scheduler::GetMainFiber()` are not
touched by any event. -/
theorem FiberThread.step_frame (th th1 : FiberThread) (op : FiberOp) (h : th.step op = some th1) :
    th1.mainFiber = th.mainFiber ∧
    ∀ f, (th1.fibers f).m_runInScheduler = (th.fibers f).m_runInScheduler := by
  rcases FiberThread.step_cases th th1 op h with ⟨g, _, hs, rfl⟩ | ⟨g, _, hs, rfl⟩ |
      ⟨g, _, hs, rfl⟩ | ⟨g, _, _, rfl⟩
  all_goals
    refine ⟨rfl, fun f => ?_⟩
    dsimp only
    by_cases hfg : f = g
    · subst hfg
      simp only [Function.update_same]
    · rw [Function.update_noteq hfg]

/-- The invariant survives every event made under the calling convention. -/
theorem FiberThread.inv_step (th th1 : FiberThread) (op : FiberOp) (hinv : th.inv)
    (hd : th.disciplined op = true) (h : th.step op = some th1) : th1.inv := by
  obtain ⟨i1, i2, i3⟩ := hinv
  obtain ⟨hm, hr⟩ := FiberThread.step_frame th th1 op h
  have key : ∀ f, th1.t_fiber = some f → (th1.fibers f).m_state = FiberState.RUNNING := by
    rcases FiberThread.step_cases th th1 op h with ⟨g, hop, hs, rfl⟩ | ⟨g, hop, hs, rfl⟩ |
        ⟨g, hop, hs, rfl⟩ | ⟨g, hop, hc, rfl⟩
    · intro f hf
      dsimp only at hf ⊢
      cases hf
      simp only [Function.update_same]
    all_goals
      have hcur : th.t_fiber = some g := by
        first
          | exact hc
          | (subst hop; simpa [FiberThread.disciplined] using hd)
      intro f hf
      dsimp only at hf ⊢
      unfold FiberThread.peer at hf
      by_cases hris : (th.fibers g).m_runInScheduler = true
      · rw [if_pos hris] at hf
        have hne : f ≠ g := by
          intro e
          subst e
          rw [i2 f hf] at hris
          cases hris
        rw [Function.update_noteq hne]
        exact i3 g f hcur hris hf
      · rw [if_neg hris] at hf
        cases hf
  refine ⟨key, ?_, ?_⟩
  · intro s hs
    rw [hr]
    exact i2 s (hm ▸ hs)
  · intro f s hf hris hs
    rw [hm] at hs
    rw [hr] at hris
    -- the current coroutine after the event is scheduled, so the event was a resume from s
    rcases FiberThread.step_cases th th1 op h with ⟨g, hop, hst, rfl⟩ | ⟨g, hop, hst, rfl⟩ |
        ⟨g, hop, hst, rfl⟩ | ⟨g, hop, hc, rfl⟩
    · dsimp only at hf ⊢
      cases hf
      subst hop
      have hcur : th.t_fiber = th.peer f := by simpa [FiberThread.disciplined] using hd
      unfold FiberThread.peer at hcur
      rw [if_pos hris, hs] at hcur
      have hne : s ≠ f := by
        intro e
        subst e
        rw [i2 s hs] at hris
        cases hris
      rw [Function.update_noteq hne]
      exact i1 s hcur
    all_goals
      exfalso
      dsimp only at hf
      unfold FiberThread.peer at hf
      by_cases hg : (th.fibers g).m_runInScheduler = true
      · rw [if_pos hg] at hf
        rw [i2 f hf] at hris
        cases hris
      · rw [if_neg hg] at hf
        cases hf

theorem FiberThread.inv_init (r : Nat → Bool) (m : Option Nat)
    (hm : ∀ s, m = some s → r s = false) : (FiberThread.init r m).inv := by
  refine ⟨?_, ?_, ?_⟩
  · intro f hf
    cases hf
  · intro s hs
    exact hm s hs
  · intro f s hf
    cases hf

/-- C11: under the calling convention of fiber.cc, from a thread state in which
the current coroutine is RUNNING, an event changes the state of a non-root
coroutine only by READY to RUNNING (resume of that coroutine), RUNNING to READY
(yield of it) or RUNNING to TERM (its entry function returns, the automatic
yield keeping TERM), and the invariant is kept; these three events do succeed
from READY, RUNNING and the current coroutine; resume on a RUNNING or TERM
coroutine fails its assertion; and no sequence of events, whatever the calling
convention, takes a coroutine out of TERM. -/
theorem fiber_state_machine (th : FiberThread) (hinv : th.inv) :
    (∀ op th1, th.disciplined op = true → th.step op = some th1 →
      th1.inv ∧
      ∀ f, (th1.fibers f).m_state = (th.fibers f).m_state ∨
        (op = FiberOp.resume f ∧ (th.fibers f).m_state = FiberState.READY ∧
          (th1.fibers f).m_state = FiberState.RUNNING) ∨
        (op = FiberOp.yield f ∧ (th.fibers f).m_state = FiberState.RUNNING ∧
          (th1.fibers f).m_state = FiberState.READY) ∨
        (op = FiberOp.entryReturn ∧ th.t_fiber = some f ∧
          (th.fibers f).m_state = FiberState.RUNNING ∧
          (th1.fibers f).m_state = FiberState.TERM)) ∧
    (∀ f, (th.fibers f).m_state = FiberState.READY →
      ∃ th1, th.step (FiberOp.resume f) = some th1 ∧
        (th1.fibers f).m_state = FiberState.RUNNING ∧ th1.t_fiber = some f) ∧
    (∀ f, (th.fibers f).m_state = FiberState.RUNNING →
      ∃ th1, th.step (FiberOp.yield f) = some th1 ∧
        (th1.fibers f).m_state = FiberState.READY) ∧
    (∀ f, th.t_fiber = some f →
      ∃ th1, th.step FiberOp.entryReturn = some th1 ∧
        (th1.fibers f).m_state = FiberState.TERM ∧ th1.swaps = th.swaps + 1) ∧
    (∀ f, (th.fibers f).m_state = FiberState.RUNNING ∨ (th.fibers f).m_state = FiberState.TERM →
      th.step (FiberOp.resume f) = none) ∧
    (∀ ops th1 f, th.run ops = some th1 → (th.fibers f).m_state = FiberState.TERM →
      (th1.fibers f).m_state = FiberState.TERM) := by
  refine ⟨?_, ?_, ?_, ?_, ?_, ?_⟩
  · intro op th1 hd h
    refine ⟨FiberThread.inv_step th th1 op hinv hd h, fun f => ?_⟩
    rcases FiberThread.step_cases th th1 op h with ⟨g, hop, hs, rfl⟩ | ⟨g, hop, hs, rfl⟩ |
        ⟨g, hop, hs, rfl⟩ | ⟨g, hop, hc, rfl⟩
    all_goals
      dsimp only
      by_cases hfg : f = g
      swap
      · left
        rw [Function.update_noteq hfg]
    · subst hfg
      right; left
      exact ⟨hop, hs, by simp only [Function.update_same]⟩
    · subst hfg
      right; right; left
      exact ⟨hop, hs, by simp only [Function.update_same]⟩
    · subst hfg
      left
      simp only [Function.update_same]
    · subst hfg
      right; right; right
      exact ⟨hop, hc, hinv.1 f hc, by simp only [Function.update_same]⟩
  · intro f hf
    simp only [FiberThread.step, Fiber.resume_ready _ hf]
    exact ⟨_, rfl, by simp only [Function.update_same], rfl⟩
  · intro f hf
    simp only [FiberThread.step, Fiber.yield_running _ hf]
    exact ⟨_, rfl, by simp only [Function.update_same]⟩
  · intro f hf
    simp only [FiberThread.step, hf, Fiber.MainFunc_eq]
    exact ⟨_, rfl, by simp only [Function.update_same], rfl⟩
  · intro f hf
    simp only [FiberThread.step]
    rw [Fiber.resume_not_ready]
    rcases hf with hf | hf <;> rw [hf] <;> decide
  · intro ops th1 f h hf
    exact FiberThread.run_term ops th th1 h f hf

theorem fiber_state_machine_witness :
    sampleThread.inv ∧
    (∀ f, (sampleThread.fibers f).m_state = FiberState.READY →
      ∃ th1, sampleThread.step (FiberOp.resume f) = some th1 ∧
        (th1.fibers f).m_state = FiberState.RUNNING ∧ th1.t_fiber = some f) :=
  ⟨FiberThread.inv_init _ _ (by intro s hs; cases hs; rfl),
   (fiber_state_machine sampleThread
      (FiberThread.inv_init _ _ (by intro s hs; cases hs; rfl))).2.1⟩

/-- C12 (counterexample): after coroutine 1 was resumed, returned from its
entry function and made its automatic yield, a further `yield` on it passes
the assertion and performs one more `swapcontext`. -/
theorem yield_after_final_yield_passes :
    ∃ th th1,
      sampleThread.run [FiberOp.resume 0, FiberOp.resume 1, FiberOp.entryReturn] = some th ∧
      (th.fibers 1).m_state = FiberState.TERM ∧
      th.step (FiberOp.yield 1) = some th1 ∧
      (th1.fibers 1).m_state = FiberState.TERM ∧
      th1.swaps = th.swaps + 1 :=
  ⟨_, _, rfl, rfl, rfl, rfl, rfl⟩

/-- C12 (amended): `yield` on a coroutine in state TERM, whether or not it has
made its final yield, passes the assertion, leaves the state TERM, makes the
peer coroutine current and performs one more `swapcontext`; `yield` fails its
assertion exactly on a coroutine in state READY. -/
theorem yield_on_term_switches_again (th : FiberThread) (f : Nat) :
    ((th.fibers f).m_state = FiberState.TERM →
      ∃ th1, th.step (FiberOp.yield f) = some th1 ∧
        (th1.fibers f).m_state = FiberState.TERM ∧
        th1.t_fiber = th.peer f ∧ th1.swaps = th.swaps + 1) ∧
    (th.step (FiberOp.yield f) = none ↔ (th.fibers f).m_state = FiberState.READY) := by
  constructor
  · intro hf
    simp only [FiberThread.step, Fiber.yield_term _ hf]
    exact ⟨_, rfl, by simp only [Function.update_same]; exact hf, rfl, rfl⟩
  · constructor
    · intro h
      cases hs : (th.fibers f).m_state with
      | READY => rfl
      | RUNNING =>
        simp only [FiberThread.step, Fiber.yield_running _ hs] at h
        cases h
      | TERM =>
        simp only [FiberThread.step, Fiber.yield_term _ hs] at h
        cases h
    · intro hf
      simp only [FiberThread.step, Fiber.yield_ready _ hf]

theorem yield_on_term_switches_again_witness :
    (finishedThread.fibers 1).m_state = FiberState.TERM ∧
    ∃ th1, finishedThread.step (FiberOp.yield 1) = some th1 ∧
      (th1.fibers 1).m_state = FiberState.TERM ∧
      th1.t_fiber = finishedThread.peer 1 ∧ th1.swaps = finishedThread.swaps + 1 :=
  ⟨rfl, (yield_on_term_switches_again finishedThread 1).1 rfl⟩

/-! ## Timer::reset -/

theorem add64_sub64_cancel (d p : Nat) (hd : d < W64) : add64 (sub64 d p) p = d := by
  unfold add64 sub64
  have hp : p % W64 < W64 := Nat.mod_lt _ (by unfold W64; decide)
  have e : p = W64 * (p / W64) + p % W64 := (Nat.div_add_mod p W64).symm
  rw [Nat.mod_eq_of_lt hd, Nat.mod_add_mod]
  have : d + (W64 - p % W64) + p = d + W64 * (p / W64 + 1) := by
    have : W64 * (p / W64 + 1) = W64 * (p / W64) + W64 := by ring
    omega
  rw [this, Nat.add_mul_mod_self_left, Nat.mod_eq_of_lt hd]

theorem add64_exact (a b : Nat) (h : a + b < W64) : add64 a b = a + b := by
  unfold add64
  exact Nat.mod_eq_of_lt h

theorem sub64_exact (d p : Nat) (hd : d < W64) (hp : p ≤ d) : sub64 d p = d - p := by
  unfold sub64
  have hp2 : p < W64 := lt_of_le_of_lt hp hd
  rw [Nat.mod_eq_of_lt hd, Nat.mod_eq_of_lt hp2]
  have : d + (W64 - p) = (d - p) + W64 := by omega
  rw [this, Nat.add_mod_right]
  exact Nat.mod_eq_of_lt (by omega)

theorem sampleTimers_wf : sampleTimers.wf := by
  refine ⟨by decide, by decide, ?_⟩
  intro x hx
  show x ∈ [5, 10, 7]
  by_cases h10 : x = 10
  · subst h10; decide
  by_cases h5 : x = 5
  · subst h5; decide
  by_cases h7 : x = 7
  · subst h7; decide
  exfalso
  simp [sampleTimers, h10, h5, h7, Timer.blank] at hx

theorem emptyCallbackTimers_wf : emptyCallbackTimers.wf :=
  wf_addTimer (TimerManager.init 0) (wf_init 0) 0 10 1000 none false (10, emptyCallbackTimers) rfl

/-- C13 (counterexample): `addTimer(1000, cb)` with an empty callback on a new
manager puts the timer (address 10, period 1000, deadline 1000) into the
queue; `reset(2000, true)` at clock reading 500 then returns false at the
guard `if(!m_cb)` and leaves the period, the deadline and the queue as they
were. -/
theorem reset_refuses_empty_callback :
    (TimerManager.init 0).addTimer 0 10 1000 none false = some (10, emptyCallbackTimers) ∧
    10 ∈ emptyCallbackTimers.m_timers ∧
    (emptyCallbackTimers.heap 10).m_ms = 1000 ∧
    (emptyCallbackTimers.heap 10).m_next = 1000 ∧
    (emptyCallbackTimers.reset 10 2000 true 500).1 = false ∧
    (emptyCallbackTimers.reset 10 2000 true 500).2.m_timers = [10] ∧
    ((emptyCallbackTimers.reset 10 2000 true 500).2.heap 10).m_ms = 1000 ∧
    ((emptyCallbackTimers.reset 10 2000 true 500).2.heap 10).m_next = 1000 := by
  refine ⟨rfl, ?_, ?_, ?_, ?_, ?_, ?_, ?_⟩ <;> decide

/-- C13 (amended): for a timer that is in the queue with period `p` and
deadline `d`.  When its callback is not empty, `Timer::reset(ms, from_now)`
returns true, leaves the queue with the same members, the timer among them,
and ordered; the period becomes `ms` and the deadline `now + ms` when
`from_now`, `(d - p) + ms` otherwise, both in `uint64_t` arithmetic and hence
exactly so when nothing wraps; the other members of the timer and all other
timers are untouched; and `reset(p, false)` changes nothing at all.  When its
callback is empty, `reset(p, false)` returns true, every other call returns
false, and nothing changes. -/
theorem reset_contract (tm : TimerManager) (hwf : tm.wf) (t ms now : Nat) (from_now : Bool)
    (hin : t ∈ tm.m_timers) (hd : (tm.heap t).m_next < W64) :
    ((tm.heap t).m_cb.isSome = true →
      (tm.reset t ms from_now now).1 = true ∧
      t ∈ (tm.reset t ms from_now now).2.m_timers ∧
      (∀ x, x ∈ (tm.reset t ms from_now now).2.m_timers ↔ x ∈ tm.m_timers) ∧
      (tm.reset t ms from_now now).2.wf ∧
      ((tm.reset t ms from_now now).2.heap t).m_ms = ms ∧
      ((tm.reset t ms from_now now).2.heap t).m_next =
        (if from_now then add64 now ms
         else add64 (sub64 (tm.heap t).m_next (tm.heap t).m_ms) ms) ∧
      (from_now = true → now + ms < W64 →
        ((tm.reset t ms from_now now).2.heap t).m_next = now + ms) ∧
      (from_now = false → (tm.heap t).m_ms ≤ (tm.heap t).m_next →
        (tm.heap t).m_next - (tm.heap t).m_ms + ms < W64 →
        ((tm.reset t ms from_now now).2.heap t).m_next =
          (tm.heap t).m_next - (tm.heap t).m_ms + ms) ∧
      ((tm.reset t ms from_now now).2.heap t).m_cb = (tm.heap t).m_cb ∧
      ((tm.reset t ms from_now now).2.heap t).m_recurring = (tm.heap t).m_recurring ∧
      (∀ x, x ≠ t → (tm.reset t ms from_now now).2.heap x = tm.heap x) ∧
      (ms = (tm.heap t).m_ms → from_now = false → (tm.reset t ms from_now now).2 = tm)) ∧
    ((tm.heap t).m_cb.isSome = false →
      tm.reset t ms from_now now =
        (decide (ms = (tm.heap t).m_ms ∧ from_now = false), tm)) := by
  have hsp := reset_spec tm hwf t ms from_now now
  have hwf2 := wf_reset tm hwf t ms from_now now
  refine ⟨fun hcb => ?_, fun hcb => ?_⟩
  swap
  · by_cases h : ms = (tm.heap t).m_ms ∧ from_now = false
    · rw [hsp.1 h, decide_eq_true h]
    · rw [hsp.2.1 h hcb, decide_eq_false h]
  have main : (tm.reset t ms from_now now).1 = true ∧
      (∀ x, x ∈ (tm.reset t ms from_now now).2.m_timers ↔ x ∈ tm.m_timers) ∧
      ((tm.reset t ms from_now now).2.heap t).m_ms = ms ∧
      ((tm.reset t ms from_now now).2.heap t).m_next =
        (if from_now then add64 now ms
         else add64 (sub64 (tm.heap t).m_next (tm.heap t).m_ms) ms) ∧
      ((tm.reset t ms from_now now).2.heap t).m_cb = (tm.heap t).m_cb ∧
      ((tm.reset t ms from_now now).2.heap t).m_recurring = (tm.heap t).m_recurring ∧
      (∀ x, x ≠ t → (tm.reset t ms from_now now).2.heap x = tm.heap x) ∧
      (ms = (tm.heap t).m_ms → from_now = false → (tm.reset t ms from_now now).2 = tm) := by
    by_cases h : ms = (tm.heap t).m_ms ∧ from_now = false
    · rw [hsp.1 h]
      obtain ⟨h1, h2⟩ := h
      subst h2
      refine ⟨rfl, fun x => Iff.rfl, h1.symm, ?_, rfl, rfl, fun x _ => rfl, fun _ _ => rfl⟩
      rw [h1]
      simp only [Bool.false_eq_true, if_false]
      exact (add64_sub64_cancel _ _ hd).symm
    · rw [hsp.2.2 h hcb]
      obtain ⟨f1, f2, f3⟩ := addTimerPtr_fields
        { tm with
          heap := store tm.heap t
            { tm.heap t with
              m_ms := ms,
              m_next := add64
                (if from_now then now else sub64 (tm.heap t).m_next (tm.heap t).m_ms) ms },
          m_timers := tm.m_timers.erase t } t
      dsimp only at f1 f2 f3 ⊢
      rw [f1, f3]
      refine ⟨rfl, ?_, ?_, ?_, ?_, ?_, ?_, ?_⟩
      · intro x
        rw [mem_setInsert]
        constructor
        · rintro (rfl | hx)
          · exact hin
          · exact List.mem_of_mem_erase hx
        · intro hx
          by_cases e : x = t
          · exact Or.inl e
          · exact Or.inr ((List.mem_erase_of_ne e).mpr hx)
      · rw [store_same]
      · rw [store_same]
        cases from_now <;> simp
      · rw [store_same]
      · rw [store_same]
      · intro x hx
        rw [store_other _ _ _ _ hx]
      · intro h1 h2
        exact absurd ⟨h1, h2⟩ h
  obtain ⟨m1, m2, m3, m4, m5, m6, m7, m8⟩ := main
  refine ⟨m1, (m2 t).mpr hin, m2, hwf2, m3, m4, ?_, ?_, m5, m6, m7, m8⟩
  · intro hf hlt
    rw [m4, if_pos hf]
    exact add64_exact _ _ hlt
  · intro hf hle hlt
    rw [m4, if_neg (by rw [hf]; decide), sub64_exact _ _ hd hle]
    exact add64_exact _ _ hlt

/-- Witness for C13: timer 10 of the sample manager (period 1000, callback set)
is reset to 2000 ms from the clock reading 1500; the timer without a callback
of `emptyCallbackTimers` refuses the same call. -/
theorem reset_contract_witness :
    10 ∈ sampleTimers.m_timers ∧
    (sampleTimers.reset 10 2000 true 1500).1 = true ∧
    10 ∈ (sampleTimers.reset 10 2000 true 1500).2.m_timers ∧
    ((sampleTimers.reset 10 2000 true 1500).2.heap 10).m_ms = 2000 ∧
    ((sampleTimers.reset 10 2000 true 1500).2.heap 10).m_next = 3500 ∧
    10 ∈ emptyCallbackTimers.m_timers ∧
    emptyCallbackTimers.reset 10 2000 true 1500 = (false, emptyCallbackTimers) :=
  ⟨by decide,
   ((reset_contract sampleTimers sampleTimers_wf 10 2000 1500 true (by decide)
      (by decide)).1 rfl).1,
   ((reset_contract sampleTimers sampleTimers_wf 10 2000 1500 true (by decide)
      (by decide)).1 rfl).2.1,
   ((reset_contract sampleTimers sampleTimers_wf 10 2000 1500 true (by decide)
      (by decide)).1 rfl).2.2.2.2.1,
   ((reset_contract sampleTimers sampleTimers_wf 10 2000 1500 true (by decide)
      (by decide)).1 rfl).2.2.2.2.2.2.1 rfl (by decide),
   by decide,
   (reset_contract emptyCallbackTimers emptyCallbackTimers_wf 10 2000 1500 true (by decide)
      (by decide)).2 rfl⟩

/-! ## Claims about the descriptor registry -/

/-- A slot that holds a context is returned as it is, whatever `auto_create`. -/
theorem FdManager.get_present (m : FdManager) (fd : Nat) (ac : Bool) (k : KernelFd) (c : FdCtx)
    (h : m.m_datas.get? fd = some (some c)) :
    m.get (fd : Int) ac k = some (some c, m, k) := by
  have hlt : fd < m.m_datas.length := by
    by_contra hc
    rw [List.get?_eq_none.mpr (by omega)] at h
    cases h
  unfold FdManager.get
  rw [if_neg (by omega), if_neg (by omega), if_neg (by omega)]
  simp only [Int.toNat_ofNat, h, Option.isSome_some, Bool.true_or, if_true]

theorem timeout_ms_roundtrip (v : Int) (h0 : 0 ≤ v) (h1 : v < 2147483648 * 1000) :
    toUInt64 (int64ToInt (Int.tdiv v 1000) * 1000 +
      Int.tdiv (int64ToInt (Int.tmod v 1000 * 1000)) 1000) = v.toNat := by
  rw [Int.tdiv_eq_ediv h0 (by decide), Int.tmod_eq_emod h0 (by decide)]
  have e1 : int64ToInt (v / 1000) = v / 1000 := by
    unfold int64ToInt toInt32 toUInt64 W32
    have : 0 ≤ v / 1000 := by omega
    have : v / 1000 < 2147483648 := by omega
    omega
  have e2 : int64ToInt (v % 1000 * 1000) = v % 1000 * 1000 := by
    unfold int64ToInt toInt32 toUInt64 W32
    have : 0 ≤ v % 1000 := by omega
    have : v % 1000 < 1000 := by omega
    omega
  rw [e1, e2, Int.tdiv_eq_ediv (by omega) (by decide)]
  unfold toUInt64
  omega

theorem toInt64_toNat (v : Int) (h0 : 0 ≤ v) (h1 : v < 9223372036854775808) :
    toInt64 v.toNat = v := by
  unfold toInt64 W64
  omega

theorem FdManager.get_set_present (m : FdManager) (fd : Nat) (ac : Bool) (k : KernelFd)
    (c d : FdCtx) (h : m.m_datas.get? fd = some (some c)) :
    FdManager.get { m_datas := m.m_datas.set fd (some d) } (fd : Int) ac k =
      some (some d, { m_datas := m.m_datas.set fd (some d) }, k) := by
  apply FdManager.get_present
  have hlt : fd < m.m_datas.length := by
    by_contra hc
    rw [List.get?_eq_none.mpr (by omega)] at h
    cases h
  simp [List.getElem?_set, hlt]

/-- C14 (counterexample): on a new registry `get(-1, true)` and
`get(-1, false)` return a null pointer to the caller; nothing aborts and the
registry is as before. -/
theorem get_minus_one_returns_null :
    FdManager.new.get (-1) true { statOk := true, isSock := true, flags := 2 } =
      some (none, FdManager.new, { statOk := true, isSock := true, flags := 2 }) ∧
    FdManager.new.get (-1) false { statOk := true, isSock := true, flags := 2 } =
      some (none, FdManager.new, { statOk := true, isSock := true, flags := 2 }) :=
  ⟨rfl, rfl⟩

/-- C14 (amended): `FdManager::get` called with `fd = -1`, for either value of
`auto_create` and any registry, returns a null pointer to the caller through
its first statement; it does not abort, creates no context and leaves the
registry and the descriptor unchanged. -/
theorem get_minus_one_contract (m : FdManager) (auto_create : Bool) (k : KernelFd) :
    m.get (-1) auto_create k = some (none, m, k) := by
  unfold FdManager.get
  rw [if_pos rfl]

/-- C15: with hooking enabled and the descriptor `fd` present in the registry
with context `c`, for every `v` with `0 <= v < 2^31 * 1000`,
`Socket::setRecvTimeout(v)` leaves the registry with `c` changed in the receive
timeout only, which is `v`, so that `getRecvTimeout()` returns `v` and
`getSendTimeout()` returns what it returned before; and symmetrically for
`setSendTimeout(v)`. -/
theorem socket_timeout_roundtrip (m : FdManager) (k : KernelFd) (fd : Nat) (ac : Bool)
    (c : FdCtx) (v : Int) (hc : m.m_datas.get? fd = some (some c))
    (h0 : 0 ≤ v) (h1 : v < 2147483648 * 1000) :
    (Socket.setRecvTimeout true ac m k fd v =
        some { m_datas := m.m_datas.set fd (some { c with m_recvTimeout := v.toNat }) } ∧
      Socket.getRecvTimeout ac
        { m_datas := m.m_datas.set fd (some { c with m_recvTimeout := v.toNat }) } k fd =
        some v ∧
      Socket.getSendTimeout ac
        { m_datas := m.m_datas.set fd (some { c with m_recvTimeout := v.toNat }) } k fd =
        Socket.getSendTimeout ac m k fd) ∧
    (Socket.setSendTimeout true ac m k fd v =
        some { m_datas := m.m_datas.set fd (some { c with m_sendTimeout := v.toNat }) } ∧
      Socket.getSendTimeout ac
        { m_datas := m.m_datas.set fd (some { c with m_sendTimeout := v.toNat }) } k fd =
        some v ∧
      Socket.getRecvTimeout ac
        { m_datas := m.m_datas.set fd (some { c with m_sendTimeout := v.toNat }) } k fd =
        Socket.getRecvTimeout ac m k fd) := by
  have hr := timeout_ms_roundtrip v h0 h1
  have hi := toInt64_toNat v h0 (by omega)
  have hg := FdManager.get_present m fd ac k c hc
  refine ⟨⟨?_, ?_, ?_⟩, ⟨?_, ?_, ?_⟩⟩
  · unfold Socket.setRecvTimeout hook_setsockopt
    simp only [Bool.not_true, Bool.false_eq_true, if_false, true_or, and_self, if_true, hg, hr,
      Int.toNat_ofNat]
    rfl
  · unfold Socket.getRecvTimeout
    rw [FdManager.get_set_present m fd ac k c _ hc]
    simp only [FdCtx.getTimeout, if_true, hi]
  · unfold Socket.getSendTimeout
    rw [FdManager.get_set_present m fd ac k c _ hc, hg]
    rfl
  · unfold Socket.setSendTimeout hook_setsockopt
    simp only [Bool.not_true, Bool.false_eq_true, if_false, or_true, and_self, if_true, hg, hr,
      Int.toNat_ofNat]
    rfl
  · unfold Socket.getSendTimeout
    rw [FdManager.get_set_present m fd ac k c _ hc]
    have hne : ¬ SO_SNDTIMEO = SO_RCVTIMEO := by decide
    simp only [FdCtx.getTimeout, if_neg hne, hi]
  · unfold Socket.getRecvTimeout
    rw [FdManager.get_set_present m fd ac k c _ hc, hg]
    rfl

theorem socket_timeout_roundtrip_witness :
    sampleRegistry.m_datas.get? 3 = some (some sampleCtx) ∧
    Socket.setRecvTimeout true false sampleRegistry sampleKernelSocket 3 2500 =
      some { m_datas := sampleRegistry.m_datas.set 3
               (some { sampleCtx with m_recvTimeout := 2500 }) } ∧
    Socket.getRecvTimeout false
      { m_datas := sampleRegistry.m_datas.set 3
          (some { sampleCtx with m_recvTimeout := (2500 : Int).toNat }) }
      sampleKernelSocket 3 = some 2500 :=
  ⟨rfl,
   (socket_timeout_roundtrip sampleRegistry sampleKernelSocket 3 false sampleCtx 2500 rfl
      (by decide) (by decide)).1.1,
   (socket_timeout_roundtrip sampleRegistry sampleKernelSocket 3 false sampleCtx 2500 rfl
      (by decide) (by decide)).1.2.1⟩

/-! ## Claims about the scoped lock guards -/

theorem pairs_succ (acq : MutexCall) (n : Nat) :
    (List.replicate (n + 1) [acq, MutexCall.unlock]).flatten =
      (List.replicate n [acq, MutexCall.unlock]).flatten ++ [acq, MutexCall.unlock] := by
  rw [List.replicate_succ', List.flatten_append]
  simp

/-- While a guard is used, the calls made so far are whole acquire/release
pairs, followed by one acquire exactly when `m_locked` is set. -/
theorem ScopedLockImpl.run_pairs (acq : MutexCall) (ops : List GuardOp) (g : ScopedLockImpl)
    (n : Nat)
    (hg : g.calls = (List.replicate n [acq, MutexCall.unlock]).flatten ++
      (if g.m_locked then [acq] else [])) :
    ∃ k, n ≤ k ∧ (ScopedLockImpl.run acq g ops).calls =
      (List.replicate k [acq, MutexCall.unlock]).flatten ++
        (if (ScopedLockImpl.run acq g ops).m_locked then [acq] else []) := by
  induction ops generalizing g n with
  | nil => exact ⟨n, le_refl n, hg⟩
  | cons op ops ih =>
    cases op with
    | lock =>
      unfold ScopedLockImpl.run
      cases hl : g.m_locked with
      | true =>
        have e : ScopedLockImpl.lock acq g = g := by
          unfold ScopedLockImpl.lock
          simp [hl]
        rw [e]
        exact ih g n hg
      | false =>
        refine ih _ n ?_
        unfold ScopedLockImpl.lock
        rw [hl] at hg
        simp only [hl, Bool.not_false, if_true]
        rw [hg]
        simp
    | unlock =>
      unfold ScopedLockImpl.run
      cases hl : g.m_locked with
      | false =>
        have e : g.unlock = g := by
          unfold ScopedLockImpl.unlock
          simp [hl]
        rw [e]
        exact ih g n hg
      | true =>
        obtain ⟨k, hk, h⟩ := ih g.unlock (n + 1) (by
          unfold ScopedLockImpl.unlock
          rw [hl] at hg
          simp only [hl, if_true]
          rw [hg, pairs_succ]
          simp)
        exact ⟨k, by omega, h⟩

/-- With `m_locked` reading false on entry, the calls over the life of a guard
are one or more whole acquire/release pairs. -/
theorem ScopedLockImpl.lifetime_false (acq : MutexCall) (ops : List GuardOp) :
    ∃ k, 1 ≤ k ∧ ScopedLockImpl.lifetime acq false ops =
      (List.replicate k [acq, MutexCall.unlock]).flatten := by
  unfold ScopedLockImpl.lifetime ScopedLockImpl.destroy
  obtain ⟨k, _, h⟩ := ScopedLockImpl.run_pairs acq ops (ScopedLockImpl.new acq false) 0 (by
    simp [ScopedLockImpl.new, ScopedLockImpl.lock])
  cases hl : (ScopedLockImpl.run acq (ScopedLockImpl.new acq false) ops).m_locked with
  | true =>
    refine ⟨k + 1, by omega, ?_⟩
    unfold ScopedLockImpl.unlock
    rw [hl] at h
    simp only [hl, if_true]
    rw [h, pairs_succ]
    simp
  | false =>
    unfold ScopedLockImpl.unlock
    rw [hl] at h
    simp only [hl, Bool.false_eq_true, if_false] at h ⊢
    simp only [List.append_nil] at h
    refine ⟨k, ?_, h⟩
    -- the constructor's acquire is in the list, so there is at least one pair
    by_contra hk
    have hk0 : k = 0 := by omega
    subst hk0
    have : ∀ (ops : List GuardOp) (g : ScopedLockImpl), g.calls ≠ [] →
        (ScopedLockImpl.run acq g ops).calls ≠ [] := by
      intro ops
      induction ops with
      | nil => intro g hg; exact hg
      | cons op ops ih =>
        intro g hg
        cases op with
        | lock =>
          unfold ScopedLockImpl.run
          apply ih
          unfold ScopedLockImpl.lock
          split <;> simp [hg]
        | unlock =>
          unfold ScopedLockImpl.run
          apply ih
          unfold ScopedLockImpl.unlock
          split <;> simp [hg]
    exact this ops (ScopedLockImpl.new acq false)
      (by simp [ScopedLockImpl.new, ScopedLockImpl.lock]) (by rw [h]; rfl)

/-- C19: when `m_locked` reads true on entry to the constructor, constructing
a guard makes no call on the mutex, and a guard that is constructed and
destroyed makes the single call `unlock`, for each of the three guards; when
it reads false, the calls over the life of a guard are one or more whole
acquire/release pairs. -/
theorem scoped_lock_constructor_skips_acquire (acq : MutexCall) :
    (ScopedLockImpl.new acq true).calls = [] ∧
    ScopedLockImpl.lifetime acq true [] = [MutexCall.unlock] ∧
    (ScopedLockImpl.new acq false).calls = [acq] ∧
    (∀ ops, ∃ k, 1 ≤ k ∧ ScopedLockImpl.lifetime acq false ops =
      (List.replicate k [acq, MutexCall.unlock]).flatten) :=
  ⟨rfl, rfl, rfl, ScopedLockImpl.lifetime_false acq⟩

/-! ## Claims about Env::init -/

theorem pendingBefore_cons (first : Bool) (a : List Char) (rest : List (List Char)) (j : Nat) :
    pendingBefore first (a :: rest) (j + 1) = pendingBefore (isKey a) rest j := by
  cases j with
  | zero => simp [pendingBefore]
  | succ k => simp [pendingBefore]

theorem valueAfter_cons (a : List Char) (rest : List (List Char)) (j : Nat) :
    valueAfter (a :: rest) (j + 1) = valueAfter rest j := by
  simp [valueAfter]

/-- When the loop answers false. -/
theorem Env.initLoop_false_iff (args : List (List Char)) (e : Env) (nk : Option (List Char)) :
    (Env.initLoop e nk args).1 = false ↔
      ∃ i a, args.get? i = some a ∧
        (a = ['-'] ∨ (a.head? ≠ some '-' ∧ pendingBefore nk.isSome args i = false)) := by
  induction args generalizing e nk with
  | nil =>
    unfold Env.initLoop
    constructor
    · intro h
      cases nk <;> simp at h
    · rintro ⟨i, a, h, _⟩
      simp at h
  | cons arg rest ih =>
    unfold Env.initLoop
    by_cases hd : arg.head? = some '-'
    · rw [if_pos hd]
      by_cases hl : arg.length > 1
      · rw [if_pos hl]
        dsimp only
        rw [ih]
        have hk : isKey arg = true := by simp [isKey, hd, hl]
        constructor
        · rintro ⟨i, a, h, hc⟩
          refine ⟨i + 1, a, by simpa using h, ?_⟩
          rw [pendingBefore_cons, hk]
          simpa using hc
        · rintro ⟨i, a, h, hc⟩
          cases i with
          | zero =>
            simp only [List.get?_cons_zero, Option.some.injEq] at h
            subst h
            rcases hc with hc | ⟨hc, _⟩
            · subst hc
              simp at hl
            · exact absurd hd hc
          | succ j =>
            refine ⟨j, a, by simpa using h, ?_⟩
            rw [pendingBefore_cons, hk] at hc
            simpa using hc
      · rw [if_neg hl]
        simp only [true_iff]
        refine ⟨0, arg, rfl, Or.inl ?_⟩
        cases arg with
        | nil => simp at hd
        | cons c tl =>
          simp only [List.head?_cons, Option.some.injEq] at hd
          subst hd
          cases tl with
          | nil => rfl
          | cons _ _ => simp at hl
    · rw [if_neg hd]
      have hk : isKey arg = false := by simp [isKey, hd]
      cases nk with
      | none =>
        simp only [true_iff]
        exact ⟨0, arg, rfl, Or.inr ⟨hd, rfl⟩⟩
      | some k =>
        dsimp only
        rw [ih]
        constructor
        · rintro ⟨i, a, h, hc⟩
          refine ⟨i + 1, a, by simpa using h, ?_⟩
          rw [pendingBefore_cons, hk]
          simpa using hc
        · rintro ⟨i, a, h, hc⟩
          cases i with
          | zero =>
            simp only [List.get?_cons_zero, Option.some.injEq] at h
            subst h
            rcases hc with hc | ⟨_, hc⟩
            · subst hc
              simp at hd
            · simp [pendingBefore] at hc
          | succ j =>
            refine ⟨j, a, by simpa using h, ?_⟩
            rw [pendingBefore_cons, hk] at hc
            simpa using hc

/-- An argument that starts with a dash is the dash followed by its tail. -/
theorem dash_cons_tail (arg : List Char) (hd : arg.head? = some '-') : arg = '-' :: arg.tail := by
  cases arg with
  | nil => simp at hd
  | cons c tl =>
    simp only [List.head?_cons, Option.some.injEq] at hd
    subst hd
    rfl

/-- Every key that was in the map, was pending or occurs among the arguments
is in the map after a loop that answers true. -/
theorem Env.initLoop_has (args : List (List Char)) (e e1 : Env) (nk : Option (List Char))
    (h : Env.initLoop e nk args = (true, e1)) (k : List Char)
    (hk : (e.m_args k).isSome = true ∨ nk = some k ∨ ∃ i, args.get? i = some ('-' :: k)) :
    (e1.m_args k).isSome = true := by
  induction args generalizing e nk with
  | nil =>
    unfold Env.initLoop at h
    rcases hk with hk | hk | ⟨i, hi⟩
    · cases nk with
      | none => cases h; exact hk
      | some k0 =>
        cases h
        simp only [Env.add]
        split
        · rfl
        · exact hk
    · subst hk
      cases h
      simp [Env.add]
    · simp at hi
  | cons arg rest ih =>
    unfold Env.initLoop at h
    by_cases hd : arg.head? = some '-'
    · rw [if_pos hd] at h
      by_cases hl : arg.length > 1
      · rw [if_pos hl] at h
        dsimp only at h
        refine ih _ _ h ?_
        rcases hk with hk | hk | ⟨i, hi⟩
        · left
          cases nk with
          | none => exact hk
          | some k0 =>
            simp only [Env.add]
            split
            · rfl
            · exact hk
        · subst hk
          left
          simp [Env.add]
        · cases i with
          | zero =>
            simp only [List.get?_cons_zero, Option.some.injEq] at hi
            subst hi
            right; left
            rfl
          | succ j =>
            right; right
            exact ⟨j, by simpa using hi⟩
      · rw [if_neg hl] at h
        cases h
    · rw [if_neg hd] at h
      cases nk with
      | none => cases h
      | some k0 =>
        dsimp only at h
        refine ih _ _ h ?_
        rcases hk with hk | hk | ⟨i, hi⟩
        · left
          simp only [Env.add]
          split
          · rfl
          · exact hk
        · cases hk
          left
          simp [Env.add]
        · cases i with
          | zero =>
            simp only [List.get?_cons_zero, Option.some.injEq] at hi
            subst hi
            simp at hd
          | succ j =>
            right; right
            exact ⟨j, by simpa using hi⟩

/-- The values in the map after a loop that answers true. -/
theorem Env.initLoop_values (args : List (List Char)) (e e1 : Env) (nk : Option (List Char))
    (h : Env.initLoop e nk args = (true, e1)) :
    (∀ i k, args.get? i = some ('-' :: k) →
      (∀ j, i < j → args.get? j ≠ some ('-' :: k)) →
      e1.m_args k = some (valueAfter args i)) ∧
    (∀ k0, nk = some k0 → (∀ j, args.get? j ≠ some ('-' :: k0)) →
      e1.m_args k0 = some (match args.head? with
        | some a => if a.head? = some '-' then [] else a
        | none => [])) ∧
    (∀ k, (∀ j, args.get? j ≠ some ('-' :: k)) → nk ≠ some k → e1.m_args k = e.m_args k) := by
  induction args generalizing e nk with
  | nil =>
    unfold Env.initLoop at h
    refine ⟨?_, ?_, ?_⟩
    · intro i k hi
      simp at hi
    · intro k0 hk _
      subst hk
      cases h
      simp [Env.add]
    · intro k _ hne
      cases nk with
      | none => cases h; rfl
      | some k0 =>
        cases h
        have : k ≠ k0 := fun e => hne (by rw [e])
        simp [Env.add, this]
  | cons arg rest ih =>
    unfold Env.initLoop at h
    by_cases hd : arg.head? = some '-'
    · rw [if_pos hd] at h
      by_cases hl : arg.length > 1
      · rw [if_pos hl] at h
        dsimp only at h
        obtain ⟨i1, i2, i3⟩ := ih _ _ h
        have harg := dash_cons_tail arg hd
        refine ⟨?_, ?_, ?_⟩
        · intro i k hi hlast
          cases i with
          | zero =>
            simp only [List.get?_cons_zero, Option.some.injEq] at hi
            have hk : arg.tail = k := by rw [hi]; rfl
            rw [i2 k (by rw [hk]) (by
              intro j hj
              exact hlast (j + 1) (by omega) (by simpa using hj))]
            simp only [valueAfter, zero_add]
            cases rest with
            | nil => rfl
            | cons b bs => rfl
          | succ j =>
            rw [valueAfter_cons]
            refine i1 j k (by simpa using hi) ?_
            intro j2 hj2 hc
            exact hlast (j2 + 1) (by omega) (by simpa using hc)
        · intro k0 hk hno
          subst hk
          have hne : arg.tail ≠ k0 := by
            intro e
            apply hno 0
            rw [← e]
            simpa using harg
          rw [i3 k0 (fun j hc => hno (j + 1) (by simpa using hc))
            (by intro e; exact hne (Option.some.inj e))]
          simp [Env.add, hd]
        · intro k hno hne
          have hne2 : arg.tail ≠ k := by
            intro e
            apply hno 0
            rw [← e]
            simpa using harg
          rw [i3 k (fun j hc => hno (j + 1) (by simpa using hc))
            (by intro e; exact hne2 (Option.some.inj e))]
          cases nk with
          | none => rfl
          | some k0 =>
            have : k ≠ k0 := fun e => hne (by rw [e])
            simp [Env.add, this]
      · rw [if_neg hl] at h
        cases h
    · rw [if_neg hd] at h
      cases nk with
      | none => cases h
      | some k0 =>
        dsimp only at h
        obtain ⟨i1, i2, i3⟩ := ih _ _ h
        refine ⟨?_, ?_, ?_⟩
        · intro i k hi hlast
          cases i with
          | zero =>
            simp only [List.get?_cons_zero, Option.some.injEq] at hi
            subst hi
            simp at hd
          | succ j =>
            rw [valueAfter_cons]
            refine i1 j k (by simpa using hi) ?_
            intro j2 hj2 hc
            exact hlast (j2 + 1) (by omega) (by simpa using hc)
        · intro k1 hk hno
          cases hk
          rw [i3 k0 (fun j hc => hno (j + 1) (by simpa using hc)) (by simp)]
          simp [Env.add, hd]
        · intro k hno hne
          rw [i3 k (fun j hc => hno (j + 1) (by simpa using hc)) (by simp)]
          have : k ≠ k0 := fun e => hne (by rw [e])
          simp [Env.add, this]

/-- C20: for every argument vector with a program name, `Env::init` returns;
it returns false iff some argument after `argv[0]` is exactly "-" or some
argument that does not start with a dash has no pending key immediately before
it; and when it returns true, every argument "-k" makes `has(k)` true, and
`get(k)` is the value of the last occurrence of "-k": the next argument if
there is one and it does not start with a dash, the empty string otherwise. -/
theorem env_init_contract (e : Env) (program : List Char) (args : List (List Char)) :
    ∃ r e1, e.init (program :: args) = some (r, e1) ∧
      (r = false ↔
        ∃ i a, args.get? i = some a ∧
          (a = ['-'] ∨ (a.head? ≠ some '-' ∧ pendingBefore false args i = false))) ∧
      (r = true →
        (∀ i k, args.get? i = some ('-' :: k) → e1.has k = true) ∧
        (∀ i k, args.get? i = some ('-' :: k) →
          (∀ j, i < j → args.get? j ≠ some ('-' :: k)) →
          ∀ d, e1.get k d = valueAfter args i)) := by
  refine ⟨(Env.initLoop { e with m_program := program } none args).1,
    (Env.initLoop { e with m_program := program } none args).2, rfl, ?_, ?_⟩
  · exact Env.initLoop_false_iff args _ none
  · intro hr
    have h : Env.initLoop { e with m_program := program } none args =
        (true, (Env.initLoop { e with m_program := program } none args).2) := by
      rw [← hr]
    refine ⟨?_, ?_⟩
    · intro i k hi
      unfold Env.has
      exact Env.initLoop_has args _ _ none h k (Or.inr (Or.inr ⟨i, hi⟩))
    · intro i k hi hlast d
      unfold Env.get
      rw [(Env.initLoop_values args _ _ none h).1 i k hi hlast]

/-! ## ByteArray: write, read and setPosition -/

theorem div_mod_unique (B c r : Nat) (h : r < B) : (c * B + r) / B = c ∧ (c * B + r) % B = r := by
  have hB : 0 < B := by omega
  constructor
  · rw [Nat.add_comm, Nat.add_mul_div_right _ _ hB, Nat.div_eq_of_lt h, Nat.zero_add]
  · rw [Nat.add_comm, Nat.add_mul_mod_self_right, Nat.mod_eq_of_lt h]

theorem memcpy_in (mem : Nat → Nat) (dst : Nat) (src : List Nat) (a : Nat)
    (h1 : dst ≤ a) (h2 : a < dst + src.length) : memcpy mem dst src a = src.getD (a - dst) 0 := by
  unfold memcpy
  rw [if_pos ⟨h1, h2⟩]

theorem memcpy_out (mem : Nat → Nat) (dst : Nat) (src : List Nat) (a : Nat)
    (h : a < dst ∨ dst + src.length ≤ a) : memcpy mem dst src a = mem a := by
  unfold memcpy
  rw [if_neg (by omega)]

theorem memread_length (mem : Nat → Nat) (src n : Nat) : (memread mem src n).length = n := by
  simp [memread]

theorem memread_append (mem : Nat → Nat) (src n m : Nat) :
    memread mem src n ++ memread mem (src + n) m = memread mem src (n + m) := by
  unfold memread
  rw [List.range_add, List.map_append, List.map_map]
  congr 1
  apply List.map_congr_left
  intro k _
  simp [Nat.add_assoc]

theorem memcpy_nil (mem : Nat → Nat) (dst : Nat) : memcpy mem dst [] = mem := by
  funext a
  unfold memcpy
  rw [if_neg]
  simp

theorem memcpy_split (mem : Nat → Nat) (dst k : Nat) (buf : List Nat) (hk : k ≤ buf.length) :
    memcpy (memcpy mem dst (buf.take k)) (dst + k) (buf.drop k) = memcpy mem dst buf := by
  funext a
  unfold memcpy
  simp only [List.length_take, List.length_drop, Nat.min_eq_left hk]
  by_cases h1 : dst + k ≤ a ∧ a < dst + k + (buf.length - k)
  · rw [if_pos h1, if_pos (by omega)]
    rw [List.getD_eq_getElem?_getD, List.getD_eq_getElem?_getD, List.getElem?_drop]
    congr 2
    omega
  · rw [if_neg h1]
    by_cases h2 : dst ≤ a ∧ a < dst + k
    · rw [if_pos h2, if_pos (by omega)]
      rw [List.getD_eq_getElem?_getD, List.getD_eq_getElem?_getD, List.getElem?_take]
      rw [if_pos (by omega)]
    · rw [if_neg h2, if_neg (by omega)]

theorem succ_mul_eq (c B : Nat) : (c + 1) * B = c * B + B := by ring

/-- The loop of `write` copies the whole buffer to the current position,
node by node. -/
theorem ByteArray.writeLoop_spec (fuel : Nat) (b : ByteArray) (npos : Nat) (buf : List Nat)
    (hB : 0 < b.m_baseSize) (hn : npos < b.m_baseSize)
    (hp : b.m_position = b.m_cur * b.m_baseSize + npos)
    (hroom : b.m_position + buf.length ≤ b.nodes * b.m_baseSize)
    (hfuel : buf.length < fuel) :
    ByteArray.writeLoop fuel b npos (b.m_baseSize - npos) buf =
      some { b with mem := memcpy b.mem b.m_position buf,
                    m_position := b.m_position + buf.length,
                    m_cur := (b.m_position + buf.length) / b.m_baseSize } := by
  induction fuel generalizing b npos buf with
  | zero => omega
  | succ fuel ih =>
    obtain ⟨B, pos, cap, sz, en, nodes, cur, mem⟩ := b
    dsimp only at hB hn hp hroom ⊢
    unfold ByteArray.writeLoop
    dsimp only
    by_cases h0 : buf.length = 0
    · rw [if_pos h0]
      have hb : buf = [] := List.length_eq_zero.mp h0
      subst hb
      have hc : pos / B = cur := by
        rw [hp]
        exact (div_mod_unique B cur npos hn).1
      simp only [List.length_nil, Nat.add_zero, memcpy_nil, hc]
    · rw [if_neg h0]
      have hcur : cur < nodes := by
        have : cur * B < nodes * B := by omega
        exact Nat.lt_of_mul_lt_mul_right this
      rw [if_neg (by omega)]
      by_cases h1 : B - npos ≥ buf.length
      · rw [if_pos h1]
        have hc : (pos + buf.length) / B = if B = npos + buf.length then cur + 1 else cur := by
          by_cases h2 : B = npos + buf.length
          · rw [if_pos h2]
            have : pos + buf.length = (cur + 1) * B + 0 := by
              rw [succ_mul_eq]; omega
            rw [this]
            exact (div_mod_unique B (cur + 1) 0 hB).1
          · rw [if_neg h2]
            have : pos + buf.length = cur * B + (npos + buf.length) := by omega
            rw [this]
            exact (div_mod_unique B cur (npos + buf.length) (by omega)).1
        rw [hc, ← hp]
      · rw [if_neg h1]
        have hs := succ_mul_eq cur B
        have hcur2 : cur + 1 < nodes := by
          have : (cur + 1) * B < nodes * B := by omega
          exact Nat.lt_of_mul_lt_mul_right this
        rw [if_neg (by omega)]
        have := ih
          { m_baseSize := B, m_position := pos + (B - npos), m_capacity := cap, m_size := sz,
            m_endian := en, nodes := nodes, m_cur := cur + 1,
            mem := memcpy mem (cur * B + npos) (buf.take (B - npos)) }
          0 (buf.drop (B - npos)) hB hB (by dsimp only; omega)
          (by dsimp only; rw [List.length_drop]; omega)
          (by rw [List.length_drop]; omega)
        dsimp only at this
        rw [Nat.sub_zero] at this
        rw [this, ← hp, memcpy_split mem pos (B - npos) buf (by omega)]
        rw [List.length_drop]
        have e : pos + (B - npos) + (buf.length - (B - npos)) = pos + buf.length := by omega
        rw [e]

/-- The loop of `read` copies `size` bytes from the current position on, node
by node. -/
theorem ByteArray.readLoop_spec (fuel : Nat) (b : ByteArray) (npos size : Nat) (out : List Nat)
    (hB : 0 < b.m_baseSize) (hn : npos < b.m_baseSize)
    (hp : b.m_position = b.m_cur * b.m_baseSize + npos)
    (hroom : b.m_position + size ≤ b.nodes * b.m_baseSize)
    (hfuel : size < fuel) :
    ByteArray.readLoop fuel b npos (b.m_baseSize - npos) size out =
      some (out ++ memread b.mem b.m_position size,
            { b with m_position := b.m_position + size,
                     m_cur := (b.m_position + size) / b.m_baseSize }) := by
  induction fuel generalizing b npos size out with
  | zero => omega
  | succ fuel ih =>
    obtain ⟨B, pos, cap, sz, en, nodes, cur, mem⟩ := b
    dsimp only at hB hn hp hroom ⊢
    unfold ByteArray.readLoop
    dsimp only
    by_cases h0 : size = 0
    · rw [if_pos h0]
      subst h0
      have hc : pos / B = cur := by
        rw [hp]
        exact (div_mod_unique B cur npos hn).1
      simp only [Nat.add_zero, hc, memread, List.range_zero, List.map_nil, List.append_nil]
    · rw [if_neg h0]
      have hcur : cur < nodes := by
        have : cur * B < nodes * B := by omega
        exact Nat.lt_of_mul_lt_mul_right this
      rw [if_neg (by omega)]
      by_cases h1 : B - npos ≥ size
      · rw [if_pos h1]
        have hc : (pos + size) / B = if B = npos + size then cur + 1 else cur := by
          by_cases h2 : B = npos + size
          · rw [if_pos h2]
            have : pos + size = (cur + 1) * B + 0 := by
              rw [succ_mul_eq]; omega
            rw [this]
            exact (div_mod_unique B (cur + 1) 0 hB).1
          · rw [if_neg h2]
            have : pos + size = cur * B + (npos + size) := by omega
            rw [this]
            exact (div_mod_unique B cur (npos + size) (by omega)).1
        rw [hc, ← hp]
      · rw [if_neg h1]
        have hs := succ_mul_eq cur B
        have hcur2 : cur + 1 < nodes := by
          have : (cur + 1) * B < nodes * B := by omega
          exact Nat.lt_of_mul_lt_mul_right this
        rw [if_neg (by omega)]
        have := ih
          { m_baseSize := B, m_position := pos + (B - npos), m_capacity := cap, m_size := sz,
            m_endian := en, nodes := nodes, m_cur := cur + 1, mem := mem }
          0 (size - (B - npos)) (out ++ memread mem (cur * B + npos) (B - npos))
          hB hB (by dsimp only; omega) (by dsimp only; omega) (by omega)
        dsimp only at this
        rw [Nat.sub_zero] at this
        rw [this, ← hp, List.append_assoc, memread_append]
        have e : pos + (B - npos) + (size - (B - npos)) = pos + size := by omega
        have e2 : B - npos + (size - (B - npos)) = size := by omega
        rw [e, e2]

theorem ceil_mul_ge (n B : Nat) (hB : 0 < B) : n ≤ (n + B - 1) / B * B := by
  have h1 := Nat.div_add_mod (n + B - 1) B
  have h2 := Nat.mod_lt (n + B - 1) hB
  have h3 : (n + B - 1) / B * B = B * ((n + B - 1) / B) := Nat.mul_comm _ _
  omega

/-- After `addCapacity(size)` there is room for `size` more bytes, `m_cur`
is not null, and nothing else has changed. -/
theorem ByteArray.addCapacity_spec (b : ByteArray) (hwf : b.wf) (size : Nat) (hs : 0 < size) :
    (b.addCapacity size).wf ∧
    (b.addCapacity size).m_position + size ≤
      (b.addCapacity size).nodes * (b.addCapacity size).m_baseSize ∧
    (b.addCapacity size).mem = b.mem ∧
    (b.addCapacity size).m_position = b.m_position ∧
    (b.addCapacity size).m_size = b.m_size ∧
    (b.addCapacity size).m_baseSize = b.m_baseSize ∧
    (b.addCapacity size).m_endian = b.m_endian := by
  obtain ⟨hB, hN, hcap, hps, hsc, hcur⟩ := hwf
  obtain ⟨B, pos, cap, sz, en, nodes, cur, mem⟩ := b
  dsimp only at hB hN hcap hps hsc hcur
  unfold ByteArray.addCapacity ByteArray.getCapacity
  dsimp only
  rw [if_neg (by omega)]
  by_cases h : cap - pos ≥ size
  · rw [if_pos h]
    refine ⟨⟨hB, hN, hcap, hps, hsc, hcur⟩, ?_, rfl, rfl, rfl, rfl, rfl⟩
    dsimp only
    omega
  · rw [if_neg h]
    have hc := ceil_mul_ge (size - (cap - pos)) B hB
    have hmul : (nodes + (size - (cap - pos) + B - 1) / B) * B =
        nodes * B + (size - (cap - pos) + B - 1) / B * B := by ring
    refine ⟨⟨hB, Nat.add_pos_left hN _, by dsimp only; rw [hmul, hcap], hps,
      by dsimp only; omega, ?_⟩, ?_, rfl, rfl, rfl, rfl, rfl⟩
    · dsimp only
      by_cases h0 : cap - pos = 0
      · rw [if_pos h0]
        have : pos = nodes * B + 0 := by omega
        rw [this]
        exact (div_mod_unique B nodes 0 hB).1.symm
      · rw [if_neg h0]
        exact hcur
    · dsimp only
      rw [hmul]
      omega

/-- A well-formed array takes every buffer: `write` copies it to the current
position, moves the position behind it, raises `m_size` to the position if
needed, and keeps the invariant. -/
theorem ByteArray.write_spec (b : ByteArray) (hwf : b.wf) (buf : List Nat) :
    ∃ b1, b.write buf = some b1 ∧ b1.wf ∧
      b1.m_position = b.m_position + buf.length ∧
      b1.m_size = max b.m_size (b.m_position + buf.length) ∧
      b1.mem = memcpy b.mem b.m_position buf ∧
      b1.m_baseSize = b.m_baseSize ∧ b1.m_endian = b.m_endian := by
  unfold ByteArray.write
  by_cases h0 : buf.length = 0
  · rw [if_pos h0]
    have hb : buf = [] := List.length_eq_zero.mp h0
    subst hb
    refine ⟨b, rfl, hwf, rfl, ?_, (memcpy_nil _ _).symm, rfl, rfl⟩
    have := hwf.2.2.2.1
    simp only [List.length_nil, Nat.add_zero]
    omega
  · rw [if_neg h0, if_neg (by have := hwf.1; omega)]
    obtain ⟨w1, hroom, hmem, hpos, hsz, hbs, hen⟩ :=
      ByteArray.addCapacity_spec b hwf buf.length (by omega)
    generalize b.addCapacity buf.length = b1 at w1 hroom hmem hpos hsz hbs hen
    obtain ⟨hB, hN, hcap, hps, hsc, hcur⟩ := w1
    dsimp only
    have hdm := Nat.div_add_mod b1.m_position b1.m_baseSize
    have hml := Nat.mod_lt b1.m_position hB
    have hp : b1.m_position = b1.m_cur * b1.m_baseSize + b1.m_position % b1.m_baseSize := by
      rw [hcur, Nat.mul_comm]
      exact hdm.symm
    have hcn : b1.m_cur < b1.nodes := by
      have : b1.m_cur * b1.m_baseSize < b1.nodes * b1.m_baseSize := by omega
      exact Nat.lt_of_mul_lt_mul_right this
    rw [if_neg (by omega)]
    rw [ByteArray.writeLoop_spec (buf.length + 1) b1 _ buf hB hml hp hroom (by omega)]
    dsimp only
    by_cases hgt : b1.m_position + buf.length > b1.m_size
    · rw [if_pos hgt]
      refine ⟨_, rfl, ⟨hB, hN, hcap, le_refl _, by dsimp only; omega, rfl⟩, ?_, ?_, ?_, hbs, hen⟩
      · dsimp only; rw [hpos]
      · dsimp only; rw [← hpos, ← hsz]; omega
      · dsimp only; rw [hmem, hpos]
    · rw [if_neg hgt]
      refine ⟨_, rfl, ⟨hB, hN, hcap, by dsimp only; omega, hsc, rfl⟩, ?_, ?_, ?_, hbs, hen⟩
      · dsimp only; rw [hpos]
      · dsimp only; rw [← hpos, ← hsz]; omega
      · dsimp only; rw [hmem, hpos]

/-- Reading `size` available bytes returns the bytes at the position and moves
the position behind them; for `size = 0` the position must lie before the end
of the last node, or else `m_cur` is null. -/
theorem ByteArray.read_spec (b : ByteArray) (hwf : b.wf) (size : Nat)
    (hs : size ≤ b.m_size - b.m_position) (hc : 0 < size ∨ b.m_position < b.m_capacity) :
    b.read size = some (memread b.mem b.m_position size,
      { b with m_position := b.m_position + size,
               m_cur := (b.m_position + size) / b.m_baseSize }) := by
  obtain ⟨hB, hN, hcap, hps, hsc, hcur⟩ := hwf
  unfold ByteArray.read ByteArray.getReadSize
  rw [if_neg (by omega), if_neg (by omega)]
  have hlt : b.m_position < b.nodes * b.m_baseSize := by omega
  have hdm := Nat.div_add_mod b.m_position b.m_baseSize
  have hml := Nat.mod_lt b.m_position hB
  have hp : b.m_position = b.m_cur * b.m_baseSize + b.m_position % b.m_baseSize := by
    rw [hcur, Nat.mul_comm]
    exact hdm.symm
  have hcn : b.m_cur < b.nodes := by
    have : b.m_cur * b.m_baseSize < b.nodes * b.m_baseSize := by omega
    exact Nat.lt_of_mul_lt_mul_right this
  rw [if_neg (by omega)]
  dsimp only
  rw [ByteArray.readLoop_spec (size + 1) b _ size [] hB hml hp (by omega) (by omega)]
  rfl

theorem ByteArray.seekLoop_spec (nodes B : Nat) (hB : 0 < B) (fuel v cur : Nat)
    (hc : cur < nodes) (hv : v ≤ (nodes - cur) * B) (hf : nodes - cur < fuel) :
    ByteArray.seekLoop nodes B fuel v cur = some (cur + v / B) := by
  induction fuel generalizing v cur with
  | zero => omega
  | succ fuel ih =>
    unfold ByteArray.seekLoop
    rw [if_neg (by omega)]
    by_cases h1 : v > B
    · rw [if_pos h1]
      have hsub : (nodes - cur) * B = (nodes - (cur + 1)) * B + B := by
        have : nodes - cur = (nodes - (cur + 1)) + 1 := by omega
        rw [this, succ_mul_eq]
      have hc2 : cur + 1 < nodes := by
        by_contra hcon
        have : nodes - (cur + 1) = 0 := by omega
        rw [this] at hsub
        omega
      rw [ih (v - B) (cur + 1) hc2 (by omega) (by omega)]
      have : v / B = (v - B) / B + 1 := by
        have e : v = (v - B) + B := by omega
        conv_lhs => rw [e]
        exact Nat.add_div_right _ hB
      rw [this]
      congr 1
      omega
    · rw [if_neg h1]
      by_cases h2 : v = B
      · rw [if_pos h2, h2, Nat.div_self hB]
      · rw [if_neg h2, Nat.div_eq_of_lt (by omega), Nat.add_zero]

/-- A position within the capacity can always be set: `m_cur` becomes the node
that holds it. -/
theorem ByteArray.setPosition_spec (b : ByteArray) (hwf : b.wf) (v : Nat) (hv : v ≤ b.m_capacity) :
    b.setPosition v = some { b with m_position := v,
                                    m_size := if v > b.m_size then v else b.m_size,
                                    m_cur := v / b.m_baseSize } := by
  obtain ⟨hB, hN, hcap, hps, hsc, hcur⟩ := hwf
  unfold ByteArray.setPosition
  rw [if_neg (by omega)]
  rw [ByteArray.seekLoop_spec b.nodes b.m_baseSize hB (b.nodes + 1) v 0 hN
    (by rw [Nat.sub_zero, ← hcap]; exact hv) (by omega)]
  simp only [Nat.zero_add]

/-- The constructor establishes the invariant for every base size that is not
zero. -/
theorem ByteArray.wf_new (base_size : Nat) (mem : Nat → Nat) (h : 0 < base_size) :
    (ByteArray.new base_size mem).wf := by
  unfold ByteArray.wf ByteArray.new
  refine ⟨h, Nat.one_pos, by simp, le_refl _, Nat.zero_le _, ?_⟩
  simp

/-- Every call of `read` that returns keeps the invariant. -/
theorem ByteArray.wf_read (b b1 : ByteArray) (hwf : b.wf) (size : Nat) (out : List Nat)
    (h : b.read size = some (out, b1)) : b1.wf := by
  have hs : size ≤ b.m_size - b.m_position := by
    by_contra hc
    unfold ByteArray.read ByteArray.getReadSize at h
    rw [if_pos (by omega)] at h
    cases h
  have hc : 0 < size ∨ b.m_position < b.m_capacity := by
    by_cases h0 : 0 < size
    · exact Or.inl h0
    · right
      obtain ⟨hB, hN, hcap, hps, hsc, hcur⟩ := hwf
      by_contra hcon
      have hp : b.m_position = b.nodes * b.m_baseSize + 0 := by omega
      have hcn : b.m_cur = b.nodes := by
        rw [hcur, hp]
        exact (div_mod_unique b.m_baseSize b.nodes 0 hB).1
      unfold ByteArray.read ByteArray.getReadSize at h
      rw [if_neg (by omega), if_neg (by omega), if_pos (by omega)] at h
      cases h
  rw [ByteArray.read_spec b hwf size hs hc] at h
  cases h
  obtain ⟨hB, hN, hcap, hps, hsc, hcur⟩ := hwf
  exact ⟨hB, hN, hcap, by dsimp only; omega, hsc, rfl⟩

/-- Every call of `setPosition` that returns keeps the invariant. -/
theorem ByteArray.wf_setPosition (b b1 : ByteArray) (hwf : b.wf) (v : Nat)
    (h : b.setPosition v = some b1) : b1.wf := by
  have hv : v ≤ b.m_capacity := by
    by_contra hc
    unfold ByteArray.setPosition at h
    rw [if_pos (by omega)] at h
    cases h
  rw [ByteArray.setPosition_spec b hwf v hv] at h
  cases h
  obtain ⟨hB, hN, hcap, hps, hsc, hcur⟩ := hwf
  refine ⟨hB, hN, hcap, ?_, ?_, rfl⟩
  · dsimp only
    split <;> omega
  · dsimp only
    split <;> omega

/-! ## ByteArray: what was written is what is read -/

theorem memread_getElem (mem : Nat → Nat) (src n k : Nat) (hk : k < (memread mem src n).length) :
    (memread mem src n)[k] = mem (src + k) := by
  simp [memread]

theorem memread_memcpy (mem : Nat → Nat) (p : Nat) (buf : List Nat) :
    memread (memcpy mem p buf) p buf.length = buf := by
  apply List.ext_getElem
  · exact memread_length _ _ _
  · intro k h1 h2
    rw [memread_getElem, memcpy_in _ _ _ _ (by omega) (by omega)]
    rw [List.getD_eq_getElem?_getD, Nat.add_sub_cancel_left, List.getElem?_eq_getElem h2]
    rfl

theorem memread_congr (m1 m2 : Nat → Nat) (p n : Nat) (h : ∀ k, k < n → m1 (p + k) = m2 (p + k)) :
    memread m1 p n = memread m2 p n := by
  unfold memread
  apply List.map_congr_left
  intro k hk
  exact h k (List.mem_range.mp hk)

theorem memread_memcpy_two (mem : Nat → Nat) (p : Nat) (pre body : List Nat) :
    memread (memcpy (memcpy mem p pre) (p + pre.length) body) p (pre.length + body.length) =
      pre ++ body := by
  rw [← memread_append, memread_memcpy]
  congr 1
  rw [memread_congr _ (memcpy mem p pre) p pre.length, memread_memcpy]
  intro k hk
  exact memcpy_out _ _ _ _ (Or.inl (by omega))

/-- Two writes in a row followed by a return to the start position leave the
array holding both buffers at its position. -/
theorem ByteArray.write_write_seek (b : ByteArray) (hwf : b.wf) (pre body : List Nat) :
    ∃ b1 b2 b3, b.write pre = some b1 ∧ b1.write body = some b2 ∧
      b2.setPosition b.m_position = some b3 ∧ b3.holds (pre ++ body) ∧
      b3.m_position = b.m_position ∧ b3.m_endian = b.m_endian ∧
      b1.m_endian = b.m_endian ∧
      b2.m_position = b.m_position + pre.length + body.length ∧
      b3.m_capacity = b2.m_capacity ∧ b2.m_position ≤ b2.m_capacity ∧
      b3.m_baseSize = b2.m_baseSize ∧ b2.wf ∧ b2.m_baseSize = b.m_baseSize := by
  obtain ⟨b1, h1, w1, p1, s1, m1, bs1, e1⟩ := ByteArray.write_spec b hwf pre
  obtain ⟨b2, h2, w2, p2, s2, m2, bs2, e2⟩ := ByteArray.write_spec b1 w1 body
  have hcap : b.m_position ≤ b2.m_capacity := by
    have := w2.2.2.2.1
    have := w2.2.2.2.2.1
    omega
  have h3 := ByteArray.setPosition_spec b2 w2 b.m_position hcap
  refine ⟨b1, b2, _, h1, h2, h3, ?_, rfl, ?_, e1, ?_, rfl, ?_, rfl, w2, by rw [bs2, bs1]⟩
  · obtain ⟨hB, hN, hc, hps, hsc, hcur⟩ := w2
    have hle : ¬ b.m_position > b2.m_size := by omega
    refine ⟨⟨hB, hN, hc, ?_, ?_, rfl⟩, ?_, ?_⟩
    · dsimp only; rw [if_neg hle]; omega
    · dsimp only; rw [if_neg hle]; exact hsc
    · dsimp only; rw [if_neg hle, List.length_append]; omega
    · dsimp only
      rw [m2, m1, p1, List.length_append]
      exact memread_memcpy_two _ _ _ _
  · dsimp only; rw [e2, e1]
  · rw [p2, p1]
  · have := w2.2.2.2.1
    have := w2.2.2.2.2.1
    omega

/-- An array that holds `xs ++ ys` hands out `xs` on a read of that length and
then holds `ys`. -/
theorem ByteArray.holds_read (b : ByteArray) (xs ys : List Nat) (h : b.holds (xs ++ ys))
    (hc : 0 < xs.length ∨ b.m_position < b.m_capacity) :
    ∃ b1, b.read xs.length = some (xs, b1) ∧ b1.holds ys ∧
      b1.m_position = b.m_position + xs.length ∧ b1.m_endian = b.m_endian ∧
      b1.m_capacity = b.m_capacity ∧ b1.m_baseSize = b.m_baseSize := by
  obtain ⟨hwf, hsz, hmem⟩ := h
  rw [List.length_append] at hsz hmem
  rw [← memread_append] at hmem
  have hlen : (memread b.mem b.m_position xs.length).length = xs.length := memread_length _ _ _
  obtain ⟨hx, hy⟩ := List.append_inj hmem hlen
  have hr := ByteArray.read_spec b hwf xs.length (by omega) hc
  rw [hx] at hr
  refine ⟨_, hr, ?_, rfl, rfl, rfl, rfl⟩
  obtain ⟨hB, hN, hcap, hps, hsc, hcur⟩ := hwf
  exact ⟨⟨hB, hN, hcap, by dsimp only; omega, hsc, rfl⟩, by dsimp only; omega, hy⟩

theorem ByteArray.holds_readFuint8 (b : ByteArray) (x : Nat) (ys : List Nat)
    (h : b.holds (x :: ys)) :
    ∃ b1, b.readFuint8 = some (x, b1) ∧ b1.holds ys ∧
      b1.m_position = b.m_position + 1 ∧ b1.m_endian = b.m_endian ∧
      b1.m_capacity = b.m_capacity ∧ b1.m_baseSize = b.m_baseSize := by
  obtain ⟨b1, hr, hh, hp, he, hc, hb⟩ := ByteArray.holds_read b [x] ys h (Or.inl (by simp))
  refine ⟨b1, ?_, hh, hp, he, hc, hb⟩
  unfold ByteArray.readFuint8
  simp only [List.length_singleton] at hr
  rw [hr]
  rfl

/-! ## Varint, zigzag and fixed-width encodings -/

theorem low7_byte (a : Nat) (h : a < 128) : (a ||| 128) % 256 = a + 128 ∧ (a + 128) &&& 127 = a := by
  revert a
  decide

theorem and_127 (v : Nat) : v &&& 127 = v % 128 := by
  have := Nat.and_pow_two_sub_one_eq_mod v 7
  simpa using this

theorem or_shift (result c i W : Nat) (hr : result < 2 ^ i) (hc : c * 2 ^ i < W) :
    result ||| (c <<< i) % W = result + c * 2 ^ i := by
  rw [Nat.shiftLeft_eq, Nat.mod_eq_of_lt hc, Nat.or_comm, Nat.mul_comm c,
    ← Nat.mul_add_lt_is_or hr, Nat.add_comm]

/-- The encoder fills at most `room + 1` bytes when the value has at most
`7 * (room + 1)` bits. -/
theorem varintLoop_some (room v : Nat) (h : v < 2 ^ (7 * (room + 1))) :
    ∃ tmp, varintLoop (room + 1) v = some tmp ∧ 1 ≤ tmp.length ∧ tmp.length ≤ room + 1 := by
  induction room generalizing v with
  | zero =>
    have hv : v < 128 := by simpa using h
    refine ⟨[v % 256], ?_, by simp, by simp⟩
    unfold varintLoop
    rw [if_neg (by omega)]
  | succ room ih =>
    unfold varintLoop
    by_cases hv : v ≥ 0x80
    · rw [if_pos hv]
      have hlt : v >>> 7 < 2 ^ (7 * (room + 1)) := by
        rw [Nat.shiftRight_eq_div_pow]
        apply Nat.div_lt_of_lt_mul
        have : 2 ^ (7 * (room + 1 + 1)) = 2 ^ 7 * 2 ^ (7 * (room + 1)) := by
          rw [← Nat.pow_add]
          congr 1
          omega
        rw [this] at h
        exact h
      obtain ⟨t, ht, h1, h2⟩ := ih (v >>> 7) hlt
      rw [ht]
      exact ⟨_, rfl, by simp, by simp; omega⟩
    · rw [if_neg hv]
      exact ⟨_, rfl, by simp, by simp⟩

/-- Reading back what the encoder produced: the loop of `readUint32` /
`readUint64` adds the value, shifted by `i`, to the bits gathered so far. -/
theorem ByteArray.readVarintLoop_spec (W : Nat) (room : Nat) :
    ∀ (v : Nat) (tmp : List Nat), varintLoop room v = some tmp →
    ∀ (n i result : Nat) (b : ByteArray) (rest : List Nat),
      room ≤ n → b.holds (tmp ++ rest) → result < 2 ^ i → v * 2 ^ i < W →
      ∃ b1, ByteArray.readVarintLoop W n i result b = some (result + v * 2 ^ i, b1) ∧
        b1.holds rest ∧ b1.m_position = b.m_position + tmp.length ∧
        b1.m_endian = b.m_endian ∧ b1.m_capacity = b.m_capacity ∧
        b1.m_baseSize = b.m_baseSize := by
  induction room with
  | zero =>
    intro v tmp h
    unfold varintLoop at h
    cases h
  | succ room ih =>
    intro v tmp h n i result b rest hn hh hr hw
    unfold varintLoop at h
    obtain ⟨n, rfl⟩ : ∃ m, n = m + 1 := ⟨n - 1, by omega⟩
    unfold ByteArray.readVarintLoop
    by_cases hv : v ≥ 0x80
    · rw [if_pos hv] at h
      cases ht : varintLoop room (v >>> 7) with
      | none => rw [ht] at h; cases h
      | some t =>
        rw [ht] at h
        simp only [Option.map_some', Option.some.injEq] at h
        subst h
        have hm : v % 128 < 128 := Nat.mod_lt _ (by decide)
        have hbyte : ((v &&& 0x7F) ||| 0x80) % 256 = v % 128 + 128 := by
          rw [and_127]
          exact (low7_byte _ hm).1
        rw [hbyte] at hh ⊢
        rw [List.cons_append] at hh
        obtain ⟨b1, hrd, hh1, hp1, he1, hc1, hb1⟩ :=
          ByteArray.holds_readFuint8 b _ _ hh
        rw [hrd]
        dsimp only
        rw [if_neg (by omega)]
        have hlow : (v % 128 + 128) &&& 0x7f = v % 128 := (low7_byte _ hm).2
        rw [hlow]
        have hdiv : v >>> 7 = v / 128 := by
          rw [Nat.shiftRight_eq_div_pow]
        have hpow : 2 ^ (i + 7) = 2 ^ i * 128 := by
          rw [Nat.pow_add]
        have hdm := Nat.div_add_mod v 128
        have hle : v % 128 * 2 ^ i ≤ v * 2 ^ i := Nat.mul_le_mul_right _ (Nat.mod_le _ _)
        have hsplit : v * 2 ^ i = v % 128 * 2 ^ i + v / 128 * (2 ^ i * 128) := by
          have : v * 2 ^ i = (128 * (v / 128) + v % 128) * 2 ^ i := by rw [hdm]
          rw [this]
          ring
        rw [or_shift result (v % 128) i W hr (by omega)]
        obtain ⟨b2, hrd2, hh2, hp2, he2, hc2, hb2⟩ :=
          ih (v >>> 7) t ht n (i + 7) (result + v % 128 * 2 ^ i) b1 rest (by omega) hh1
            (by
              rw [hpow]
              have : v % 128 * 2 ^ i ≤ 127 * 2 ^ i := Nat.mul_le_mul_right _ (by omega)
              omega)
            (by rw [hdiv, hpow]; omega)
        rw [hrd2]
        refine ⟨b2, ?_, hh2, ?_, by rw [he2, he1], by rw [hc2, hc1], by rw [hb2, hb1]⟩
        · rw [hdiv, hpow]
          congr 2
          omega
        · rw [hp2, hp1]
          simp only [List.length_cons]
          omega
    · rw [if_neg hv] at h
      simp only [Option.some.injEq] at h
      subst h
      have hv256 : v % 256 = v := Nat.mod_eq_of_lt (by omega)
      rw [hv256] at hh ⊢
      rw [List.cons_append] at hh
      obtain ⟨b1, hrd, hh1, hp1, he1, hc1, hb1⟩ := ByteArray.holds_readFuint8 b _ _ hh
      rw [hrd]
      dsimp only
      rw [if_pos (by omega), or_shift result v i W hr hw]
      exact ⟨b1, rfl, by simpa using hh1, by simpa using hp1, he1, hc1, hb1⟩

theorem xor_allOnes (w a : Nat) (h : a < 2 ^ w) : a ^^^ (2 ^ w - 1) = 2 ^ w - 1 - a := by
  apply Nat.eq_of_testBit_eq
  intro i
  have e : 2 ^ w - 1 - a = 2 ^ w - (a + 1) := by omega
  rw [e, Nat.testBit_two_pow_sub_succ h, Nat.testBit_xor, Nat.testBit_two_pow_sub_one]
  by_cases hi : i < w
  · simp [hi]
  · have : a.testBit i = false :=
      Nat.testBit_lt_two_pow (lt_of_lt_of_le h (Nat.pow_le_pow_right (by decide) (by omega)))
    simp [hi, this]

theorem zigzag32_roundtrip (v : Int) (h0 : -2147483648 ≤ v) (h1 : v < 2147483648) :
    DecodeZigzag32 (EncodeZigzag32 v) = v ∧ EncodeZigzag32 v < W32 := by
  unfold DecodeZigzag32 EncodeZigzag32
  by_cases hv : v < 0
  · rw [if_pos hv]
    obtain ⟨n, hn⟩ : ∃ n : Nat, (n : Int) = -v := ⟨(-v).toNat, by omega⟩
    have he : (((-v) % 4294967296).toNat * 2 % W32 + (W32 - 1)) % W32 = 2 * n - 1 := by
      unfold W32
      omega
    rw [he]
    have hs : (2 * n - 1) >>> 1 = n - 1 := by
      rw [Nat.shiftRight_eq_div_pow]
      omega
    have ha : (2 * n - 1) &&& 1 = 1 := by
      rw [Nat.and_one_is_mod]
      omega
    rw [hs, ha]
    have hx := xor_allOnes 32 (n - 1) (by omega)
    have hc : (W32 - 1) % W32 = 2 ^ 32 - 1 := by unfold W32; decide
    rw [hc, hx]
    unfold toInt32 W32
    constructor
    · omega
    · omega
  · rw [if_neg hv]
    obtain ⟨n, hn⟩ : ∃ n : Nat, (n : Int) = v := ⟨v.toNat, by omega⟩
    have he : ((v * 2) % 4294967296).toNat = 2 * n := by omega
    rw [he]
    have hs : (2 * n) >>> 1 = n := by
      rw [Nat.shiftRight_eq_div_pow]
      omega
    have ha : (2 * n) &&& 1 = 0 := by
      rw [Nat.and_one_is_mod]
      omega
    rw [hs, ha]
    have hc : (W32 - 0) % W32 = 0 := by unfold W32; decide
    rw [hc, Nat.xor_zero]
    unfold toInt32 W32
    constructor
    · omega
    · omega

theorem zigzag64_roundtrip (v : Int) (h0 : -9223372036854775808 ≤ v)
    (h1 : v < 9223372036854775808) :
    DecodeZigzag64 (EncodeZigzag64 v) = v ∧ EncodeZigzag64 v < W64 := by
  unfold DecodeZigzag64 EncodeZigzag64
  by_cases hv : v < 0
  · rw [if_pos hv]
    obtain ⟨n, hn⟩ : ∃ n : Nat, (n : Int) = -v := ⟨(-v).toNat, by omega⟩
    have he : (toUInt64 (-v) * 2 % W64 + (W64 - 1)) % W64 = 2 * n - 1 := by
      unfold W64 toUInt64
      omega
    rw [he]
    have hs : (2 * n - 1) >>> 1 = n - 1 := by
      rw [Nat.shiftRight_eq_div_pow]
      omega
    have ha : (2 * n - 1) &&& 1 = 1 := by
      rw [Nat.and_one_is_mod]
      omega
    rw [hs, ha]
    have hx := xor_allOnes 64 (n - 1) (by omega)
    have hc : (W64 - 1) % W64 = 2 ^ 64 - 1 := by unfold W64; decide
    rw [hc, hx]
    unfold toInt64 W64
    constructor
    · omega
    · omega
  · rw [if_neg hv]
    obtain ⟨n, hn⟩ : ∃ n : Nat, (n : Int) = v := ⟨v.toNat, by omega⟩
    have he : toUInt64 (v * 2) = 2 * n := by
      unfold toUInt64
      omega
    rw [he]
    have hs : (2 * n) >>> 1 = n := by
      rw [Nat.shiftRight_eq_div_pow]
      omega
    have ha : (2 * n) &&& 1 = 0 := by
      rw [Nat.and_one_is_mod]
      omega
    rw [hs, ha]
    have hc : (W64 - 0) % W64 = 0 := by unfold W64; decide
    rw [hc, Nat.xor_zero]
    unfold toInt64 W64
    constructor
    · omega
    · omega

/-! ## Fixed-width values -/

theorem leBytes_length (w v : Nat) : (leBytes w v).length = w := by
  induction w generalizing v with
  | zero => rfl
  | succ w ih => simp [leBytes, ih]

theorem leBytes_lt (w v : Nat) : ∀ x ∈ leBytes w v, x < 256 := by
  induction w generalizing v with
  | zero => intro x hx; simp [leBytes] at hx
  | succ w ih =>
    intro x hx
    simp only [leBytes, List.mem_cons] at hx
    rcases hx with rfl | hx
    · exact Nat.mod_lt _ (by decide)
    · exact ih _ x hx

theorem ofLeBytes_leBytes (w v : Nat) (h : v < 256 ^ w) : ofLeBytes (leBytes w v) = v := by
  induction w generalizing v with
  | zero =>
    simp only [Nat.pow_zero, Nat.lt_one_iff] at h
    subst h
    rfl
  | succ w ih =>
    have : v / 256 < 256 ^ w := by
      apply Nat.div_lt_of_lt_mul
      rw [Nat.pow_succ, Nat.mul_comm] at h
      exact h
    simp only [leBytes, ofLeBytes, ih _ this]
    omega

theorem leBytes_ofLeBytes (l : List Nat) (h : ∀ x ∈ l, x < 256) :
    leBytes l.length (ofLeBytes l) = l := by
  induction l with
  | nil => rfl
  | cons x xs ih =>
    have hx : x < 256 := h x (List.mem_cons_self _ _)
    have hxs : ∀ y ∈ xs, y < 256 := fun y hy => h y (List.mem_cons_of_mem _ hy)
    simp only [List.length_cons, leBytes, ofLeBytes]
    have e1 : (x + 256 * ofLeBytes xs) % 256 = x := by omega
    have e2 : (x + 256 * ofLeBytes xs) / 256 = ofLeBytes xs := by omega
    rw [e1, e2, ih hxs]

theorem ofLeBytes_lt (l : List Nat) (h : ∀ x ∈ l, x < 256) : ofLeBytes l < 256 ^ l.length := by
  induction l with
  | nil => simp [ofLeBytes]
  | cons x xs ih =>
    have hx : x < 256 := h x (List.mem_cons_self _ _)
    have hxs : ∀ y ∈ xs, y < 256 := fun y hy => h y (List.mem_cons_of_mem _ hy)
    have := ih hxs
    simp only [List.length_cons, ofLeBytes, Nat.pow_succ]
    omega

theorem byteswap_lt (w v : Nat) : byteswap w v < 256 ^ w := by
  unfold byteswap
  have h := ofLeBytes_lt (leBytes w v).reverse (by
    intro x hx
    exact leBytes_lt w v x (List.mem_reverse.mp hx))
  rw [List.length_reverse, leBytes_length] at h
  exact h

theorem byteswap_byteswap (w v : Nat) (h : v < 256 ^ w) : byteswap w (byteswap w v) = v := by
  unfold byteswap
  have hl : ((leBytes w v).reverse).length = w := by rw [List.length_reverse, leBytes_length]
  have h1 := leBytes_ofLeBytes (leBytes w v).reverse (by
    intro x hx
    exact leBytes_lt w v x (List.mem_reverse.mp hx))
  rw [hl] at h1
  rw [h1, List.reverse_reverse, ofLeBytes_leBytes w v h]

theorem objectBytes_length (hostLittle : Bool) (w v : Nat) :
    (objectBytes hostLittle w v).length = w := by
  unfold objectBytes
  cases hostLittle <;> simp [leBytes_length]

theorem ofObjectBytes_objectBytes (hostLittle : Bool) (w v : Nat) (h : v < 256 ^ w) :
    ofObjectBytes hostLittle (objectBytes hostLittle w v) = v := by
  unfold ofObjectBytes objectBytes
  cases hostLittle
  · simp [ofLeBytes_leBytes w v h]
  · simp [ofLeBytes_leBytes w v h]

/-- Reading back a fixed-width value that the matching write function put at
the position. -/
theorem ByteArray.holds_readFuint (hostLittle : Bool) (w : Nat) (hw : 0 < w) (b : ByteArray)
    (value : Nat) (hv : value < 256 ^ w) (rest : List Nat)
    (hh : b.holds (objectBytes hostLittle w
      (if b.m_endian ≠ SYLAR_BYTE_ORDER hostLittle then byteswap w value else value) ++ rest)) :
    ∃ b1, ByteArray.readFuint hostLittle w b = some (value, b1) ∧ b1.holds rest ∧
      b1.m_position = b.m_position + w ∧ b1.m_capacity = b.m_capacity ∧
      b1.m_baseSize = b.m_baseSize := by
  obtain ⟨b1, hr, hh1, hp, _, hc, hb⟩ := ByteArray.holds_read b _ rest hh
    (Or.inl (by rw [objectBytes_length]; exact hw))
  rw [objectBytes_length] at hr hp
  refine ⟨b1, ?_, hh1, hp, hc, hb⟩
  unfold ByteArray.readFuint
  rw [hr]
  dsimp only
  by_cases he : b.m_endian = SYLAR_BYTE_ORDER hostLittle
  · rw [if_pos he, if_neg (by simp [he]), ofObjectBytes_objectBytes _ _ _ hv]
  · rw [if_neg he, if_pos he, ofObjectBytes_objectBytes _ _ _ (byteswap_lt w value),
      byteswap_byteswap w value hv]

/-- A string written behind a fixed-width length and read back from the start
position: the bytes returned are the first `len` bytes of the string, `len`
being the length as the prefix holds it. -/
theorem ByteArray.stringF_roundtrip (hostLittle : Bool) (w : Nat) (hw : 0 < w) (b : ByteArray)
    (hwf : b.wf) (s : List Nat)
    (hc : 0 < s.length % 256 ^ w ∨ (b.m_position + w) % b.m_baseSize ≠ 0) :
    ∃ b1 b2 b3 b4 b5,
      ByteArray.writeFuint hostLittle w b (s.length % 256 ^ w) = some b1 ∧
      b1.write s = some b2 ∧ b2.setPosition b.m_position = some b3 ∧
      ByteArray.readFuint hostLittle w b3 = some (s.length % 256 ^ w, b4) ∧
      b4.read (s.length % 256 ^ w) = some (s.take (s.length % 256 ^ w), b5) ∧
      b5.m_position = b.m_position + w + s.length % 256 ^ w ∧
      b2.m_position = b.m_position + w + s.length := by
  have hlen : s.length % 256 ^ w < 256 ^ w := Nat.mod_lt _ (by positivity)
  obtain ⟨b1, b2, b3, h1, h2, h3, hh, hp3, he3, _, hp2, hc3, hpc, hb3, w2, hb2⟩ :=
    ByteArray.write_write_seek b hwf
      (objectBytes hostLittle w
        (if b.m_endian ≠ SYLAR_BYTE_ORDER hostLittle then byteswap w (s.length % 256 ^ w)
         else s.length % 256 ^ w)) s
  rw [objectBytes_length] at hp2
  rw [← he3] at hh
  obtain ⟨b4, h4, hh4, hp4, hc4, hb4⟩ :=
    ByteArray.holds_readFuint hostLittle w hw b3 _ hlen s hh
  have hsplit : s = s.take (s.length % 256 ^ w) ++ s.drop (s.length % 256 ^ w) :=
    (List.take_append_drop _ _).symm
  have hle : s.length % 256 ^ w ≤ s.length := Nat.mod_le _ _
  have htl : (s.take (s.length % 256 ^ w)).length = s.length % 256 ^ w := by
    rw [List.length_take]
    omega
  rw [hsplit] at hh4
  obtain ⟨b5, h5, _, hp5, _, _, _⟩ :=
    ByteArray.holds_read b4 _ _ hh4 (by
      rw [htl]
      rcases hc with hc | hc
      · exact Or.inl hc
      · right
        rw [hp4, hc4, hc3, hp3]
        have hB := w2.1
        have hcap := w2.2.2.1
        by_contra hcon
        have heq : b.m_position + w = b2.nodes * b2.m_baseSize := by omega
        apply hc
        rw [← hb2, heq]
        exact Nat.mul_mod_left _ _)
  rw [htl] at h5 hp5
  refine ⟨b1, b2, b3, b4, b5, h1, h2, h3, h4, h5, ?_, hp2⟩
  rw [hp5, hp4, hp3]

/-! ## Claims about ByteArray -/

/-- A varint written in front of a buffer and read back from the start
position. -/
theorem ByteArray.varint_prefix_roundtrip (W room : Nat) (hW : W ≤ 2 ^ (7 * (room + 1)))
    (b : ByteArray) (hwf : b.wf) (x : Nat) (hx : x < W) (body : List Nat) :
    ∃ tmp b1 b2 b3 b4, varintLoop (room + 1) x = some tmp ∧ 1 ≤ tmp.length ∧
      tmp.length ≤ room + 1 ∧
      b.write tmp = some b1 ∧ b1.write body = some b2 ∧
      b2.setPosition b.m_position = some b3 ∧
      ByteArray.readVarintLoop W (room + 1) 0 0 b3 = some (x, b4) ∧ b4.holds body ∧
      b4.m_position = b.m_position + tmp.length ∧
      b2.m_position = b.m_position + tmp.length + body.length ∧
      b4.m_capacity = b2.m_capacity ∧ b2.wf ∧ b2.m_baseSize = b.m_baseSize := by
  obtain ⟨tmp, ht, hl1, hl2⟩ := varintLoop_some room x (lt_of_lt_of_le hx hW)
  obtain ⟨b1, b2, b3, h1, h2, h3, hh, hp3, _, _, hp2, hc3, _, _, w2, hb2⟩ :=
    ByteArray.write_write_seek b hwf tmp body
  obtain ⟨b4, h4, hh4, hp4, _, hc4, _⟩ :=
    ByteArray.readVarintLoop_spec W (room + 1) x tmp ht (room + 1) 0 0 b3 body (le_refl _) hh
      (by simp) (by simpa using hx)
  simp only [Nat.pow_zero, Nat.mul_one, Nat.zero_add] at h4
  exact ⟨tmp, b1, b2, b3, b4, ht, hl1, hl2, h1, h2, h3, h4, hh4, by rw [hp4, hp3], hp2,
    by rw [hc4, hc3], w2, hb2⟩

theorem ByteArray.write_nil (b : ByteArray) : b.write [] = some b := by
  unfold ByteArray.write
  simp

/-- An unsigned value written as a varint and read back from the start
position. -/
theorem ByteArray.uint_roundtrip (W room : Nat) (hW : W ≤ 2 ^ (7 * (room + 1)))
    (b : ByteArray) (hwf : b.wf) (x : Nat) (hx : x < W) :
    ∃ tmp b1 b2 b3, varintLoop (room + 1) x = some tmp ∧ tmp.length ≤ room + 1 ∧
      b.write tmp = some b1 ∧ b1.setPosition b.m_position = some b2 ∧
      ByteArray.readVarintLoop W (room + 1) 0 0 b2 = some (x, b3) ∧
      b3.m_position = b1.m_position := by
  obtain ⟨tmp, b1, b2, b3, b4, ht, _, hl, h1, h2, h3, h4, _, hp4, hp2, _, _, _⟩ :=
    ByteArray.varint_prefix_roundtrip W room hW b hwf x hx []
  rw [ByteArray.write_nil] at h2
  cases h2
  refine ⟨tmp, b1, b3, b4, ht, hl, h1, h3, h4, ?_⟩
  rw [hp4, hp2]
  simp

/-- C16: for every well-formed ByteArray, every `uint32_t` (`uint64_t`) value
written by `writeUint32` (`writeUint64`) is returned by `readUint32`
(`readUint64`) from the same start position, the encoder filling at most 5
(10) bytes of `tmp`, so that no byte is stored behind its end; and every
`int32_t` (`int64_t`) value, the extremes included, written by `writeInt32`
(`writeInt64`) is returned by `readInt32` (`readInt64`); the position after
the read is the one after the write. -/
theorem varint_zigzag_roundtrip (b : ByteArray) (hwf : b.wf) :
    (∀ x, x < W32 → ∃ tmp b1 b2 b3, varintLoop 5 x = some tmp ∧ tmp.length ≤ 5 ∧
      b.writeUint32 x = some b1 ∧ b1.setPosition b.m_position = some b2 ∧
      b2.readUint32 = some (x, b3) ∧ b3.m_position = b1.m_position) ∧
    (∀ x, x < W64 → ∃ tmp b1 b2 b3, varintLoop 10 x = some tmp ∧ tmp.length ≤ 10 ∧
      b.writeUint64 x = some b1 ∧ b1.setPosition b.m_position = some b2 ∧
      b2.readUint64 = some (x, b3) ∧ b3.m_position = b1.m_position) ∧
    (∀ v : Int, -2147483648 ≤ v → v < 2147483648 →
      ∃ b1 b2 b3, b.writeInt32 v = some b1 ∧ b1.setPosition b.m_position = some b2 ∧
        b2.readInt32 = some (v, b3) ∧ b3.m_position = b1.m_position) ∧
    (∀ v : Int, -9223372036854775808 ≤ v → v < 9223372036854775808 →
      ∃ b1 b2 b3, b.writeInt64 v = some b1 ∧ b1.setPosition b.m_position = some b2 ∧
        b2.readInt64 = some (v, b3) ∧ b3.m_position = b1.m_position) := by
  have u32 : ∀ x, x < W32 → ∃ tmp b1 b2 b3, varintLoop 5 x = some tmp ∧ tmp.length ≤ 5 ∧
      b.writeUint32 x = some b1 ∧ b1.setPosition b.m_position = some b2 ∧
      b2.readUint32 = some (x, b3) ∧ b3.m_position = b1.m_position := by
    intro x hx
    obtain ⟨tmp, b1, b2, b3, ht, hl, h1, h2, h3, hp⟩ :=
      ByteArray.uint_roundtrip W32 4 (by unfold W32; decide) b hwf x hx
    refine ⟨tmp, b1, b2, b3, ht, hl, ?_, h2, h3, hp⟩
    unfold ByteArray.writeUint32
    rw [Nat.mod_eq_of_lt hx, ht]
    exact h1
  have u64 : ∀ x, x < W64 → ∃ tmp b1 b2 b3, varintLoop 10 x = some tmp ∧ tmp.length ≤ 10 ∧
      b.writeUint64 x = some b1 ∧ b1.setPosition b.m_position = some b2 ∧
      b2.readUint64 = some (x, b3) ∧ b3.m_position = b1.m_position := by
    intro x hx
    obtain ⟨tmp, b1, b2, b3, ht, hl, h1, h2, h3, hp⟩ :=
      ByteArray.uint_roundtrip W64 9 (by unfold W64; decide) b hwf x hx
    refine ⟨tmp, b1, b2, b3, ht, hl, ?_, h2, h3, hp⟩
    unfold ByteArray.writeUint64
    rw [Nat.mod_eq_of_lt hx, ht]
    exact h1
  refine ⟨u32, u64, ?_, ?_⟩
  · intro v h0 h1
    obtain ⟨hz, hlt⟩ := zigzag32_roundtrip v h0 h1
    obtain ⟨_, b1, b2, b3, _, _, hw, hs, hr, hp⟩ := u32 _ hlt
    refine ⟨b1, b2, b3, hw, hs, ?_, hp⟩
    unfold ByteArray.readInt32
    rw [hr]
    dsimp only
    rw [hz]
  · intro v h0 h1
    obtain ⟨hz, hlt⟩ := zigzag64_roundtrip v h0 h1
    obtain ⟨_, b1, b2, b3, _, _, hw, hs, hr, hp⟩ := u64 _ hlt
    refine ⟨b1, b2, b3, hw, hs, ?_, hp⟩
    unfold ByteArray.readInt64
    rw [hr]
    dsimp only
    rw [hz]

theorem varint_zigzag_roundtrip_witness :
    sampleBytes.wf ∧
    ∃ b1 b2 b3, sampleBytes.writeInt32 (-1000) = some b1 ∧
      b1.setPosition sampleBytes.m_position = some b2 ∧
      b2.readInt32 = some (-1000, b3) ∧ b3.m_position = b1.m_position :=
  ⟨by decide, (varint_zigzag_roundtrip sampleBytes (by decide)).2.2.1 (-1000) (by decide)
    (by decide)⟩

/-- A string behind a fixed-width length of `w` bytes that can hold its
length. -/
theorem ByteArray.stringF_exact (hostLittle : Bool) (w : Nat) (hw : 0 < w) (b : ByteArray)
    (hwf : b.wf) (s : List Nat) (hs : s.length < 256 ^ w)
    (hc : s ≠ [] ∨ (b.m_position + w) % b.m_baseSize ≠ 0) :
    ∃ b1 b2 b3 b4 b5,
      ByteArray.writeFuint hostLittle w b (s.length % 256 ^ w) = some b1 ∧
      b1.write s = some b2 ∧ b2.setPosition b.m_position = some b3 ∧
      ByteArray.readFuint hostLittle w b3 = some (s.length, b4) ∧
      b4.read s.length = some (s, b5) ∧ b5.m_position = b2.m_position := by
  have hm : s.length % 256 ^ w = s.length := Nat.mod_eq_of_lt hs
  obtain ⟨b1, b2, b3, b4, b5, h1, h2, h3, h4, h5, hp5, hp2⟩ :=
    ByteArray.stringF_roundtrip hostLittle w hw b hwf s (by
      rcases hc with hc | hc
      · left
        rw [hm]
        exact List.length_pos.mpr hc
      · exact Or.inr hc)
  rw [hm] at h4 h5 hp5
  rw [List.take_length] at h5
  exact ⟨b1, b2, b3, b4, b5, h1, h2, h3, h4, h5, by rw [hp5, hp2]⟩

/-- C17 (counterexample): a string of 65536 bytes written by `writeStringF16`
into a new ByteArray and read back by `readStringF16` from position 0 comes
back as the empty string, with the position at 2 and not behind the 65538
bytes written. -/
theorem stringF16_truncates_length :
    ∃ b1 b2 b3, sampleBytes.writeStringF16 true (List.replicate 65536 0) = some b1 ∧
      b1.setPosition 0 = some b2 ∧ b2.readStringF16 true = some ([], b3) ∧
      List.replicate 65536 0 ≠ ([] : List Nat) ∧
      b3.m_position = 2 ∧ b1.m_position = 65538 := by
  obtain ⟨b1, b2, b3, b4, b5, h1, h2, h3, h4, h5, hp5, hp2⟩ :=
    ByteArray.stringF_roundtrip true 2 (by decide) sampleBytes (by decide)
      (List.replicate 65536 0) (Or.inr (by decide))
  have e0 : (256 : Nat) ^ 2 = 65536 := by norm_num
  have e1 : 65536 % 65536 = 0 := rfl
  rw [List.length_replicate, e0] at h1 h4 h5 hp5
  rw [e1] at h4 h5 hp5
  rw [List.length_replicate] at hp2
  rw [List.take_zero] at h5
  refine ⟨b2, b3, b5, ?_, h3, ?_, ?_, ?_, ?_⟩
  · unfold ByteArray.writeStringF16 ByteArray.writeFuint16
    rw [List.length_replicate, h1]
    exact h2
  · unfold ByteArray.readStringF16 ByteArray.readFuint16
    rw [h4]
    exact h5
  · intro h
    have := congrArg List.length h
    rw [List.length_replicate, List.length_nil] at this
    exact absurd this (by decide)
  · rw [hp5]
    rfl
  · rw [hp2]
    rfl

/-- C17 (amended): for every well-formed ByteArray and every byte string `s`
whose length fits the prefix (below 2^16 for F16, below 2^32 for F32, below
2^64 for F64 and Vint), and that is not empty or whose prefix does not end at
the end of a block, writing `s` with `writeStringF16`, `writeStringF32`,
`writeStringF64` or `writeStringVint` and reading from the same start position
with the matching read function returns `s` and leaves the position just
behind the bytes that were written. -/
theorem string_roundtrip (hostLittle : Bool) (b : ByteArray) (hwf : b.wf) (s : List Nat) :
    (s.length < 65536 → (s ≠ [] ∨ (b.m_position + 2) % b.m_baseSize ≠ 0) →
      ∃ b1 b2 b3, b.writeStringF16 hostLittle s = some b1 ∧
        b1.setPosition b.m_position = some b2 ∧
        b2.readStringF16 hostLittle = some (s, b3) ∧ b3.m_position = b1.m_position) ∧
    (s.length < W32 → (s ≠ [] ∨ (b.m_position + 4) % b.m_baseSize ≠ 0) →
      ∃ b1 b2 b3, b.writeStringF32 hostLittle s = some b1 ∧
        b1.setPosition b.m_position = some b2 ∧
        b2.readStringF32 hostLittle = some (s, b3) ∧ b3.m_position = b1.m_position) ∧
    (s.length < W64 → (s ≠ [] ∨ (b.m_position + 8) % b.m_baseSize ≠ 0) →
      ∃ b1 b2 b3, b.writeStringF64 hostLittle s = some b1 ∧
        b1.setPosition b.m_position = some b2 ∧
        b2.readStringF64 hostLittle = some (s, b3) ∧ b3.m_position = b1.m_position) ∧
    (s.length < W64 → (s ≠ [] ∨ (b.m_position + 1) % b.m_baseSize ≠ 0) →
      ∃ b1 b2 b3, b.writeStringVint s = some b1 ∧
        b1.setPosition b.m_position = some b2 ∧
        b2.readStringVint = some (s, b3) ∧ b3.m_position = b1.m_position) := by
  refine ⟨?_, ?_, ?_, ?_⟩
  · intro hs hc
    obtain ⟨b1, b2, b3, b4, b5, h1, h2, h3, h4, h5, hp⟩ :=
      ByteArray.stringF_exact hostLittle 2 (by decide) b hwf s (by simpa using hs) hc
    refine ⟨b2, b3, b5, ?_, h3, ?_, hp⟩
    · unfold ByteArray.writeStringF16 ByteArray.writeFuint16
      have e : (256 : Nat) ^ 2 = 65536 := by norm_num
      rw [e] at h1
      rw [h1]
      exact h2
    · unfold ByteArray.readStringF16 ByteArray.readFuint16
      rw [h4]
      exact h5
  · intro hs hc
    obtain ⟨b1, b2, b3, b4, b5, h1, h2, h3, h4, h5, hp⟩ :=
      ByteArray.stringF_exact hostLittle 4 (by decide) b hwf s
        (by unfold W32 at hs; simpa using hs) hc
    refine ⟨b2, b3, b5, ?_, h3, ?_, hp⟩
    · unfold ByteArray.writeStringF32 ByteArray.writeFuint32
      have e : (256 : Nat) ^ 4 = W32 := by unfold W32; norm_num
      rw [e] at h1
      rw [h1]
      exact h2
    · unfold ByteArray.readStringF32 ByteArray.readFuint32
      rw [h4]
      exact h5
  · intro hs hc
    obtain ⟨b1, b2, b3, b4, b5, h1, h2, h3, h4, h5, hp⟩ :=
      ByteArray.stringF_exact hostLittle 8 (by decide) b hwf s
        (by unfold W64 at hs; simpa using hs) hc
    refine ⟨b2, b3, b5, ?_, h3, ?_, hp⟩
    · unfold ByteArray.writeStringF64 ByteArray.writeFuint64
      have e : (256 : Nat) ^ 8 = W64 := by unfold W64; norm_num
      rw [e] at h1
      rw [h1]
      exact h2
    · unfold ByteArray.readStringF64 ByteArray.readFuint64
      rw [h4]
      exact h5
  · intro hs hc
    obtain ⟨tmp, b1, b2, b3, b4, ht, hl1, hl2, h1, h2, h3, h4, hh4, hp4, hp2, hc4, w2, hb2⟩ :=
      ByteArray.varint_prefix_roundtrip W64 9 (by unfold W64; decide) b hwf s.length hs s
    have hh4' : b4.holds (s ++ []) := by simpa using hh4
    obtain ⟨b5, h5, _, hp5, _, _, _⟩ := ByteArray.holds_read b4 s [] hh4' (by
      rcases hc with hc | hc
      · exact Or.inl (List.length_pos.mpr hc)
      · by_cases hs0 : s = []
        · right
          subst hs0
          have htl : tmp.length = 1 := by
            have : varintLoop 10 0 = some [0] := by decide
            simp only [List.length_nil] at ht
            rw [this] at ht
            cases ht
            rfl
          have hB := w2.1
          have hcap := w2.2.2.1
          have hsc := w2.2.2.2.2.1
          have hps := w2.2.2.2.1
          rw [hp4, hc4, htl]
          by_contra hcon
          simp only [List.length_nil, Nat.add_zero] at hp2
          have heq : b.m_position + 1 = b2.nodes * b2.m_baseSize := by omega
          apply hc
          rw [← hb2, heq]
          exact Nat.mul_mod_left _ _
        · exact Or.inl (List.length_pos.mpr hs0))
    refine ⟨b2, b3, b5, ?_, h3, ?_, by rw [hp5, hp4, hp2]⟩
    · unfold ByteArray.writeStringVint ByteArray.writeUint64
      rw [Nat.mod_eq_of_lt hs, ht]
      dsimp only
      rw [h1]
      exact h2
    · unfold ByteArray.readStringVint ByteArray.readUint64
      rw [h4]
      exact h5

theorem string_roundtrip_witness :
    sampleBytes.wf ∧
    ∃ b1 b2 b3, sampleBytes.writeStringF16 true [104, 105] = some b1 ∧
      b1.setPosition sampleBytes.m_position = some b2 ∧
      b2.readStringF16 true = some ([104, 105], b3) ∧ b3.m_position = b1.m_position :=
  ⟨by decide, (string_roundtrip true sampleBytes (by decide) [104, 105]).1 (by decide)
    (Or.inl (by decide))⟩

/-- C18: a ByteArray of block size 4 that holds the four bytes 10, 11, 12, 13
and stands at position 1 has the readable bytes 11, 12, 13, and `writeToFile`
on it runs into the null pointer behind the only node before it has written
them; with nine bytes and position 7 it does the same; with position 4, at a
block boundary, the file gets the readable bytes. -/
theorem writeToFile_fails_inside_block :
    (∃ b, ((ByteArray.new 4 (fun _ => 0)).write [10, 11, 12, 13]).bind
        (fun b => b.setPosition 1) = some b ∧ b.wf ∧
      b.readable = [11, 12, 13] ∧ b.writeToFile = none) ∧
    (∃ b, ((ByteArray.new 4 (fun _ => 0)).write [10, 11, 12, 13, 14, 15, 16, 17, 18]).bind
        (fun b => b.setPosition 7) = some b ∧ b.wf ∧
      b.readable = [17, 18] ∧ b.writeToFile = none) ∧
    (∃ b, ((ByteArray.new 4 (fun _ => 0)).write [10, 11, 12, 13, 14, 15, 16, 17, 18]).bind
        (fun b => b.setPosition 4) = some b ∧ b.wf ∧
      b.readable = [14, 15, 16, 17, 18] ∧ b.writeToFile = some [14, 15, 16, 17, 18]) :=
  ⟨⟨_, rfl, by decide, by decide, by decide⟩, ⟨_, rfl, by decide, by decide, by decide⟩,
   ⟨_, rfl, by decide, by decide, by decide⟩⟩

/-! ## Claims about the ready-event step, the front-insertion hook and the clock test -/

/-- C24: descriptor 1 of the sample table waits for READ only; when
`epoll_wait` reports EPOLLIN and EPOLLOUT for it, `real_events` is READ|WRITE,
the test `(fd_ctx->events & real_events) == NONE` lets the entry pass, READ is
fired, and the call `triggerEvent(WRITE)` fails the assertion
`events & event`; with EPOLLIN alone the step fires READ and lowers the
counter by one. -/
theorem idleEvent_fires_unregistered_event :
    (sampleIOManager.m_fdContexts.get? 1).map (fun c => c.events) = some READ ∧
    realEvents (EPOLLIN ||| EPOLLOUT) READ = READ ||| WRITE ∧
    sampleIOManager.idleEvent (EpollData.ptr 1) (EPOLLIN ||| EPOLLOUT) 0 = none ∧
    (sampleIOManager.idleEvent (EpollData.ptr 1) EPOLLIN 0).map
      (fun s => s.m_pendingEventCount) = some 2 := by
  decide

/-- The inserted timer is the first element of the set exactly when
`insert` returned `begin()`. -/
theorem setInsert_head (h : Nat → Timer) (v : Nat) (l : List Nat) (hv : v ∉ l) :
    (setInsert h v l).head? = some v ↔ lowerBound h v l = 0 := by
  cases l with
  | nil => simp [setInsert, lowerBound]
  | cons x xs =>
    have hx : x ≠ v := fun e => hv (by rw [e]; exact List.mem_cons_self _ _)
    unfold setInsert lowerBound
    by_cases h1 : Comparator h (some x) (some v) = true
    · rw [if_pos h1, if_pos h1]
      simp [hx]
    · rw [if_neg h1, if_neg h1]
      by_cases h2 : Comparator h (some v) (some x) = true
      · rw [if_pos h2]
        simp
      · exfalso
        rw [Comparator_iff] at h1 h2
        exact hx (timerLt_total h x v h1 h2)

/-- C25 (counterexample): two timers are added to a new manager without a call
of `getNextTimer` in between, the second with the earlier deadline; both end
up first in the set, but `onTimerInsertedAtFront` has been called once, not
twice. -/
theorem second_front_insert_is_silent :
    ∃ tm1 tm2, (TimerManager.init 0).addTimer 0 1 1000 (some 7) false = some (1, tm1) ∧
      tm1.m_timers.head? = some 1 ∧ tm1.frontCalls = 1 ∧
      tm1.addTimer 0 2 500 (some 8) false = some (2, tm2) ∧
      tm2.m_timers.head? = some 2 ∧ tm2.frontCalls = 1 :=
  ⟨_, _, rfl, rfl, rfl, rfl, rfl, rfl⟩

/-- C25 (amended): a call of the private `addTimer` whose timer ends up as the
first element of the set invokes `onTimerInsertedAtFront` exactly once when
`m_tickled` is false, and sets `m_tickled`; it does not invoke it when
`m_tickled` is already set, that is, when an earlier insertion at the front
has not yet been followed by `getNextTimer`, which clears the flag; a call
whose timer does not end up first never invokes it. -/
theorem addTimer_front_call (tm : TimerManager) (val : Nat) (hv : val ∉ tm.m_timers) :
    ((tm.addTimerPtr val).m_timers.head? = some val → tm.m_tickled = false →
      (tm.addTimerPtr val).frontCalls = tm.frontCalls + 1 ∧
      (tm.addTimerPtr val).m_tickled = true) ∧
    ((tm.addTimerPtr val).m_timers.head? = some val → tm.m_tickled = true →
      (tm.addTimerPtr val).frontCalls = tm.frontCalls ∧
      (tm.addTimerPtr val).m_tickled = true) ∧
    ((tm.addTimerPtr val).m_timers.head? ≠ some val →
      (tm.addTimerPtr val).frontCalls = tm.frontCalls ∧
      (tm.addTimerPtr val).m_tickled = tm.m_tickled) ∧
    (∀ now, (tm.getNextTimer now).2.m_tickled = false ∧
      (tm.getNextTimer now).2.frontCalls = tm.frontCalls ∧
      (tm.getNextTimer now).2.m_timers = tm.m_timers) := by
  have hh := setInsert_head tm.heap val tm.m_timers hv
  have hm : (tm.addTimerPtr val).m_timers = setInsert tm.heap val tm.m_timers :=
    (addTimerPtr_fields tm val).2.2
  rw [hm]
  refine ⟨?_, ?_, ?_, ?_⟩
  · intro h1 h2
    have h0 := hh.mp h1
    unfold TimerManager.addTimerPtr
    simp [h0, h2]
  · intro h1 h2
    have h0 := hh.mp h1
    unfold TimerManager.addTimerPtr
    simp [h0, h2]
  · intro h1
    have h0 : lowerBound tm.heap val tm.m_timers ≠ 0 := fun e => h1 (hh.mpr e)
    unfold TimerManager.addTimerPtr
    simp [h0]
  · intro now
    unfold TimerManager.getNextTimer
    cases tm.m_timers with
    | nil => exact ⟨rfl, rfl, rfl⟩
    | cons x xs =>
      dsimp only
      split <;> exact ⟨rfl, rfl, rfl⟩

theorem addTimer_front_call_witness :
    (10 : Nat) ∉ (TimerManager.init 0).m_timers ∧
    ((TimerManager.init 0).addTimerPtr 10).frontCalls = (TimerManager.init 0).frontCalls + 1 ∧
    ((TimerManager.init 0).addTimerPtr 10).m_tickled = true :=
  ⟨by decide, (addTimer_front_call (TimerManager.init 0) 10 (by decide)).1 rfl rfl⟩

/-- What the test of `detectClockRollover` computes for 64-bit readings: when
the previous reading is below one hour the difference wraps, and every smaller
reading counts as a rollover. -/
theorem rolloverTest_iff (prev now : Nat) (hp : prev < W64) (hn : now < W64) :
    rolloverTest prev now = true ↔
      (3600000 ≤ prev ∧ prev - now > 3600000) ∨ (prev < 3600000 ∧ now < prev) := by
  unfold rolloverTest sub64 W64 at *
  simp only [Bool.and_eq_true, decide_eq_true_eq]
  omega

/-- C26: with the previous reading 1000 and the new reading 999 the difference
is 1 ms, yet `detectClockRollover` returns true, because
`m_previouseTime - 60 * 60 * 1000` wraps around in `uint64_t`; with the
previous reading 4000000 the answers are as the claim says; the new reading
is stored in every case. -/
theorem detectClockRollover_wraps :
    ((TimerManager.init 1000).detectClockRollover 999).1 = true ∧
    sub64 1000 (60 * 60 * 1000) = 18446744073705952616 ∧
    ((TimerManager.init 4000000).detectClockRollover 399999).1 = true ∧
    ((TimerManager.init 4000000).detectClockRollover 400000).1 = false ∧
    ((TimerManager.init 4000000).detectClockRollover 3999999).1 = false ∧
    ((TimerManager.init 1000).detectClockRollover 999).2.m_previouseTime = 999 := by
  decide

/-- C27: for every registry, `get(-2, auto_create)` and `del(-1)` evaluate
`m_datas[fd]` with a negative index, which lies outside the vector: the test
`(int)m_datas.size() <= fd` does not stop them, and only `get` has the guard
for `fd == -1`. -/
theorem negative_fd_indexes_outside (m : FdManager) (auto_create : Bool) (k : KernelFd) :
    m.get (-2) auto_create k = none ∧ m.del (-1) = none ∧ m.del (-2) = none := by
  refine ⟨?_, ?_, ?_⟩
  · unfold FdManager.get
    rw [if_neg (by decide), if_neg (by omega), if_pos (by decide)]
  · unfold FdManager.del
    rw [if_neg (by omega), if_pos (by decide)]
  · unfold FdManager.del
    rw [if_neg (by omega), if_pos (by decide)]

/-- On a registry of at least two slots every descriptor that is not negative
is looked up, created and deleted inside the vector. -/
theorem FdManager.nonneg_fd_in_bounds (m : FdManager) (hm : 2 ≤ m.m_datas.length) (fd : Nat)
    (auto_create : Bool) (k : KernelFd) :
    (m.get (fd : Int) auto_create k).isSome = true ∧ (m.del (fd : Int)).isSome = true := by
  constructor
  · have hcreate : (m.create (fd : Int) k).isSome = true := by
      unfold FdManager.create
      dsimp only
      by_cases h : (fd : Int) ≥ (m.m_datas.length : Int)
      · rw [if_pos h]
        have hlen : (vectorResize m.m_datas ((fd : Int) * 3 / 2).toNat).length =
            ((fd : Int) * 3 / 2).toNat := by
          unfold vectorResize
          simp only [List.length_append, List.length_take, List.length_replicate]
          omega
        rw [if_pos (by rw [hlen]; omega)]
        rfl
      · rw [if_neg h, if_pos (by omega)]
        rfl
    unfold FdManager.get
    rw [if_neg (by omega)]
    by_cases h : (m.m_datas.length : Int) ≤ (fd : Int)
    · rw [if_pos h]
      cases auto_create
      · rfl
      · simpa using hcreate
    · rw [if_neg h, if_neg (by omega)]
      have hlt : fd < m.m_datas.length := by omega
      simp only [Int.toNat_ofNat]
      rw [List.get?_eq_get hlt]
      dsimp only
      split
      · rfl
      · exact hcreate
  · unfold FdManager.del
    split
    · rfl
    · rw [if_neg (by omega)]
      rfl

/-! ## Claims about the positional read, configuration, loggers, addresses and strings -/

/-- C28: a ByteArray of block size 4 holds the bytes 10, ..., 17 in two blocks.
With the position at 0 the positional read of 2 bytes at offset 4 returns
10, 11, the bytes at offset 0, where the buffer holds 14, 15 at offset 4: the
loop starts at the current block `m_cur`, not at the block of the offset.
With the position at 5 the read at offset 1 returns 15, 16 instead of 11, 12,
and with the position at 8, behind the last block, `m_cur` is null and is
dereferenced.  A read inside the current block is right. -/
theorem readAt_starts_at_current_block :
    (∃ b, ((ByteArray.new 4 (fun _ => 0)).write [10, 11, 12, 13, 14, 15, 16, 17]).bind
        (fun b => b.setPosition 0) = some b ∧ b.wf ∧ b.m_size = 8 ∧
      memread b.mem 4 2 = [14, 15] ∧ b.readAt 2 4 = some [10, 11] ∧
      b.readAt 2 0 = some [10, 11] ∧ b.readAt 6 1 = some [11, 12, 13, 14, 15, 16]) ∧
    (∃ b, ((ByteArray.new 4 (fun _ => 0)).write [10, 11, 12, 13, 14, 15, 16, 17]).bind
        (fun b => b.setPosition 5) = some b ∧ b.wf ∧
      memread b.mem 1 2 = [11, 12] ∧ b.readAt 2 1 = some [15, 16]) ∧
    (∃ b, (ByteArray.new 4 (fun _ => 0)).write [10, 11, 12, 13, 14, 15, 16, 17] = some b ∧
      b.wf ∧ b.m_position = 8 ∧ b.readAt 2 4 = none) :=
  ⟨⟨_, rfl, by decide, by decide, by decide, by decide, by decide, by decide⟩,
   ⟨_, rfl, by decide, by decide, by decide⟩,
   ⟨_, rfl, by decide, by decide, by decide⟩⟩

theorem find_first_not_of_isSome (s chars : List Char) :
    (find_first_not_of s chars).isSome = true ↔ ∃ c ∈ s, c ∉ chars := by
  unfold find_first_not_of
  rw [List.findIdx?_isSome]
  simp

/-- For a name that is not registered, `Lookup` throws exactly when the name
has a character outside the literal of the code. -/
theorem Config.Lookup_unregistered (datas : List Char → Option ConfigVar) (name : List Char)
    (T default_value : Nat) (description : List Char) (h : datas name = none) :
    ((Config.Lookup datas name T default_value description).1 = LookupResult.invalidArgument ↔
      ∃ c ∈ name, c ∉ configNameChars) ∧
    ((∀ c ∈ name, c ∈ configNameChars) →
      ∃ v, (Config.Lookup datas name T default_value description).1 = LookupResult.created v ∧
        v.m_val = default_value ∧
        (Config.Lookup datas name T default_value description).2 name = some v) := by
  unfold Config.Lookup
  rw [h]
  dsimp only
  by_cases hc : (find_first_not_of name configNameChars).isSome = true
  · rw [if_pos hc]
    have := (find_first_not_of_isSome name configNameChars).mp hc
    refine ⟨⟨fun _ => this, fun _ => rfl⟩, ?_⟩
    intro hall
    obtain ⟨c, h1, h2⟩ := this
    exact absurd (hall c h1) h2
  · rw [if_neg hc]
    have hn : ¬ ∃ c ∈ name, c ∉ configNameChars :=
      fun h => hc ((find_first_not_of_isSome name configNameChars).mpr h)
    refine ⟨⟨fun h => (by cases h), fun h => absurd h hn⟩, ?_⟩
    intro _
    exact ⟨_, rfl, rfl, by simp⟩

/-- C21: the name "port9" is not registered and all its characters are in
`[0-9a-z_.]`, yet `Lookup` throws `std::invalid_argument`: the literal handed
to `find_first_not_of` has every character of that set except `9`; the name
"port8" is registered with the default value. -/
theorem lookup_rejects_digit_nine :
    (∀ c ∈ "port9".toList, c ∈ documentedNameChars) ∧
    (Config.Lookup (fun _ => none) "port9".toList 1 8080 []).1 = LookupResult.invalidArgument ∧
    documentedNameChars.filter (fun c => !configNameChars.contains c) = ['9'] ∧
    configNameChars.filter (fun c => !documentedNameChars.contains c) = [] ∧
    (Config.Lookup (fun _ => none) "port8".toList 1 8080 []).1 =
      LookupResult.created
        { m_name := "port8".toList, m_description := [], typeName := 1, m_val := 8080 } := by
  decide

/-- C22: the variable `system.port` is registered.  For the document
`System: {Port: 8080}` the walk stops at the key `System`, whose capital
letter fails the character test that runs before the key is lowered, so
`LoadFromYaml` makes no call of `fromString`; for `system: {port9: 1}` with
`system.port9` registered it makes none either; for `system: {port: 8080}` it
calls `fromString` on `system.port` with the node `8080`. -/
theorem loadFromYaml_drops_capital_keys :
    Config.LoadFromYaml (fun k => decide (k = "system.port".toList))
      (YamlNode.map (YamlEntries.cons "System".toList
        (YamlNode.map (YamlEntries.cons "Port".toList (YamlNode.scalar "8080".toList)
          YamlEntries.nil)) YamlEntries.nil)) = [] ∧
    ("System".toList ++ ['.'] ++ "Port".toList).map Char.toLower = "system.port".toList ∧
    Config.LoadFromYaml (fun k => decide (k = "system.port9".toList))
      (YamlNode.map (YamlEntries.cons "system".toList
        (YamlNode.map (YamlEntries.cons "port9".toList (YamlNode.scalar "1".toList)
          YamlEntries.nil)) YamlEntries.nil)) = [] ∧
    Config.LoadFromYaml (fun k => decide (k = "system.port".toList))
      (YamlNode.map (YamlEntries.cons "system".toList
        (YamlNode.map (YamlEntries.cons "port".toList (YamlNode.scalar "8080".toList)
          YamlEntries.nil)) YamlEntries.nil)) =
      [("system.port".toList, YamlNode.scalar "8080".toList)] := by
  exact ⟨rfl, by decide, rfl, rfl⟩

/-- C23: `Logger::log` calls `log` on every appender of the logger, once each
and in the order in which `addAppender` put them, when the level of the event
is at most the level of the logger, and on none otherwise; the levels are
ordered FATAL < ALERT < CRIT < ERROR < WARN < NOTICE < INFO < DEBUG; a new
logger has level INFO, so it passes INFO and drops DEBUG, and after
`setLevel(WARN)` it drops INFO and DEBUG and passes ERROR and FATAL. -/
theorem logger_log_filter (l : Logger) (level appender : Nat) (apps : List Nat) :
    l.log level = (if level ≤ l.m_level then l.m_appenders else []) ∧
    (l.addAppender appender).m_appenders = l.m_appenders ++ [appender] ∧
    (LogLevel.FATAL < LogLevel.ALERT ∧ LogLevel.ALERT < LogLevel.CRIT ∧
      LogLevel.CRIT < LogLevel.ERROR ∧ LogLevel.ERROR < LogLevel.WARN ∧
      LogLevel.WARN < LogLevel.NOTICE ∧ LogLevel.NOTICE < LogLevel.INFO ∧
      LogLevel.INFO < LogLevel.DEBUG) ∧
    Logger.new.m_level = LogLevel.INFO ∧
    Logger.log { Logger.new with m_appenders := apps } LogLevel.INFO = apps ∧
    Logger.log { Logger.new with m_appenders := apps } LogLevel.DEBUG = [] ∧
    (Logger.setLevel { Logger.new with m_appenders := apps } LogLevel.WARN).log LogLevel.INFO
      = [] ∧
    (Logger.setLevel { Logger.new with m_appenders := apps } LogLevel.WARN).log LogLevel.DEBUG
      = [] ∧
    (Logger.setLevel { Logger.new with m_appenders := apps } LogLevel.WARN).log LogLevel.ERROR
      = apps ∧
    (Logger.setLevel { Logger.new with m_appenders := apps } LogLevel.WARN).log LogLevel.FATAL
      = apps := by
  have key : ∀ (g : Logger) (lv : Nat),
      g.log lv = (if lv ≤ g.m_level then g.m_appenders else []) := by
    intro g lv
    unfold Logger.log
    split
    · rw [foldl_snoc_eq]
      simp
    · rfl
  refine ⟨key l level, rfl, by decide, rfl, ?_, ?_, ?_, ?_, ?_, ?_⟩
  · rw [key]; rfl
  · rw [key]; rfl
  · rw [key]; rfl
  · rw [key]; rfl
  · rw [key]; rfl
  · rw [key]; rfl

/-- C29: for the address whose 16 bytes are all 0xff, `networkAddress(4)`
returns the first byte 0x0f where the network address has 0xf0: the byte is
combined with `CreateMask`, the mask of the host bits, and not with its
complement; `networkAddress(0)` leaves the first byte 0xff where all bits are
to be cleared, `networkAddress(64)` leaves byte 8, and `networkAddress(128)`
indexes byte 16, behind the end of the 16-byte array. -/
theorem networkAddress_keeps_host_bits :
    CreateMask8 4 = 15 ∧
    IPv6Address.networkAddress (List.replicate 16 255) 4 =
      some [15, 0, 0, 0, 0, 0, 0, 0, 0, 0, 0, 0, 0, 0, 0, 0] ∧
    networkOf (List.replicate 16 255) 4 = [240, 0, 0, 0, 0, 0, 0, 0, 0, 0, 0, 0, 0, 0, 0, 0] ∧
    IPv6Address.networkAddress (List.replicate 16 255) 0 =
      some [255, 0, 0, 0, 0, 0, 0, 0, 0, 0, 0, 0, 0, 0, 0, 0] ∧
    networkOf (List.replicate 16 255) 0 = List.replicate 16 0 ∧
    IPv6Address.networkAddress (List.replicate 16 255) 64 =
      some [255, 255, 255, 255, 255, 255, 255, 255, 255, 0, 0, 0, 0, 0, 0, 0] ∧
    networkOf (List.replicate 16 255) 64 =
      [255, 255, 255, 255, 255, 255, 255, 255, 0, 0, 0, 0, 0, 0, 0, 0] ∧
    IPv6Address.networkAddress (List.replicate 16 255) 128 = none := by
  decide

/-- C30: `TrimRight("abc  ", " ")` is "ab": `substr(0, end)` takes `end`
characters and so drops the last character that is not a delimiter, where the
longest prefix that ends in such a character is "abc"; `TrimRight("a", " ")`
is empty; and `Trim("  abc  ", " ")` is "abc" while
`TrimLeft(TrimRight("  abc  ", " "), " ")` is "ab". -/
theorem trimRight_drops_last_character :
    StringUtil.TrimRight "abc  ".toList " ".toList = "ab".toList ∧
    StringUtil.TrimRight "a".toList " ".toList = [] ∧
    StringUtil.Trim "  abc  ".toList " ".toList = "abc".toList ∧
    StringUtil.TrimLeft (StringUtil.TrimRight "  abc  ".toList " ".toList) " ".toList =
      "ab".toList ∧
    StringUtil.TrimLeft "  abc  ".toList " ".toList = "abc  ".toList := by
  decide

end sylar
